import Mathlib

/-!
Verification of the grid shortest-path program (`p1.py`).

The program is embedded shallowly:

* Python `(x, y)` integer coordinate tuples become `Cell := ℤ × ℤ`.
* Python float costs are idealized as elements of an arbitrary linear ordered
  field `α`; the float value `inf` is modeled by `⊤` in `WithTop α`.  The
  constant `sqrt(2) * .5` computed at the top of `navigation_edges` is passed
  in as a parameter `s : α`; theorems that depend on its value carry the
  hypothesis that `2 * s` squares to `2` (the defining property of `sqrt 2`).
  For concrete runs we instantiate `α` with the computable field `Q2` of
  numbers `a + b * sqrt 2` with rational `a`, `b`, constructed below.
* Python dicts become association lists (`alookup` / `upsert`), Python sets
  of cells become lists of cells with membership.
* `heapq` heaps become lists managed by `popMin`, which removes a minimal
  element with respect to Python's lexicographic order on `(cell, cost)`
  tuples.  A binary heap and `popMin` pop the same multiset of entries in the
  same order (equal entries are indistinguishable), so this is faithful.
* The unbounded `while` loops take a fuel parameter; `Res.timeout` reports
  exhausted fuel, `Res.err` reports a raised `KeyError` (the only reachable
  Python exception: `level['spaces'][cell]` with `cell` not in `spaces`),
  and `Res.ok` a normal return.  Python `None` becomes `Option.none`.
-/

/-- Result of running an embedded fragment: fuel ran out, a Python exception
was raised, or a value was returned. -/
inductive Res (β : Type) where
  | timeout : Res β
  | err : Res β
  | ok : β → Res β
deriving DecidableEq, Repr

/-- Integer grid coordinates, Python's `(x, y)` tuples. -/
abbrev Cell : Type := ℤ × ℤ

/-- A loaded level: `spaces` maps traversable cells to their occupancy cost
(a Python dict), `walls` is the set of impassable cells (a Python set).
Waypoints are only used by the out-of-scope driver code and are omitted. -/
structure Grid (α : Type) where
  spaces : List (Cell × α)
  walls : List Cell

/-- Python dict read `d[c]` returning `none` when the key is absent. -/
def alookup {β : Type} : List (Cell × β) → Cell → Option β
  | [], _ => none
  | kv :: t, c => if kv.1 = c then some kv.2 else alookup t c

/-- Python dict write `d[c] = v`: overwrite in place, else append. -/
def upsert {β : Type} : List (Cell × β) → Cell → β → List (Cell × β)
  | [], c, v => [(c, v)]
  | kv :: t, c, v => if kv.1 = c then (c, v) :: t else kv :: upsert t c v

/-- Lexicographic strict order on cells, Python's tuple comparison. -/
def cellLt (c d : Cell) : Prop :=
  c.1 < d.1 ∨ (c.1 = d.1 ∧ c.2 < d.2)

instance (c d : Cell) : Decidable (cellLt c d) := by
  unfold cellLt; infer_instance

section Embedding

variable {α : Type} [LinearOrderedField α]

/-- A heap entry, Python's `(cell, accumulated cost)` tuple.  Note the cell
comes first: `heapq` therefore orders entries by cell, then by cost. -/
abbrev Entry (α : Type) : Type := Cell × WithTop α

/-- Python tuple comparison on heap entries: cell first, then cost. -/
def entryLt (e f : Entry α) : Prop :=
  cellLt e.1 f.1 ∨ (e.1 = f.1 ∧ e.2 < f.2)

instance (e f : Entry α) : Decidable (entryLt e f) := by
  unfold entryLt; infer_instance

/-- `heappop`: remove a minimal entry (in the `entryLt` order) from the heap,
returning it and the remaining entries.  `none` on an empty heap. -/
def popMin : List (Entry α) → Option (Entry α × List (Entry α))
  | [] => none
  | e :: t =>
    some (match popMin t with
      | none => (e, ([] : List (Entry α)))
      | some (m, r) => if entryLt m e then (m, e :: r) else (e, t))

/-- The list `near_cells` of `navigation_edges`: the 8 Moore neighbours of
`cell`, produced by the comprehension
`[(x,y) for x in [cx-1,cx,cx+1] for y in [cy-1,cy,cy+1] if (x,y) != cell]`. -/
def nearCells (cell : Cell) : List Cell :=
  (([cell.1 - 1, cell.1, cell.1 + 1].flatMap fun x =>
    [cell.2 - 1, cell.2, cell.2 + 1].map fun y => ((x, y) : Cell))).filter
    (fun c => c ≠ cell)

/-- Loop body of `navigation_edges`: process one candidate neighbour `c`,
appending `(c, cost)` to the accumulator.  A `none` accumulator or result
models the `KeyError` raised by `level['spaces'][cell]` when `cell` itself is
not a space (possible when `c` is a space but `cell` is not). -/
def navStep (s : α) (level : Grid α) (cell : Cell)
    (acc : Option (List (Entry α))) (c : Cell) : Option (List (Entry α)) :=
  match acc with
  | none => none
  | some l =>
    match alookup level.spaces c with
    | some ccost =>
      match alookup level.spaces cell with
      | none => none
      | some scost =>
        if c.1 ≠ cell.1 ∧ c.2 ≠ cell.2 then
          some (l ++ [(c, ((scost * s + ccost * s : α) : WithTop α))])
        else
          some (l ++ [(c, ((scost * (1 / 2) + ccost * (1 / 2) : α) : WithTop α))])
    | none =>
      if c ∈ level.walls then some (l ++ [(c, (⊤ : WithTop α))]) else some l

/-- Embedding of `navigation_edges(level, cell)`.  `s` is the Python local
`sqrt2 = sqrt(2) * .5`.  Space neighbours get cost
`spaces[cell]*s + spaces[c]*s` (diagonal) or
`spaces[cell]*0.5 + spaces[c]*0.5` (straight); wall neighbours get `inf`. -/
def navigation_edges (s : α) (level : Grid α) (cell : Cell) :
    Option (List (Entry α)) :=
  (nearCells cell).foldl (navStep s level cell) (some [])

/-- One relaxation from the popped cell (whose current dict cost is `du`)
along the edge `cw = (neighbour, edge cost)`: if the neighbour is absent from
the dict or its recorded cost exceeds `cw.2 + du`, record `cw.2 + du` and push
the neighbour.  This is one element of the Python set comprehension
`{(c[0], c[1] + dij_dict[cell[0]]) for c in costs if ...}` together with its
subsequent dict write and `heappush`. -/
def relaxOne (du : WithTop α) (st : List (Cell × WithTop α) × List (Entry α))
    (cw : Entry α) : List (Cell × WithTop α) × List (Entry α) :=
  let nv := cw.2 + du
  match alookup st.1 cw.1 with
  | none => (upsert st.1 cw.1 nv, st.2 ++ [(cw.1, nv)])
  | some old => if old > nv then (upsert st.1 cw.1 nv, st.2 ++ [(cw.1, nv)]) else st

/-- All relaxations of one popped cell.  The Python code first builds the
whole set `temp_dict` from the pre-update dict and then applies the updates;
since the neighbours in `costs` are pairwise distinct cells, distinct from the
popped cell, the sequential fold reads exactly the same dict values. -/
def relaxAll (du : WithTop α) (dij : List (Cell × WithTop α))
    (qheap : List (Entry α)) (costs : List (Entry α)) :
    List (Cell × WithTop α) × List (Entry α) :=
  costs.foldl (relaxOne du) (dij, qheap)

/-- The seeding loop shared by both queries:
`dij_dict = {initial_position: 0}` followed by
`for c in adject: heappush(qheap, c); dij_dict[c[0]] = c[1]`.
The resulting heap is `adject` itself (as a multiset). -/
def seedDict (initial_position : Cell) (adject : List (Entry α)) :
    List (Cell × WithTop α) :=
  adject.foldl (fun d c => upsert d c.1 c.2) [(initial_position, (0 : WithTop α))]

/-- The `while qheap:` loop of `dijkstras_shortest_path_to_all`: pop a minimal
entry, skip it if it is a wall, otherwise relax all its outgoing edges. -/
def toAllLoop (adj : Grid α → Cell → Option (List (Entry α))) (graph : Grid α) :
    ℕ → List (Cell × WithTop α) → List (Entry α) → Res (List (Cell × WithTop α))
  | 0, _, _ => Res.timeout
  | n + 1, dij, qheap =>
    match popMin qheap with
    | none => Res.ok dij
    | some (cell, rest) =>
      if cell.1 ∈ graph.walls then toAllLoop adj graph n dij rest
      else
        match alookup dij cell.1, adj graph cell.1 with
        | some du, some costs =>
          let st := relaxAll du dij rest costs
          toAllLoop adj graph n st.1 st.2
        | _, _ => Res.err

/-- Embedding of `dijkstras_shortest_path_to_all(initial_position, graph, adj)`. -/
def dijkstras_shortest_path_to_all (fuel : ℕ)
    (adj : Grid α → Cell → Option (List (Entry α)))
    (initial_position : Cell) (graph : Grid α) :
    Res (List (Cell × WithTop α)) :=
  match adj graph initial_position with
  | none => Res.err
  | some adject => toAllLoop adj graph fuel (seedDict initial_position adject) adject

/-- The `while qheap:` loop of `dijkstras_shortest_path`: identical to
`toAllLoop` except that popping the destination breaks out of the loop
(before the wall check). -/
def spLoop (adj : Grid α → Cell → Option (List (Entry α))) (graph : Grid α)
    (destination : Cell) :
    ℕ → List (Cell × WithTop α) → List (Entry α) → Res (List (Cell × WithTop α))
  | 0, _, _ => Res.timeout
  | n + 1, dij, qheap =>
    match popMin qheap with
    | none => Res.ok dij
    | some (cell, rest) =>
      if cell.1 = destination then Res.ok dij
      else if cell.1 ∈ graph.walls then spLoop adj graph destination n dij rest
      else
        match alookup dij cell.1, adj graph cell.1 with
        | some du, some costs =>
          let st := relaxAll du dij rest costs
          spLoop adj graph destination n st.1 st.2
        | _, _ => Res.err

/-- The nine cells scanned by the reconstruction loop, in Python's scan order
`for y in range(3): for x in range(3): check = (curr[0]+(x-1), curr[1]+(y-1))`
(this 3-by-3 box includes `curr` itself). -/
def boxCells (curr : Cell) : List Cell :=
  ([0, 1, 2] : List ℤ).flatMap fun y =>
    ([0, 1, 2] : List ℤ).map fun x => ((curr.1 + (x - 1), curr.2 + (y - 1)) : Cell)

/-- The reconstruction condition
`check in dij_dict and dij_dict[check] < dij_dict[curr] and dij_dict[check] < dij_dict[found]`.
Whenever this is evaluated, `curr` and `found` are keys of the dict (they are
the destination, which was checked, or an earlier accepted `check`), so the
catch-all `false` branches are never reached on Python-reachable states. -/
def boxCond (dij : List (Cell × WithTop α)) (check curr found : Cell) : Bool :=
  match alookup dij check, alookup dij curr, alookup dij found with
  | some a, some b, some f => decide (a < b) && decide (a < f)
  | _, _, _ => false

/-- The inner double `for` loop of path reconstruction: scan the 3-by-3 box
around `curr`, replacing `found` by every cell that passes `boxCond`. -/
def scanBox (dij : List (Cell × WithTop α)) (curr found0 : Cell) : Cell :=
  (boxCells curr).foldl
    (fun found check => if boxCond dij check curr found then check else found)
    found0

/-- The `while curr != initial_position:` reconstruction loop.  On entry to
each iteration `found = curr` (initially both are the destination, and the
Python code sets `curr = found` at the end of each iteration).  Each iteration
prepends the new `found` to the path; on exit the initial position is
prepended once more. -/
def reconLoop (dij : List (Cell × WithTop α)) (initial_position : Cell) :
    ℕ → Cell → List Cell → Res (List Cell)
  | 0, _, _ => Res.timeout
  | n + 1, curr, path =>
    if curr = initial_position then Res.ok (initial_position :: path)
    else
      let found := scanBox dij curr curr
      reconLoop dij initial_position n found (found :: path)

/-- Embedding of `dijkstras_shortest_path(initial_position, destination, graph, adj)`.
Returns `ok none` for Python's `return None` (no path) and `ok (some path)`
for a returned list of cells. -/
def dijkstras_shortest_path (fuel : ℕ)
    (adj : Grid α → Cell → Option (List (Entry α)))
    (initial_position destination : Cell) (graph : Grid α) :
    Res (Option (List Cell)) :=
  match adj graph initial_position with
  | none => Res.err
  | some adject =>
    match spLoop adj graph destination fuel (seedDict initial_position adject) adject with
    | Res.timeout => Res.timeout
    | Res.err => Res.err
    | Res.ok dij =>
      if (alookup dij destination).isNone then Res.ok none
      else
        match reconLoop dij initial_position fuel destination [destination] with
        | Res.timeout => Res.timeout
        | Res.err => Res.err
        | Res.ok path => Res.ok (some path)

end Embedding

/-!
The computable field `Q2` of real numbers of the form `a + b * sqrt 2`
with `a b : ℚ`.  It carries a decidable linear order (an explicit sign test),
so concrete runs of the embedded program with costs involving `sqrt 2` can be
evaluated by the kernel.  The order and field axioms are obtained by
transporting along the (injective) evaluation map `toR` into `ℝ`.
-/

/-- A formal number `a + b * sqrt 2` with rational coefficients. -/
@[ext]
structure Q2 where
  a : ℚ
  b : ℚ
deriving DecidableEq, Repr

namespace Q2

instance : Zero Q2 := ⟨⟨0, 0⟩⟩

instance : One Q2 := ⟨⟨1, 0⟩⟩

instance : Add Q2 := ⟨fun x y => ⟨x.a + y.a, x.b + y.b⟩⟩

instance : Neg Q2 := ⟨fun x => ⟨-x.a, -x.b⟩⟩

instance : Mul Q2 := ⟨fun x y => ⟨x.a * y.a + 2 * x.b * y.b, x.a * y.b + x.b * y.a⟩⟩

instance : Inv Q2 :=
  ⟨fun x => ⟨x.a / (x.a ^ 2 - 2 * x.b ^ 2), -x.b / (x.a ^ 2 - 2 * x.b ^ 2)⟩⟩

@[simp] theorem zero_a : (0 : Q2).a = 0 := rfl

@[simp] theorem zero_b : (0 : Q2).b = 0 := rfl

@[simp] theorem one_a : (1 : Q2).a = 1 := rfl

@[simp] theorem one_b : (1 : Q2).b = 0 := rfl

@[simp] theorem add_a (x y : Q2) : (x + y).a = x.a + y.a := rfl

@[simp] theorem add_b (x y : Q2) : (x + y).b = x.b + y.b := rfl

@[simp] theorem neg_a (x : Q2) : (-x).a = -x.a := rfl

@[simp] theorem neg_b (x : Q2) : (-x).b = -x.b := rfl

@[simp] theorem mul_a (x y : Q2) : (x * y).a = x.a * y.a + 2 * x.b * y.b := rfl

@[simp] theorem mul_b (x y : Q2) : (x * y).b = x.a * y.b + x.b * y.a := rfl

@[simp] theorem inv_a (x : Q2) : (x⁻¹).a = x.a / (x.a ^ 2 - 2 * x.b ^ 2) := rfl

@[simp] theorem inv_b (x : Q2) : (x⁻¹).b = -x.b / (x.a ^ 2 - 2 * x.b ^ 2) := rfl

instance addCommGroup : AddCommGroup Q2 := by
  refine
  { add := (· + ·)
    zero := (0 : Q2)
    sub := fun x y => x + -y
    neg := Neg.neg
    nsmul := @nsmulRec Q2 ⟨0⟩ ⟨(· + ·)⟩
    zsmul := @zsmulRec Q2 ⟨0⟩ ⟨(· + ·)⟩ ⟨Neg.neg⟩ (@nsmulRec Q2 ⟨0⟩ ⟨(· + ·)⟩)
    add_assoc := ?_
    zero_add := ?_
    add_zero := ?_
    neg_add_cancel := ?_
    add_comm := ?_ } <;>
  intros <;>
  ext <;>
  simp <;>
  ring

@[simp] theorem sub_a (x y : Q2) : (x - y).a = x.a - y.a := by
  show (x + -y).a = _; rw [add_a, neg_a]; ring

@[simp] theorem sub_b (x y : Q2) : (x - y).b = x.b - y.b := by
  show (x + -y).b = _; rw [add_b, neg_b]; ring

instance commRing : CommRing Q2 := by
  refine
  { Q2.addCommGroup with
    mul := (· * ·)
    one := (1 : Q2)
    npow := @npowRec Q2 ⟨1⟩ ⟨(· * ·)⟩
    add_comm := ?_
    left_distrib := ?_
    right_distrib := ?_
    zero_mul := ?_
    mul_zero := ?_
    mul_assoc := ?_
    one_mul := ?_
    mul_one := ?_
    mul_comm := ?_ } <;>
  intros <;>
  ext <;>
  simp <;>
  push_cast <;>
  ring

/-- Evaluation into the real numbers. -/
noncomputable def toR (x : Q2) : ℝ := (x.a : ℝ) + (x.b : ℝ) * Real.sqrt 2

theorem rt_pos : (0 : ℝ) < Real.sqrt 2 := Real.sqrt_pos.mpr (by norm_num)

theorem rt_sq : Real.sqrt 2 ^ 2 = 2 := Real.sq_sqrt (by norm_num)

/-- A rational square is never `2`: irrationality of `sqrt 2`. -/
theorem rat_sq_ne_two (q : ℚ) : q ^ 2 ≠ 2 := by
  intro h
  have hq : ((q : ℝ)) ^ 2 = 2 := by exact_mod_cast congrArg (fun r : ℚ => (r : ℝ)) h
  have h1 : Real.sqrt 2 = |(q : ℝ)| := by
    rw [← hq, Real.sqrt_sq_eq_abs]
  have h2 : Real.sqrt 2 = ((|q| : ℚ) : ℝ) := by
    rw [h1]; push_cast; rfl
  exact irrational_sqrt_two ⟨|q|, h2.symm⟩

theorem toR_components {x : Q2} (h : toR x = 0) : x.a = 0 ∧ x.b = 0 := by
  rcases eq_or_ne x.b 0 with hb | hb
  · have ha : (x.a : ℝ) = 0 := by
      rw [toR, hb] at h; push_cast at h; linarith
    exact ⟨by exact_mod_cast ha, hb⟩
  · exfalso
    have hbR : (x.b : ℝ) ≠ 0 := by exact_mod_cast hb
    have h1 : Real.sqrt 2 = ((-x.a / x.b : ℚ) : ℝ) := by
      rw [toR] at h
      push_cast
      field_simp
      linarith
    exact irrational_sqrt_two ⟨-x.a / x.b, h1.symm⟩

theorem toR_inj : Function.Injective toR := by
  intro x y h
  have hz : toR (x - y) = 0 := by
    simp only [toR, sub_a, sub_b] at h ⊢
    push_cast
    linarith
  obtain ⟨h1, h2⟩ := toR_components hz
  rw [sub_a] at h1; rw [sub_b] at h2
  ext <;> linarith

theorem toR_zero : toR 0 = 0 := by simp [toR]

theorem toR_one : toR 1 = 1 := by simp [toR]

theorem toR_add (x y : Q2) : toR (x + y) = toR x + toR y := by
  simp only [toR, add_a, add_b]; push_cast; ring

theorem toR_neg (x : Q2) : toR (-x) = -toR x := by
  simp only [toR, neg_a, neg_b]; push_cast; ring

theorem toR_mul (x y : Q2) : toR (x * y) = toR x * toR y := by
  simp only [toR, mul_a, mul_b]
  push_cast
  linear_combination (-(x.b : ℝ) * (y.b : ℝ)) * rt_sq

/-- The decidable sign test for `0 ≤ a + b * sqrt 2`. -/
def Nonneg (z : Q2) : Prop :=
  (0 ≤ z.a ∧ 0 ≤ z.b) ∨ (0 ≤ z.a ∧ z.b < 0 ∧ 2 * z.b ^ 2 ≤ z.a ^ 2) ∨
    (z.a < 0 ∧ 0 ≤ z.b ∧ z.a ^ 2 ≤ 2 * z.b ^ 2)

instance (z : Q2) : Decidable (Nonneg z) := by
  unfold Nonneg; infer_instance

theorem nonneg_iff (z : Q2) : Nonneg z ↔ 0 ≤ toR z := by
  have ha2 : ((z.a : ℝ)) ^ 2 = ((z.a ^ 2 : ℚ) : ℝ) := by push_cast; ring
  have hb2 : ((z.b : ℝ)) ^ 2 = ((z.b ^ 2 : ℚ) : ℝ) := by push_cast; ring
  rw [toR]
  rcases le_or_lt 0 z.a with ha | ha <;> rcases le_or_lt 0 z.b with hb | hb
  · refine iff_of_true (Or.inl ⟨ha, hb⟩) ?_
    have ha' : (0 : ℝ) ≤ (z.a : ℝ) := by exact_mod_cast ha
    have hb' : (0 : ℝ) ≤ (z.b : ℝ) := by exact_mod_cast hb
    have := mul_nonneg hb' rt_pos.le
    linarith
  · have hb' : (z.b : ℝ) < 0 := by exact_mod_cast hb
    have ha' : (0 : ℝ) ≤ (z.a : ℝ) := by exact_mod_cast ha
    have ht : (0 : ℝ) ≤ -(z.b : ℝ) * Real.sqrt 2 := by
      have := mul_nonneg (show (0:ℝ) ≤ -(z.b : ℝ) by linarith) rt_pos.le
      linarith
    have hsq : (-(z.b : ℝ) * Real.sqrt 2) ^ 2 = ((2 * z.b ^ 2 : ℚ) : ℝ) := by
      rw [mul_pow, rt_sq]; push_cast; ring
    rcases le_or_lt (2 * z.b ^ 2) (z.a ^ 2) with hs | hs
    · refine iff_of_true (Or.inr (Or.inl ⟨ha, hb, hs⟩)) ?_
      have hs' : ((2 * z.b ^ 2 : ℚ) : ℝ) ≤ ((z.a ^ 2 : ℚ) : ℝ) := by exact_mod_cast hs
      by_contra hc
      push_neg at hc
      have hlt : (z.a : ℝ) < -(z.b : ℝ) * Real.sqrt 2 := by linarith
      have := pow_lt_pow_left hlt ha' two_ne_zero
      rw [hsq] at this
      rw [← ha2] at hs'
      linarith
    · refine iff_of_false ?_ ?_
      · rintro (⟨_, h⟩ | ⟨_, _, h⟩ | ⟨h, _, _⟩)
        · exact absurd h (not_le.mpr hb)
        · exact absurd h (not_le.mpr hs)
        · exact absurd h (not_lt.mpr ha)
      · intro hcon
        have hs' : ((z.a ^ 2 : ℚ) : ℝ) < ((2 * z.b ^ 2 : ℚ) : ℝ) := by exact_mod_cast hs
        have hge : -(z.b : ℝ) * Real.sqrt 2 ≤ (z.a : ℝ) := by linarith
        have := pow_le_pow_left ht hge 2
        rw [hsq] at this
        rw [← ha2] at hs'
        linarith
  · have hb' : (0 : ℝ) ≤ (z.b : ℝ) := by exact_mod_cast hb
    have ha' : (z.a : ℝ) < 0 := by exact_mod_cast ha
    have ht : (0 : ℝ) ≤ (z.b : ℝ) * Real.sqrt 2 := mul_nonneg hb' rt_pos.le
    have hsq : ((z.b : ℝ) * Real.sqrt 2) ^ 2 = ((2 * z.b ^ 2 : ℚ) : ℝ) := by
      rw [mul_pow, rt_sq]; push_cast; ring
    rcases le_or_lt (z.a ^ 2) (2 * z.b ^ 2) with hs | hs
    · refine iff_of_true (Or.inr (Or.inr ⟨ha, hb, hs⟩)) ?_
      have hs' : ((z.a ^ 2 : ℚ) : ℝ) ≤ ((2 * z.b ^ 2 : ℚ) : ℝ) := by exact_mod_cast hs
      by_contra hc
      push_neg at hc
      have hlt : (z.b : ℝ) * Real.sqrt 2 < -(z.a : ℝ) := by linarith
      have := pow_lt_pow_left hlt ht two_ne_zero
      have hna : (-(z.a : ℝ)) ^ 2 = ((z.a ^ 2 : ℚ) : ℝ) := by push_cast; ring
      rw [hsq, hna] at this
      linarith
    · refine iff_of_false ?_ ?_
      · rintro (⟨h, _⟩ | ⟨h, _, _⟩ | ⟨_, _, h⟩)
        · exact absurd h (not_le.mpr ha)
        · exact absurd h (not_le.mpr ha)
        · exact absurd h (not_le.mpr hs)
      · intro hcon
        have hs' : ((2 * z.b ^ 2 : ℚ) : ℝ) < ((z.a ^ 2 : ℚ) : ℝ) := by exact_mod_cast hs
        have hge : -(z.a : ℝ) ≤ (z.b : ℝ) * Real.sqrt 2 := by linarith
        have hna : (0 : ℝ) ≤ -(z.a : ℝ) := by linarith
        have := pow_le_pow_left hna hge 2
        have hna2 : (-(z.a : ℝ)) ^ 2 = ((z.a ^ 2 : ℚ) : ℝ) := by push_cast; ring
        rw [hsq, hna2] at this
        linarith
  · refine iff_of_false ?_ ?_
    · rintro (⟨h, _⟩ | ⟨h, _, _⟩ | ⟨_, h, _⟩)
      · exact absurd h (not_le.mpr ha)
      · exact absurd h (not_le.mpr ha)
      · exact absurd h (not_le.mpr hb)
    · intro hcon
      have ha' : (z.a : ℝ) < 0 := by exact_mod_cast ha
      have hb' : (z.b : ℝ) < 0 := by exact_mod_cast hb
      have := mul_neg_of_neg_of_pos hb' rt_pos
      linarith

/-- The decidable order: `x ≤ y` iff `y - x` passes the sign test. -/
instance : LE Q2 := ⟨fun x y => Nonneg (y - x)⟩

instance decLE (x y : Q2) : Decidable (x ≤ y) :=
  inferInstanceAs (Decidable (Nonneg (y - x)))

theorem le_iff_toR (x y : Q2) : x ≤ y ↔ toR x ≤ toR y := by
  show Nonneg (y - x) ↔ _
  rw [nonneg_iff]
  have h : toR (y - x) = toR y - toR x := by
    have h1 : y - x + x = y := by ext <;> simp <;> ring
    have h2 := toR_add (y - x) x
    rw [h1] at h2
    linarith
  rw [h]
  constructor <;> intro <;> linarith

instance linearOrder : LinearOrder Q2 where
  le_refl x := (le_iff_toR x x).mpr le_rfl
  le_trans x y z hxy hyz :=
    (le_iff_toR x z).mpr (le_trans ((le_iff_toR x y).mp hxy) ((le_iff_toR y z).mp hyz))
  le_antisymm x y hxy hyx :=
    toR_inj (le_antisymm ((le_iff_toR x y).mp hxy) ((le_iff_toR y x).mp hyx))
  le_total x y := by
    rcases le_total (toR x) (toR y) with h | h
    · exact Or.inl ((le_iff_toR x y).mpr h)
    · exact Or.inr ((le_iff_toR y x).mpr h)
  decidableLE := Q2.decLE

theorem lt_iff_toR (x y : Q2) : x < y ↔ toR x < toR y := by
  rw [lt_iff_le_not_le, lt_iff_le_not_le, le_iff_toR, le_iff_toR]

theorem sq_den_ne {x : Q2} (hx : x ≠ 0) : x.a ^ 2 - 2 * x.b ^ 2 ≠ 0 := by
  intro h
  rcases eq_or_ne x.b 0 with hb | hb
  · apply hx
    have ha : x.a ^ 2 = 0 := by rw [hb] at h; simpa using h
    have ha2 : x.a = 0 := by
      exact pow_eq_zero_iff two_ne_zero |>.mp ha
    ext <;> simp [ha2, hb]
  · exact rat_sq_ne_two (x.a / x.b) (by field_simp; linarith)

instance field : Field Q2 where
  exists_pair_ne :=
    ⟨0, 1, fun h => absurd (congrArg toR h) (by rw [toR_zero, toR_one]; norm_num)⟩
  mul_inv_cancel x hx := by
    have hd : x.a ^ 2 - 2 * x.b ^ 2 ≠ 0 := sq_den_ne hx
    ext <;> simp <;> field_simp <;> ring
  inv_zero := by ext <;> simp
  nnqsmul := _
  qsmul := _

instance : LinearOrderedField Q2 where
  __ := Q2.linearOrder
  __ := Q2.field
  __ := Q2.commRing
  zero_le_one := (le_iff_toR 0 1).mpr (by rw [toR_zero, toR_one]; norm_num)
  add_le_add_left x y h z := by
    rw [le_iff_toR] at h ⊢
    rw [toR_add, toR_add]
    linarith
  mul_pos x y hx hy := by
    rw [lt_iff_toR] at hx hy ⊢
    rw [toR_mul, toR_zero] at *
    exact mul_pos hx hy

/-- The number `sqrt 2` inside `Q2`. -/
def rt2 : Q2 := ⟨0, 1⟩

/-- The Python constant `sqrt2 = sqrt(2) * .5` inside `Q2`. -/
def shalf : Q2 := ⟨0, 1 / 2⟩

end Q2

/-!
Concrete levels used by the specification's worked scenarios and by the
counterexamples.  `grid3` is the 3-by-3 all-space level with uniform cost 1;
`grid3w` is the same level with cell `(1,0)` turned into a wall; `gridPair`
is a two-cell corridor; `gridWallNb` is a single space with one wall
neighbour.
-/

/-- The 3-by-3 all-space level, uniform cost `1`, no walls. -/
def grid3 : Grid Q2 :=
  ⟨[((0,0), 1), ((1,0), 1), ((2,0), 1),
    ((0,1), 1), ((1,1), 1), ((2,1), 1),
    ((0,2), 1), ((1,2), 1), ((2,2), 1)], []⟩

/-- The 3-by-3 level with `(1,0)` replaced by a wall. -/
def grid3w : Grid Q2 :=
  ⟨[((0,0), 1), ((2,0), 1),
    ((0,1), 1), ((1,1), 1), ((2,1), 1),
    ((0,2), 1), ((1,2), 1), ((2,2), 1)], [(1,0)]⟩

/-- A two-cell corridor `(0,0) - (1,0)`, uniform cost `1`. -/
def gridPair : Grid ℚ := ⟨[((0,0), 1), ((1,0), 1)], []⟩

/-- A single space `(0,0)` whose neighbour `(0,1)` is a wall. -/
def gridWallNb : Grid ℚ := ⟨[((0,0), 1)], [(0,1)]⟩

/-- C7: on the 3-by-3 uniform level from the centre, the cost-to-all query
returns a map sending the centre to `0`, the four orthogonal neighbours to
`1` and the four diagonal neighbours to `sqrt 2` (the positive square root
of `2`, with the Python constant `sqrt2 = sqrt(2) * .5` rendered as
`Q2.shalf = rt2 / 2`). -/
theorem C7_uniform_center_costs :
    ∃ m : List (Cell × WithTop Q2),
      dijkstras_shortest_path_to_all 100 (navigation_edges Q2.shalf) (1,1) grid3 =
        Res.ok m ∧
      alookup m (1,1) = some 0 ∧
      alookup m (0,1) = some 1 ∧ alookup m (1,0) = some 1 ∧
      alookup m (1,2) = some 1 ∧ alookup m (2,1) = some 1 ∧
      alookup m (0,0) = some (Q2.rt2 : WithTop Q2) ∧
      alookup m (0,2) = some (Q2.rt2 : WithTop Q2) ∧
      alookup m (2,0) = some (Q2.rt2 : WithTop Q2) ∧
      alookup m (2,2) = some (Q2.rt2 : WithTop Q2) ∧
      Q2.rt2 * Q2.rt2 = 2 ∧ 0 < Q2.rt2 ∧ 2 * Q2.shalf = Q2.rt2 :=
  ⟨[((1,1), (0 : WithTop Q2)),
    ((0,0), (Q2.rt2 : WithTop Q2)), ((0,1), ((1:Q2) : WithTop Q2)),
    ((0,2), (Q2.rt2 : WithTop Q2)), ((1,0), ((1:Q2) : WithTop Q2)),
    ((1,2), ((1:Q2) : WithTop Q2)), ((2,0), (Q2.rt2 : WithTop Q2)),
    ((2,1), ((1:Q2) : WithTop Q2)), ((2,2), (Q2.rt2 : WithTop Q2))],
   by with_unfolding_all decide⟩

/-- C4 fails on the code: with the destination `(1,0)` a wall on the 3-by-3
level, `dijkstras_shortest_path((1,1), (1,0), ...)` does not return the
distinguished no-path result `None`; it returns the path
`[(1,1), (1,1), (1,0)]` leading into the wall (with the source duplicated). -/
theorem C4_wall_destination_returns_path :
    dijkstras_shortest_path 100 (navigation_edges Q2.shalf) (1,1) (1,0) grid3w =
      Res.ok (some [(1,1), (1,1), (1,0)]) ∧
    (1,0) ∈ grid3w.walls ∧
    dijkstras_shortest_path 100 (navigation_edges Q2.shalf) (1,1) (1,0) grid3w ≠
      Res.ok (none : Option (List Cell)) := by
  with_unfolding_all decide

/-- C8 fails on the code: with source = destination = `(0,0)` a traversable
space, the returned path is the two-element list `[(0,0), (0,0)]`, not the
single-element list `[(0,0)]` (the final `path.insert(0, initial_position)`
duplicates the source). -/
theorem C8_self_path_two_elements :
    dijkstras_shortest_path 100 (navigation_edges ((1:ℚ)/2)) (0,0) (0,0) gridPair =
      Res.ok (some [(0,0), (0,0)]) ∧
    ([(0,0), (0,0)] : List Cell) ≠ [(0,0)] := by
  with_unfolding_all decide

/-- C5 fails on the code: on the two-cell corridor the returned path is
`[(0,0), (0,0), (1,0)]`, whose first consecutive pair `((0,0), (0,0))` is not
an edge of `navigation_edges(grid, (0,0))` (that adjacency list is
`[((1,0), 1)]` and contains no entry for `(0,0)`). -/
theorem C5_path_invalid_at_source :
    dijkstras_shortest_path 100 (navigation_edges ((1:ℚ)/2)) (0,0) (1,0) gridPair =
      Res.ok (some [(0,0), (0,0), (1,0)]) ∧
    navigation_edges ((1:ℚ)/2) gridPair (0,0) = some [((1,0), ((1:ℚ) : WithTop ℚ))] ∧
    (∀ e ∈ [((1,0), ((1:ℚ) : WithTop ℚ))], Prod.fst e ≠ (0,0)) := by
  with_unfolding_all decide

/-- C2 fails on the code: `navigation_edges` does return wall neighbours.
On `gridWallNb` the adjacency list of the space `(0,0)` is `[((0,1), inf)]`,
and `(0,1)` is a wall. -/
theorem C2_wall_inclusion_counterexample :
    ∃ l : List (Entry ℚ),
      navigation_edges ((1:ℚ)/2) gridWallNb (0,0) = some l ∧
      ∃ e ∈ l, Prod.fst e ∈ gridWallNb.walls :=
  ⟨[((0,1), (⊤ : WithTop ℚ))], by with_unfolding_all decide⟩

/-- C3 fails on the code: heap entries are `(cell, cost)` pairs, so `heapq`
orders them by cell first.  On the 3-by-3 uniform level from the centre, the
queue seeded by `dijkstras_shortest_path_to_all` is the adjacency list of the
source; its first popped entry is `((0,0), sqrt 2)`, whose cost exceeds the
cost `1` of the queued entry `((0,1), 1)`, and no queue entry is
`(0, source)` (the source never enters the queue at all). -/
theorem C3_pop_not_min_cost_counterexample :
    ∃ (adject rest : List (Entry Q2)) (m : Entry Q2),
      navigation_edges Q2.shalf grid3 (1,1) = some adject ∧
      popMin adject = some (m, rest) ∧
      ((0,1), ((1:Q2) : WithTop Q2)) ∈ adject ∧
      ¬ (Prod.snd m ≤ ((1:Q2) : WithTop Q2)) ∧
      (∀ e ∈ adject, Prod.fst e ≠ (1,1)) :=
  ⟨[((0,0), (Q2.rt2 : WithTop Q2)), ((0,1), ((1:Q2) : WithTop Q2)),
    ((0,2), (Q2.rt2 : WithTop Q2)), ((1,0), ((1:Q2) : WithTop Q2)),
    ((1,2), ((1:Q2) : WithTop Q2)), ((2,0), (Q2.rt2 : WithTop Q2)),
    ((2,1), ((1:Q2) : WithTop Q2)), ((2,2), (Q2.rt2 : WithTop Q2))],
   [((0,1), ((1:Q2) : WithTop Q2)),
    ((0,2), (Q2.rt2 : WithTop Q2)), ((1,0), ((1:Q2) : WithTop Q2)),
    ((1,2), ((1:Q2) : WithTop Q2)), ((2,0), (Q2.rt2 : WithTop Q2)),
    ((2,1), ((1:Q2) : WithTop Q2)), ((2,2), (Q2.rt2 : WithTop Q2))],
   ((0,0), (Q2.rt2 : WithTop Q2)),
   by with_unfolding_all decide⟩

/-!
Basic lemmas about the dictionary operations, the heap, and grid geometry.
-/

section BasicLemmas

variable {α : Type} [LinearOrderedField α]

theorem alookup_cons {β : Type} (k : Cell) (v : β) (t : List (Cell × β)) (c : Cell) :
    alookup ((k, v) :: t) c = if k = c then some v else alookup t c := rfl

theorem upsert_cons {β : Type} (kv : Cell × β) (t : List (Cell × β)) (k : Cell) (v : β) :
    upsert (kv :: t) k v = if kv.1 = k then (k, v) :: t else kv :: upsert t k v := by
  rcases kv with ⟨k0, v0⟩
  rw [upsert]

theorem alookup_upsert_self {β : Type} (d : List (Cell × β)) (k : Cell) (v : β) :
    alookup (upsert d k v) k = some v := by
  induction d with
  | nil => simp [upsert, alookup_cons]
  | cons kv t ih =>
    rw [upsert_cons]
    by_cases h : kv.1 = k
    · rw [if_pos h, alookup_cons, if_pos rfl]
    · rcases kv with ⟨k0, v0⟩
      rw [if_neg h, alookup_cons, if_neg h, ih]

theorem alookup_upsert_ne {β : Type} (d : List (Cell × β)) (k c : Cell) (v : β)
    (h : k ≠ c) : alookup (upsert d k v) c = alookup d c := by
  induction d with
  | nil => simp [upsert, alookup_cons, alookup, h]
  | cons kv t ih =>
    rcases kv with ⟨k0, v0⟩
    rw [upsert_cons]
    by_cases hk : k0 = k
    · rw [if_pos hk, alookup_cons, alookup_cons, if_neg h, hk, if_neg h]
    · rw [if_neg hk, alookup_cons, alookup_cons]
      by_cases hc : k0 = c
      · rw [if_pos hc, if_pos hc]
      · rw [if_neg hc, if_neg hc, ih]

theorem alookup_isSome_upsert {β : Type} (d : List (Cell × β)) (k c : Cell) (v : β)
    (h : (alookup d c).isSome) : (alookup (upsert d k v) c).isSome := by
  by_cases hk : k = c
  · subst hk; rw [alookup_upsert_self]; rfl
  · rw [alookup_upsert_ne d k c v hk]; exact h

theorem popMin_cons_nil (e : Entry α) (t : List (Entry α)) (ht : popMin t = none) :
    popMin (e :: t) = some (e, []) := by
  rw [popMin, ht]

theorem popMin_cons_lt (e : Entry α) (t : List (Entry α)) (m : Entry α)
    (r : List (Entry α)) (ht : popMin t = some (m, r)) (hlt : entryLt m e) :
    popMin (e :: t) = some (m, e :: r) := by
  rw [popMin, ht]
  simp [hlt]

theorem popMin_cons_ge (e : Entry α) (t : List (Entry α)) (m : Entry α)
    (r : List (Entry α)) (ht : popMin t = some (m, r)) (hlt : ¬ entryLt m e) :
    popMin (e :: t) = some (e, t) := by
  rw [popMin, ht]
  simp [hlt]

theorem popMin_none_iff (l : List (Entry α)) : popMin l = none ↔ l = [] := by
  cases l <;> simp [popMin]

theorem popMin_mem {l r : List (Entry α)} {m : Entry α}
    (h : popMin l = some (m, r)) : m ∈ l := by
  induction l generalizing m r with
  | nil => simp [popMin] at h
  | cons e t ih =>
    rcases ht : popMin t with _ | ⟨mt, rt⟩
    · rw [popMin_cons_nil e t ht] at h
      simp only [Option.some.injEq, Prod.mk.injEq] at h
      simp [← h.1]
    · by_cases hlt : entryLt mt e
      · rw [popMin_cons_lt e t mt rt ht hlt] at h
        simp only [Option.some.injEq, Prod.mk.injEq] at h
        exact List.mem_cons_of_mem e (h.1 ▸ ih ht)
      · rw [popMin_cons_ge e t mt rt ht hlt] at h
        simp only [Option.some.injEq, Prod.mk.injEq] at h
        simp [← h.1]

theorem popMin_rest_subset {l r : List (Entry α)} {m : Entry α}
    (h : popMin l = some (m, r)) : ∀ e ∈ r, e ∈ l := by
  induction l generalizing m r with
  | nil => simp [popMin] at h
  | cons e t ih =>
    rcases ht : popMin t with _ | ⟨mt, rt⟩
    · rw [popMin_cons_nil e t ht] at h
      simp only [Option.some.injEq, Prod.mk.injEq] at h
      rw [← h.2]
      intro x hx
      simp at hx
    · by_cases hlt : entryLt mt e
      · rw [popMin_cons_lt e t mt rt ht hlt] at h
        simp only [Option.some.injEq, Prod.mk.injEq] at h
        rw [← h.2]
        intro x hx
        rcases List.mem_cons.mp hx with hx | hx
        · simp [hx]
        · exact List.mem_cons_of_mem e (ih ht x hx)
      · rw [popMin_cons_ge e t mt rt ht hlt] at h
        simp only [Option.some.injEq, Prod.mk.injEq] at h
        rw [← h.2]
        intro x hx
        exact List.mem_cons_of_mem e hx

theorem popMin_cover {l r : List (Entry α)} {m : Entry α}
    (h : popMin l = some (m, r)) : ∀ e ∈ l, e = m ∨ e ∈ r := by
  induction l generalizing m r with
  | nil => simp [popMin] at h
  | cons e t ih =>
    rcases ht : popMin t with _ | ⟨mt, rt⟩
    · rw [popMin_cons_nil e t ht] at h
      simp only [Option.some.injEq, Prod.mk.injEq] at h
      rw [popMin_none_iff] at ht
      subst ht
      intro x hx
      simp at hx
      simp [hx, h.1.symm]
    · by_cases hlt : entryLt mt e
      · rw [popMin_cons_lt e t mt rt ht hlt] at h
        simp only [Option.some.injEq, Prod.mk.injEq] at h
        intro x hx
        rcases List.mem_cons.mp hx with hx | hx
        · right; rw [← h.2]; simp [hx]
        · rcases ih ht x hx with hx2 | hx2
          · left; rw [← h.1, hx2]
          · right; rw [← h.2]; simp [hx2]
      · rw [popMin_cons_ge e t mt rt ht hlt] at h
        simp only [Option.some.injEq, Prod.mk.injEq] at h
        intro x hx
        rcases List.mem_cons.mp hx with hx | hx
        · left; rw [← h.1, hx]
        · right; rw [← h.2]; exact hx

theorem cellLt_irrefl (c : Cell) : ¬ cellLt c c := by
  unfold cellLt; omega

theorem cellLt_trans {c d e : Cell} (h1 : cellLt c d) (h2 : cellLt d e) :
    cellLt c e := by
  unfold cellLt at *; omega

theorem cellLt_total (c d : Cell) : cellLt c d ∨ c = d ∨ cellLt d c := by
  unfold cellLt
  rcases c with ⟨cx, cy⟩
  rcases d with ⟨dx, dy⟩
  simp only [Prod.mk.injEq]
  omega

theorem entryLt_irrefl (e : Entry α) : ¬ entryLt e e := by
  unfold entryLt
  rintro (h | ⟨_, h⟩)
  · exact cellLt_irrefl _ h
  · exact lt_irrefl _ h

theorem entryLt_trans {e f g : Entry α} (h1 : entryLt e f) (h2 : entryLt f g) :
    entryLt e g := by
  unfold entryLt at *
  rcases h1 with h1 | ⟨h1, h1c⟩ <;> rcases h2 with h2 | ⟨h2, h2c⟩
  · exact Or.inl (cellLt_trans h1 h2)
  · exact Or.inl (h2 ▸ h1)
  · exact Or.inl (h1 ▸ h2)
  · exact Or.inr ⟨h1.trans h2, h1c.trans h2c⟩

theorem entryLt_total (e f : Entry α) : entryLt e f ∨ e = f ∨ entryLt f e := by
  unfold entryLt
  rcases cellLt_total e.1 f.1 with h | h | h
  · exact Or.inl (Or.inl h)
  · rcases lt_trichotomy e.2 f.2 with h2 | h2 | h2
    · exact Or.inl (Or.inr ⟨h, h2⟩)
    · exact Or.inr (Or.inl (Prod.ext h h2))
    · exact Or.inr (Or.inr (Or.inr ⟨h.symm, h2⟩))
  · exact Or.inr (Or.inr (Or.inl h))

theorem popMin_min {l r : List (Entry α)} {m : Entry α}
    (h : popMin l = some (m, r)) : ∀ e ∈ l, ¬ entryLt e m := by
  induction l generalizing m r with
  | nil => simp [popMin] at h
  | cons e t ih =>
    rcases ht : popMin t with _ | ⟨mt, rt⟩
    · rw [popMin_cons_nil e t ht] at h
      simp only [Option.some.injEq, Prod.mk.injEq] at h
      rw [popMin_none_iff] at ht
      subst ht
      intro x hx
      simp at hx
      rw [hx, ← h.1]
      exact entryLt_irrefl e
    · by_cases hlt : entryLt mt e
      · rw [popMin_cons_lt e t mt rt ht hlt] at h
        simp only [Option.some.injEq, Prod.mk.injEq] at h
        intro x hx
        rcases List.mem_cons.mp hx with hx | hx
        · rw [hx, ← h.1]
          intro hem
          exact entryLt_irrefl e (entryLt_trans hem hlt)
        · rw [← h.1]
          exact ih ht x hx
      · rw [popMin_cons_ge e t mt rt ht hlt] at h
        simp only [Option.some.injEq, Prod.mk.injEq] at h
        intro x hx
        rcases List.mem_cons.mp hx with hx | hx
        · rw [hx, ← h.1]
          exact entryLt_irrefl e
        · rw [← h.1]
          intro hxe
          rcases entryLt_total x mt with h2 | h2 | h2
          · exact ih ht x hx h2
          · rw [h2] at hxe
            exact hlt hxe
          · exact hlt (entryLt_trans h2 hxe)

/-- Moore adjacency is what `nearCells` enumerates. -/
theorem mem_nearCells {cell c : Cell} :
    c ∈ nearCells cell ↔
      c ≠ cell ∧ c.1 - cell.1 ≤ 1 ∧ cell.1 - c.1 ≤ 1 ∧ c.2 - cell.2 ≤ 1 ∧ cell.2 - c.2 ≤ 1 := by
  rcases cell with ⟨x, y⟩
  rcases c with ⟨cx, cy⟩
  simp only [nearCells, List.mem_filter, List.mem_flatMap, List.mem_map, List.mem_cons,
    List.not_mem_nil, or_false, decide_eq_true_eq, ne_eq, Prod.mk.injEq, not_and]
  constructor
  · rintro ⟨⟨a, ha, b, hb, h1, h2⟩, hne⟩
    subst h1
    subst h2
    exact ⟨hne, by omega⟩
  · rintro ⟨hne, h1, h2, h3, h4⟩
    exact ⟨⟨cx, by omega, cy, by omega, rfl, rfl⟩, hne⟩

/-- The 3-by-3 reconstruction box contains exactly the cells at Chebyshev
distance at most 1 (including the centre). -/
theorem mem_boxCells {curr c : Cell} :
    c ∈ boxCells curr ↔
      c.1 - curr.1 ≤ 1 ∧ curr.1 - c.1 ≤ 1 ∧ c.2 - curr.2 ≤ 1 ∧ curr.2 - c.2 ≤ 1 := by
  rcases curr with ⟨x, y⟩
  rcases c with ⟨cx, cy⟩
  simp only [boxCells, List.mem_flatMap, List.mem_map, List.mem_cons, List.not_mem_nil,
    or_false, Prod.mk.injEq]
  constructor
  · rintro ⟨b, hb, a, ha, h1, h2⟩
    rcases ha with h | h | h <;> rcases hb with h2b | h2b | h2b <;> omega
  · rintro ⟨h1, h2, h3, h4⟩
    exact ⟨cy - y + 1, by omega, cx - x + 1, by omega, by ring, by ring⟩

/-- Adjacency is symmetric between `nearCells` and the scan box. -/
theorem mem_boxCells_of_nearCells {u c : Cell} (h : c ∈ nearCells u) :
    u ∈ boxCells c := by
  rw [mem_nearCells] at h
  rw [mem_boxCells]
  omega

end BasicLemmas

/-!
Characterisation of `navigation_edges`: each returned entry is either a space
neighbour with the averaged (and, diagonally, `sqrt 2`-scaled) cost, or a wall
neighbour with cost `inf`.
-/

section NavLemmas

variable {α : Type} [LinearOrderedField α]

theorem alookup_mem {β : Type} {d : List (Cell × β)} {c : Cell} {v : β}
    (h : alookup d c = some v) : (c, v) ∈ d := by
  induction d with
  | nil => simp [alookup] at h
  | cons kv t ih =>
    rcases kv with ⟨k0, v0⟩
    rw [alookup_cons] at h
    by_cases hk : k0 = c
    · rw [if_pos hk] at h
      simp only [Option.some.injEq] at h
      simp [hk, h]
    · rw [if_neg hk] at h
      exact List.mem_cons_of_mem _ (ih h)

/-- The two ways an entry can be produced by `navigation_edges`:  a space
neighbour with the formula cost, or a wall neighbour with cost `inf`. -/
def NavCase (s : α) (g : Grid α) (cell : Cell) (e : Entry α) : Prop :=
  (∃ a, alookup g.spaces cell = some a ∧ ∃ b, alookup g.spaces e.1 = some b ∧
    (((e.1.1 ≠ cell.1 ∧ e.1.2 ≠ cell.2) ∧ e.2 = ((a * s + b * s : α) : WithTop α)) ∨
     (¬(e.1.1 ≠ cell.1 ∧ e.1.2 ≠ cell.2) ∧
       e.2 = ((a * (1 / 2) + b * (1 / 2) : α) : WithTop α)))) ∨
  (alookup g.spaces e.1 = none ∧ e.1 ∈ g.walls ∧ e.2 = (⊤ : WithTop α))

theorem nav_fold_none (s : α) (g : Grid α) (cell : Cell) (cs : List Cell) :
    cs.foldl (navStep s g cell) none = none := by
  induction cs with
  | nil => rfl
  | cons c t ih => simpa [navStep] using ih

theorem nav_fold_sound (s : α) (g : Grid α) (cell : Cell) :
    ∀ (cs : List Cell) (acc l : List (Entry α)),
      cs.foldl (navStep s g cell) (some acc) = some l →
      ∀ e ∈ l, e ∈ acc ∨ (e.1 ∈ cs ∧ NavCase s g cell e) := by
  intro cs
  induction cs with
  | nil =>
    intro acc l h e he
    simp only [List.foldl_nil, Option.some.injEq] at h
    subst h
    exact Or.inl he
  | cons c t ih =>
    intro acc l h e he
    rw [List.foldl_cons] at h
    rcases hc : alookup g.spaces c with _ | b
    · -- not a space
      by_cases hw : c ∈ g.walls
      · have hstep : navStep s g cell (some acc) c = some (acc ++ [(c, (⊤ : WithTop α))]) := by
          simp [navStep, hc, hw]
        rw [hstep] at h
        rcases ih _ _ h e he with hmem | ⟨ht, hcase⟩
        · rcases List.mem_append.mp hmem with hmem | hmem
          · exact Or.inl hmem
          · simp only [List.mem_singleton] at hmem
            subst hmem
            exact Or.inr ⟨List.mem_cons_self c t, Or.inr ⟨hc, hw, rfl⟩⟩
        · exact Or.inr ⟨List.mem_cons_of_mem c ht, hcase⟩
      · have hstep : navStep s g cell (some acc) c = some acc := by
          simp [navStep, hc, hw]
        rw [hstep] at h
        rcases ih _ _ h e he with hmem | ⟨ht, hcase⟩
        · exact Or.inl hmem
        · exact Or.inr ⟨List.mem_cons_of_mem c ht, hcase⟩
    · -- a space neighbour
      rcases hcell : alookup g.spaces cell with _ | a
      · have hstep : navStep s g cell (some acc) c = none := by
          simp [navStep, hc, hcell]
        rw [hstep, nav_fold_none] at h
        exact absurd h (by simp)
      · by_cases hd : c.1 ≠ cell.1 ∧ c.2 ≠ cell.2
        · have hstep : navStep s g cell (some acc) c =
              some (acc ++ [(c, ((a * s + b * s : α) : WithTop α))]) := by
            simp only [navStep, hc, hcell]
            rw [if_pos hd]
          rw [hstep] at h
          rcases ih _ _ h e he with hmem | ⟨ht, hcase⟩
          · rcases List.mem_append.mp hmem with hmem | hmem
            · exact Or.inl hmem
            · simp only [List.mem_singleton] at hmem
              subst hmem
              exact Or.inr ⟨List.mem_cons_self c t,
                Or.inl ⟨a, hcell, b, hc, Or.inl ⟨hd, rfl⟩⟩⟩
          · exact Or.inr ⟨List.mem_cons_of_mem c ht, hcase⟩
        · have hstep : navStep s g cell (some acc) c =
              some (acc ++ [(c, ((a * (1 / 2) + b * (1 / 2) : α) : WithTop α))]) := by
            simp only [navStep, hc, hcell]
            rw [if_neg hd]
          rw [hstep] at h
          rcases ih _ _ h e he with hmem | ⟨ht, hcase⟩
          · rcases List.mem_append.mp hmem with hmem | hmem
            · exact Or.inl hmem
            · simp only [List.mem_singleton] at hmem
              subst hmem
              exact Or.inr ⟨List.mem_cons_self c t,
                Or.inl ⟨a, hcell, b, hc, Or.inr ⟨hd, rfl⟩⟩⟩
          · exact Or.inr ⟨List.mem_cons_of_mem c ht, hcase⟩

theorem nav_sound {s : α} {g : Grid α} {cell : Cell} {l : List (Entry α)}
    (h : navigation_edges s g cell = some l) :
    ∀ e ∈ l, e.1 ∈ nearCells cell ∧ NavCase s g cell e := by
  intro e he
  rcases nav_fold_sound s g cell (nearCells cell) [] l h e he with hmem | ⟨hc, hcase⟩
  · simp at hmem
  · exact ⟨hc, hcase⟩

theorem nav_no_self {s : α} {g : Grid α} {cell : Cell} {l : List (Entry α)}
    (h : navigation_edges s g cell = some l) : ∀ e ∈ l, e.1 ≠ cell := by
  intro e he
  exact (mem_nearCells.mp (nav_sound h e he).1).1

theorem nav_wall_top {s : α} {g : Grid α} {cell : Cell} {l : List (Entry α)}
    (hdisj : ∀ c ∈ g.walls, alookup g.spaces c = none)
    (h : navigation_edges s g cell = some l) :
    ∀ e ∈ l, e.1 ∈ g.walls → e.2 = (⊤ : WithTop α) := by
  intro e he hw
  rcases (nav_sound h e he).2 with ⟨a, _, b, hb, _⟩ | ⟨_, _, htop⟩
  · rw [hdisj e.1 hw] at hb
    exact absurd hb (by simp)
  · exact htop

theorem nav_top_wall {s : α} {g : Grid α} {cell : Cell} {l : List (Entry α)}
    (h : navigation_edges s g cell = some l) :
    ∀ e ∈ l, e.2 = (⊤ : WithTop α) → e.1 ∈ g.walls := by
  intro e he htop
  rcases (nav_sound h e he).2 with ⟨a, _, b, _, hcost⟩ | ⟨_, hw, _⟩
  · rcases hcost with ⟨_, hcost⟩ | ⟨_, hcost⟩ <;>
      exact absurd (hcost ▸ htop) (WithTop.coe_ne_top)
  · exact hw

theorem nav_fin_space {s : α} {g : Grid α} {cell : Cell} {l : List (Entry α)}
    (h : navigation_edges s g cell = some l) :
    ∀ e ∈ l, e.2 ≠ (⊤ : WithTop α) →
      ∃ w : α, e.2 = (w : WithTop α) ∧ (alookup g.spaces e.1).isSome := by
  intro e he hfin
  rcases (nav_sound h e he).2 with ⟨a, _, b, hb, hcost⟩ | ⟨_, _, htop⟩
  · rcases hcost with ⟨_, hcost⟩ | ⟨_, hcost⟩
    · exact ⟨_, hcost, by rw [hb]; rfl⟩
    · exact ⟨_, hcost, by rw [hb]; rfl⟩
  · exact absurd htop hfin

theorem nav_pos {s : α} {g : Grid α} {cell : Cell} {l : List (Entry α)}
    (hs : 0 < s) (hpos : ∀ p ∈ g.spaces, 0 < Prod.snd p)
    (h : navigation_edges s g cell = some l) :
    ∀ e ∈ l, (0 : WithTop α) < e.2 := by
  intro e he
  rcases (nav_sound h e he).2 with ⟨a, ha, b, hb, hcost⟩ | ⟨_, _, htop⟩
  · have ha2 : 0 < a := hpos (cell, a) (alookup_mem ha)
    have hb2 : 0 < b := hpos (e.1, b) (alookup_mem hb)
    rcases hcost with ⟨_, hcost⟩ | ⟨_, hcost⟩ <;> rw [hcost]
    · rw [← WithTop.coe_zero, WithTop.coe_lt_coe]
      have := mul_pos ha2 hs
      have := mul_pos hb2 hs
      linarith
    · rw [← WithTop.coe_zero, WithTop.coe_lt_coe]
      nlinarith
  · rw [htop, ← WithTop.coe_zero]
    exact WithTop.coe_lt_top 0

theorem nav_some_of_space {s : α} {g : Grid α} {cell : Cell} {a : α}
    (ha : alookup g.spaces cell = some a) :
    ∃ l, navigation_edges s g cell = some l := by
  suffices h : ∀ (cs : List Cell) (acc : List (Entry α)),
      ∃ l, cs.foldl (navStep s g cell) (some acc) = some l by
    exact h (nearCells cell) []
  intro cs
  induction cs with
  | nil => exact fun acc => ⟨acc, rfl⟩
  | cons c t ih =>
    intro acc
    rw [List.foldl_cons]
    rcases hc : alookup g.spaces c with _ | b
    · by_cases hw : c ∈ g.walls
      · have hstep : navStep s g cell (some acc) c = some (acc ++ [(c, (⊤ : WithTop α))]) := by
          simp [navStep, hc, hw]
        rw [hstep]; exact ih _
      · have hstep : navStep s g cell (some acc) c = some acc := by
          simp [navStep, hc, hw]
        rw [hstep]; exact ih _
    · by_cases hd : c.1 ≠ cell.1 ∧ c.2 ≠ cell.2
      · have hstep : navStep s g cell (some acc) c =
            some (acc ++ [(c, ((a * s + b * s : α) : WithTop α))]) := by
          simp only [navStep, hc, ha]
          rw [if_pos hd]
        rw [hstep]; exact ih _
      · have hstep : navStep s g cell (some acc) c =
            some (acc ++ [(c, ((a * (1 / 2) + b * (1 / 2) : α) : WithTop α))]) := by
          simp only [navStep, hc, ha]
          rw [if_neg hd]
        rw [hstep]; exact ih _

theorem nav_fold_keys_sublist (s : α) (g : Grid α) (cell : Cell) :
    ∀ (cs : List Cell) (acc l : List (Entry α)),
      cs.foldl (navStep s g cell) (some acc) = some l →
      (l.map Prod.fst).Sublist ((acc.map Prod.fst) ++ cs) := by
  intro cs
  induction cs with
  | nil =>
    intro acc l h
    simp only [List.foldl_nil, Option.some.injEq] at h
    subst h
    simp
  | cons c t ih =>
    intro acc l h
    rw [List.foldl_cons] at h
    have hext : ∀ acc2 : List (Entry α),
        (navStep s g cell (some acc) c = some acc2) →
        (acc2 = acc ∨ ∃ v, acc2 = acc ++ [(c, v)]) := by
      intro acc2 hstep
      rcases hc : alookup g.spaces c with _ | b
      · by_cases hw : c ∈ g.walls
        · have heq : navStep s g cell (some acc) c = some (acc ++ [(c, (⊤ : WithTop α))]) := by
            simp [navStep, hc, hw]
          rw [heq] at hstep
          exact Or.inr ⟨_, (Option.some.inj hstep).symm⟩
        · have heq : navStep s g cell (some acc) c = some acc := by
            simp [navStep, hc, hw]
          rw [heq] at hstep
          exact Or.inl (Option.some.inj hstep).symm
      · rcases hcell : alookup g.spaces cell with _ | a
        · have heq : navStep s g cell (some acc) c = none := by
            simp [navStep, hc, hcell]
          rw [heq] at hstep
          exact absurd hstep (by simp)
        · by_cases hd : c.1 ≠ cell.1 ∧ c.2 ≠ cell.2
          · have heq : navStep s g cell (some acc) c =
                some (acc ++ [(c, ((a * s + b * s : α) : WithTop α))]) := by
              simp only [navStep, hc, hcell]
              rw [if_pos hd]
            rw [heq] at hstep
            exact Or.inr ⟨_, (Option.some.inj hstep).symm⟩
          · have heq : navStep s g cell (some acc) c =
                some (acc ++ [(c, ((a * (1 / 2) + b * (1 / 2) : α) : WithTop α))]) := by
              simp only [navStep, hc, hcell]
              rw [if_neg hd]
            rw [heq] at hstep
            exact Or.inr ⟨_, (Option.some.inj hstep).symm⟩
    rcases hstep : navStep s g cell (some acc) c with _ | acc2
    · rw [hstep, nav_fold_none] at h
      exact absurd h (by simp)
    · rw [hstep] at h
      have hsub := ih acc2 l h
      rcases hext acc2 hstep with hacc | ⟨v, hacc⟩
      · subst hacc
        refine hsub.trans ?_
        refine List.Sublist.append_left ?_ _
        exact List.sublist_cons_self c t
      · subst hacc
        refine hsub.trans ?_
        rw [List.map_append]
        simp only [List.map_cons, List.map_nil]
        rw [List.append_cons (acc.map Prod.fst) c t]

theorem nearCells_nodup (cell : Cell) : (nearCells cell).Nodup := by
  rcases cell with ⟨x, y⟩
  apply List.Nodup.filter
  have hexp : (([x - 1, x, x + 1].flatMap fun a =>
      [y - 1, y, y + 1].map fun b => ((a, b) : Cell))) =
      [(x-1, y-1), (x-1, y), (x-1, y+1), (x, y-1), (x, y), (x, y+1),
       (x+1, y-1), (x+1, y), (x+1, y+1)] := rfl
  rw [hexp]
  simp only [List.nodup_cons, List.mem_cons, List.not_mem_nil, or_false, Prod.mk.injEq,
    not_or, List.nodup_nil, and_true, true_and, not_false_eq_true]
  omega

theorem nav_keys_nodup {s : α} {g : Grid α} {cell : Cell} {l : List (Entry α)}
    (h : navigation_edges s g cell = some l) : (l.map Prod.fst).Nodup := by
  have hsub := nav_fold_keys_sublist s g cell (nearCells cell) [] l h
  simp only [List.map_nil, List.nil_append] at hsub
  exact (nearCells_nodup cell).sublist hsub

end NavLemmas

/-!
Paths through space cells.  A step requires membership in the adjacency list
returned by `navigation_edges` with a finite cost, which forces both
endpoints to be spaces; the accumulated value is the sum of the edge costs.
-/

/-- A path from `src` to a cell through space cells, together with the sum of
the adjacency edge costs along it.  `refl` is the empty path (the cell must be
a space); `step` extends a path by one adjacency edge of finite cost. -/
inductive ValidPath {α : Type} [LinearOrderedField α] (s : α) (g : Grid α) :
    Cell → Cell → α → Prop
  | refl (c : Cell) (a : α) (h : alookup g.spaces c = some a) : ValidPath s g c c 0
  | step (src mid nxt : Cell) (x w : α) (hp : ValidPath s g src mid x)
      (l : List (Entry α)) (hnav : navigation_edges s g mid = some l)
      (hmem : (nxt, (w : WithTop α)) ∈ l) : ValidPath s g src nxt (x + w)

section PathLemmas

variable {α : Type} [LinearOrderedField α]

theorem vp_edge_pos {s : α} {g : Grid α} (hs : 0 < s)
    (hpos : ∀ p ∈ g.spaces, 0 < Prod.snd p) {mid nxt : Cell} {w : α}
    {l : List (Entry α)} (hnav : navigation_edges s g mid = some l)
    (hmem : (nxt, (w : WithTop α)) ∈ l) : 0 < w := by
  have := nav_pos hs hpos hnav (nxt, (w : WithTop α)) hmem
  rw [← WithTop.coe_zero, WithTop.coe_lt_coe] at this
  exact this

theorem vp_nonneg {s : α} {g : Grid α} (hs : 0 < s)
    (hpos : ∀ p ∈ g.spaces, 0 < Prod.snd p) {src c : Cell} {x : α}
    (h : ValidPath s g src c x) : 0 ≤ x := by
  induction h with
  | refl => exact le_refl 0
  | step mid nxt x w hp l hnav hmem ih =>
    have := vp_edge_pos hs hpos hnav hmem
    linarith

theorem vp_src_space {s : α} {g : Grid α} {src c : Cell} {x : α}
    (h : ValidPath s g src c x) : (alookup g.spaces src).isSome := by
  induction h with
  | refl a ha => rw [ha]; rfl
  | step => assumption

/-- C6: a `navigation_edges` entry joining two space cells carries cost
`(a + b) * rt / 2` for a diagonal move and `(a + b) / 2` for a straight move,
where `rt` is the square root of two used by the code (Python computes
`sqrt2 = sqrt(2) * .5`, rendered here as the parameter `rt * (1/2)`); on a
uniform-cost grid this specialises to `u * rt` diagonally and `u` straight. -/
theorem C6_edge_cost_formula {α : Type} [LinearOrderedField α] (rt : α)
    (hrt : rt * rt = 2) (hrtpos : 0 < rt)
    (g : Grid α) (cell : Cell) (l : List (Entry α))
    (hnav : navigation_edges (rt * (1 / 2)) g cell = some l)
    (e : Entry α) (he : e ∈ l) (a b : α)
    (ha : alookup g.spaces cell = some a) (hb : alookup g.spaces e.1 = some b) :
    ((e.1.1 ≠ cell.1 ∧ e.1.2 ≠ cell.2) →
      e.2 = (((a + b) * rt * (1 / 2) : α) : WithTop α)) ∧
    ((e.1.1 = cell.1 ∨ e.1.2 = cell.2) →
      e.2 = (((a + b) * (1 / 2) : α) : WithTop α)) ∧
    (a = b →
      ((e.1.1 ≠ cell.1 ∧ e.1.2 ≠ cell.2) → e.2 = ((a * rt : α) : WithTop α)) ∧
      ((e.1.1 = cell.1 ∨ e.1.2 = cell.2) → e.2 = ((a : α) : WithTop α))) := by
  rcases (nav_sound hnav e he).2 with ⟨a2, ha2, b2, hb2, hcost⟩ | ⟨hnone, _, _⟩
  · rw [ha] at ha2
    rw [hb] at hb2
    have haa : a2 = a := by injection ha2.symm
    have hbb : b2 = b := by injection hb2.symm
    subst haa
    subst hbb
    constructor
    · intro hdiag
      rcases hcost with ⟨_, hcost⟩ | ⟨hnd, _⟩
      · rw [hcost]
        congr 1
        ring
      · exact absurd hdiag hnd
    constructor
    · intro hstraight
      rcases hcost with ⟨hd, _⟩ | ⟨_, hcost⟩
      · rcases hstraight with h1 | h1
        · exact absurd h1 hd.1
        · exact absurd h1 hd.2
      · rw [hcost]
        congr 1
        ring
    · intro hab
      subst hab
      constructor
      · intro hdiag
        rcases hcost with ⟨_, hcost⟩ | ⟨hnd, _⟩
        · rw [hcost]
          congr 1
          ring
        · exact absurd hdiag hnd
      · intro hstraight
        rcases hcost with ⟨hd, _⟩ | ⟨_, hcost⟩
        · rcases hstraight with h1 | h1
          · exact absurd h1 hd.1
          · exact absurd h1 hd.2
        · rw [hcost]
          congr 1
          ring
  · rw [hb] at hnone
    exact absurd hnone (by simp)

/-- Witness for `C6_edge_cost_formula`: the diagonal entry `((0,0), sqrt 2)`
of the centre cell of the uniform 3-by-3 level. -/
theorem C6_edge_cost_formula_witness :
    (Q2.rt2 * Q2.rt2 = 2 ∧ 0 < Q2.rt2 ∧
      (((0,0), (Q2.rt2 : WithTop Q2)) : Entry Q2) ∈
        [((0,0), (Q2.rt2 : WithTop Q2)), ((0,1), ((1:Q2) : WithTop Q2)),
         ((0,2), (Q2.rt2 : WithTop Q2)), ((1,0), ((1:Q2) : WithTop Q2)),
         ((1,2), ((1:Q2) : WithTop Q2)), ((2,0), (Q2.rt2 : WithTop Q2)),
         ((2,1), ((1:Q2) : WithTop Q2)), ((2,2), (Q2.rt2 : WithTop Q2))]) ∧
    (Q2.rt2 : WithTop Q2) = ((((1:Q2) + 1) * Q2.rt2 * (1 / 2) : Q2) : WithTop Q2) := by
  have h := C6_edge_cost_formula (α := Q2) Q2.rt2
    (by with_unfolding_all decide) (by with_unfolding_all decide)
    grid3 (1,1)
    [((0,0), (Q2.rt2 : WithTop Q2)), ((0,1), ((1:Q2) : WithTop Q2)),
     ((0,2), (Q2.rt2 : WithTop Q2)), ((1,0), ((1:Q2) : WithTop Q2)),
     ((1,2), ((1:Q2) : WithTop Q2)), ((2,0), (Q2.rt2 : WithTop Q2)),
     ((2,1), ((1:Q2) : WithTop Q2)), ((2,2), (Q2.rt2 : WithTop Q2))]
    (by with_unfolding_all decide)
    ((0,0), (Q2.rt2 : WithTop Q2)) (by with_unfolding_all decide)
    1 1 (by with_unfolding_all decide) (by with_unfolding_all decide)
  refine ⟨⟨by with_unfolding_all decide, by with_unfolding_all decide,
    by with_unfolding_all decide⟩, ?_⟩
  exact h.1 (by decide)

end PathLemmas

/-!
Properties of one relaxation round (`relaxAll`): values never increase, keys
are never removed, every change is guarded by a strict improvement and pushes
the changed cell, and afterwards every edge of the expanded cell is relaxed.
-/

section RelaxLemmas

variable {α : Type} [LinearOrderedField α]

/-- The current dictionary cost of a cell, `⊤` when absent:
`dij_dict[c]` read through the convention that missing cells are
unreachable-so-far. -/
def dLook (dij : List (Cell × WithTop α)) (c : Cell) : WithTop α :=
  (alookup dij c).getD ⊤

theorem dLook_eq {dij : List (Cell × WithTop α)} {c : Cell} {v : WithTop α}
    (h : alookup dij c = some v) : dLook dij c = v := by
  rw [dLook, h]; rfl

theorem dLook_none {dij : List (Cell × WithTop α)} {c : Cell}
    (h : alookup dij c = none) : dLook dij c = ⊤ := by
  rw [dLook, h]; rfl

/-- After the expansion of `u`, every adjacency edge of `u` is relaxed with
respect to the current dictionary. -/
def Relaxed (s : α) (g : Grid α) (dij : List (Cell × WithTop α)) (u : Cell) : Prop :=
  ∀ l, navigation_edges s g u = some l →
    ∀ e ∈ l, dLook dij e.1 ≤ e.2 + dLook dij u

theorem relaxOne_eq_insert (du : WithTop α)
    (st : List (Cell × WithTop α) × List (Entry α)) (cw : Entry α)
    (hl : alookup st.1 cw.1 = none) :
    relaxOne du st cw = (upsert st.1 cw.1 (cw.2 + du), st.2 ++ [(cw.1, cw.2 + du)]) := by
  simp [relaxOne, hl]

theorem relaxOne_eq_update (du : WithTop α)
    (st : List (Cell × WithTop α) × List (Entry α)) (cw : Entry α)
    (old : WithTop α) (hl : alookup st.1 cw.1 = some old) (hlt : old > cw.2 + du) :
    relaxOne du st cw = (upsert st.1 cw.1 (cw.2 + du), st.2 ++ [(cw.1, cw.2 + du)]) := by
  simp only [relaxOne, hl]
  rw [if_pos hlt]

theorem relaxOne_eq_keep (du : WithTop α)
    (st : List (Cell × WithTop α) × List (Entry α)) (cw : Entry α)
    (old : WithTop α) (hl : alookup st.1 cw.1 = some old) (hlt : ¬ old > cw.2 + du) :
    relaxOne du st cw = st := by
  simp only [relaxOne, hl]
  rw [if_neg hlt]

theorem relaxOne_fst_lookup (du : WithTop α)
    (st : List (Cell × WithTop α) × List (Entry α)) (cw : Entry α) (c : Cell) :
    alookup (relaxOne du st cw).1 c = alookup st.1 c ∨
      (c = cw.1 ∧ alookup (relaxOne du st cw).1 c = some (cw.2 + du) ∧
        ((cw.1, cw.2 + du) ∈ (relaxOne du st cw).2) ∧
        (alookup st.1 c = none ∨ ∃ old, alookup st.1 c = some old ∧ cw.2 + du < old)) := by
  rcases hl : alookup st.1 cw.1 with _ | old
  · rw [relaxOne_eq_insert du st cw hl]
    by_cases hc : c = cw.1
    · subst hc
      exact Or.inr ⟨rfl, alookup_upsert_self _ _ _, by simp, Or.inl hl⟩
    · exact Or.inl (alookup_upsert_ne _ _ _ _ fun h => hc h.symm)
  · by_cases hlt : old > cw.2 + du
    · rw [relaxOne_eq_update du st cw old hl hlt]
      by_cases hc : c = cw.1
      · subst hc
        exact Or.inr ⟨rfl, alookup_upsert_self _ _ _, by simp, Or.inr ⟨old, hl, hlt⟩⟩
      · exact Or.inl (alookup_upsert_ne _ _ _ _ fun h => hc h.symm)
    · rw [relaxOne_eq_keep du st cw old hl hlt]
      exact Or.inl rfl

theorem relaxOne_dLook_le (du : WithTop α)
    (st : List (Cell × WithTop α) × List (Entry α)) (cw : Entry α) (c : Cell) :
    dLook (relaxOne du st cw).1 c ≤ dLook st.1 c := by
  rcases relaxOne_fst_lookup du st cw c with h | ⟨hc, hv, _, hg⟩
  · rw [dLook, dLook, h]
  · rw [dLook_eq hv]
    subst hc
    rcases hg with hg | ⟨old, hg, hlt⟩
    · rw [dLook_none hg]; exact le_top
    · rw [dLook_eq hg]; exact le_of_lt hlt

theorem relaxOne_isSome (du : WithTop α)
    (st : List (Cell × WithTop α) × List (Entry α)) (cw : Entry α) (c : Cell)
    (h : (alookup st.1 c).isSome) : (alookup (relaxOne du st cw).1 c).isSome := by
  rcases relaxOne_fst_lookup du st cw c with h2 | ⟨_, hv, _, _⟩
  · rw [h2]; exact h
  · rw [hv]; rfl

theorem relaxOne_snd_mono (du : WithTop α)
    (st : List (Cell × WithTop α) × List (Entry α)) (cw : Entry α) :
    ∀ e ∈ st.2, e ∈ (relaxOne du st cw).2 := by
  intro e he
  rcases hl : alookup st.1 cw.1 with _ | old
  · rw [relaxOne_eq_insert du st cw hl]; simp [he]
  · by_cases hlt : old > cw.2 + du
    · rw [relaxOne_eq_update du st cw old hl hlt]; simp [he]
    · rw [relaxOne_eq_keep du st cw old hl hlt]; exact he

theorem relaxOne_snd_shape (du : WithTop α)
    (st : List (Cell × WithTop α) × List (Entry α)) (cw : Entry α) :
    ∀ e ∈ (relaxOne du st cw).2, e ∈ st.2 ∨ e = (cw.1, cw.2 + du) := by
  intro e he
  rcases hl : alookup st.1 cw.1 with _ | old
  · rw [relaxOne_eq_insert du st cw hl] at he
    rcases List.mem_append.mp he with h | h
    · exact Or.inl h
    · simp at h; exact Or.inr h
  · by_cases hlt : old > cw.2 + du
    · rw [relaxOne_eq_update du st cw old hl hlt] at he
      rcases List.mem_append.mp he with h | h
      · exact Or.inl h
      · simp at h; exact Or.inr h
    · rw [relaxOne_eq_keep du st cw old hl hlt] at he
      exact Or.inl he

theorem relaxOne_relaxes (du : WithTop α)
    (st : List (Cell × WithTop α) × List (Entry α)) (cw : Entry α) :
    dLook (relaxOne du st cw).1 cw.1 ≤ cw.2 + du := by
  rcases hl : alookup st.1 cw.1 with _ | old
  · rw [relaxOne_eq_insert du st cw hl, dLook_eq (alookup_upsert_self _ _ _)]
  · by_cases hlt : old > cw.2 + du
    · rw [relaxOne_eq_update du st cw old hl hlt, dLook_eq (alookup_upsert_self _ _ _)]
    · rw [relaxOne_eq_keep du st cw old hl hlt, dLook_eq hl]
      exact le_of_not_lt hlt

theorem relaxOne_untouched (du : WithTop α)
    (st : List (Cell × WithTop α) × List (Entry α)) (cw : Entry α) (c : Cell)
    (h : cw.1 ≠ c) : alookup (relaxOne du st cw).1 c = alookup st.1 c := by
  rcases relaxOne_fst_lookup du st cw c with h2 | ⟨hc, _, _, _⟩
  · exact h2
  · exact absurd hc.symm h

theorem relaxOne_key_isSome (du : WithTop α)
    (st : List (Cell × WithTop α) × List (Entry α)) (cw : Entry α) :
    (alookup (relaxOne du st cw).1 cw.1).isSome := by
  rcases hl : alookup st.1 cw.1 with _ | old
  · rw [relaxOne_eq_insert du st cw hl, alookup_upsert_self]; rfl
  · by_cases hlt : old > cw.2 + du
    · rw [relaxOne_eq_update du st cw old hl hlt, alookup_upsert_self]; rfl
    · rw [relaxOne_eq_keep du st cw old hl hlt, hl]; rfl

theorem relaxAll_dLook_le (du : WithTop α) (dij : List (Cell × WithTop α))
    (qheap : List (Entry α)) (costs : List (Entry α)) (c : Cell) :
    dLook (relaxAll du dij qheap costs).1 c ≤ dLook dij c := by
  rw [relaxAll]
  induction costs generalizing dij qheap with
  | nil => exact le_refl _
  | cons cw t ih =>
    rw [List.foldl_cons]
    exact le_trans (ih _ _) (relaxOne_dLook_le du (dij, qheap) cw c)

theorem relaxAll_isSome (du : WithTop α) (dij : List (Cell × WithTop α))
    (qheap : List (Entry α)) (costs : List (Entry α)) (c : Cell)
    (h : (alookup dij c).isSome) :
    (alookup (relaxAll du dij qheap costs).1 c).isSome := by
  rw [relaxAll]
  induction costs generalizing dij qheap with
  | nil => exact h
  | cons cw t ih =>
    rw [List.foldl_cons]
    exact ih _ _ (relaxOne_isSome du (dij, qheap) cw c h)

theorem relaxAll_snd_mono (du : WithTop α) (dij : List (Cell × WithTop α))
    (qheap : List (Entry α)) (costs : List (Entry α)) :
    ∀ e ∈ qheap, e ∈ (relaxAll du dij qheap costs).2 := by
  rw [relaxAll]
  induction costs generalizing dij qheap with
  | nil => exact fun e he => he
  | cons cw t ih =>
    intro e he
    rw [List.foldl_cons]
    exact ih _ _ e (relaxOne_snd_mono du (dij, qheap) cw e he)

theorem relaxAll_snd_keys (du : WithTop α) (dij : List (Cell × WithTop α))
    (qheap : List (Entry α)) (costs : List (Entry α)) :
    ∀ e ∈ (relaxAll du dij qheap costs).2,
      e ∈ qheap ∨ (alookup (relaxAll du dij qheap costs).1 e.1).isSome := by
  rw [relaxAll]
  induction costs generalizing dij qheap with
  | nil => exact fun e he => Or.inl he
  | cons cw t ih =>
    intro e he
    rw [List.foldl_cons] at he ⊢
    rcases ih _ _ e he with h | h
    · rcases relaxOne_snd_shape du (dij, qheap) cw e h with h2 | h2
      · exact Or.inl h2
      · right
        subst h2
        exact relaxAll_isSome du _ _ t cw.1 (relaxOne_key_isSome du (dij, qheap) cw)
    · exact Or.inr h

theorem relaxAll_relaxes (du : WithTop α) (dij : List (Cell × WithTop α))
    (qheap : List (Entry α)) (costs : List (Entry α)) :
    ∀ e ∈ costs, dLook (relaxAll du dij qheap costs).1 e.1 ≤ e.2 + du := by
  rw [relaxAll]
  induction costs generalizing dij qheap with
  | nil => intro e he; simp at he
  | cons cw t ih =>
    intro e he
    rw [List.foldl_cons]
    rcases List.mem_cons.mp he with he2 | he2
    · subst he2
      refine le_trans ?_ (relaxOne_relaxes du (dij, qheap) e)
      exact relaxAll_dLook_le du _ _ t e.1
    · exact ih _ _ e he2

theorem relaxAll_untouched (du : WithTop α) (dij : List (Cell × WithTop α))
    (qheap : List (Entry α)) (costs : List (Entry α)) (c : Cell)
    (h : ∀ e ∈ costs, e.1 ≠ c) :
    alookup (relaxAll du dij qheap costs).1 c = alookup dij c := by
  rw [relaxAll]
  induction costs generalizing dij qheap with
  | nil => rfl
  | cons cw t ih =>
    rw [List.foldl_cons]
    rw [ih _ _ fun e he => h e (List.mem_cons_of_mem cw he)]
    exact relaxOne_untouched du (dij, qheap) cw c (h cw (List.mem_cons_self cw t))

theorem relaxAll_lookup_shape (du : WithTop α) (dij : List (Cell × WithTop α))
    (qheap : List (Entry α)) (costs : List (Entry α)) (c : Cell) (v : WithTop α)
    (h : alookup (relaxAll du dij qheap costs).1 c = some v) :
    alookup dij c = some v ∨
      ∃ e ∈ costs, e.1 = c ∧ v = e.2 + du ∧ (c, v) ∈ (relaxAll du dij qheap costs).2 ∧
        (alookup dij c = none ∨ ∃ old, alookup dij c = some old ∧ v < old) := by
  rw [relaxAll] at h ⊢
  induction costs generalizing dij qheap with
  | nil => exact Or.inl h
  | cons cw t ih =>
    rw [List.foldl_cons] at h ⊢
    rcases ih _ _ h with h2 | ⟨e, he, hec, hev, hheap, hguard⟩
    · -- the tail did not change the value: analyse the head step
      rcases relaxOne_fst_lookup du (dij, qheap) cw c with h3 | ⟨hc, h3, hpush, hguard⟩
      · exact Or.inl (h3.symm.trans h2)
      · right
        have hv : v = cw.2 + du := by
          have h4 := h2.symm.trans h3
          injection h4
        refine ⟨cw, List.mem_cons_self cw t, hc.symm, hv, ?_, ?_⟩
        · subst hc
          rw [hv]
          exact relaxAll_snd_mono du _ _ t _ hpush
        · rw [hv]
          exact hguard
    · -- the value was written by the tail against the intermediate dictionary
      right
      refine ⟨e, List.mem_cons_of_mem cw he, hec, hev, hheap, ?_⟩
      rcases hguard with hnone | ⟨old, hold, hlt⟩
      · rcases relaxOne_fst_lookup du (dij, qheap) cw c with h3 | ⟨hc, h3, _, _⟩
        · exact Or.inl (h3.symm.trans hnone)
        · exact absurd (h3.symm.trans hnone) (by simp)
      · rcases relaxOne_fst_lookup du (dij, qheap) cw c with h3 | ⟨hc, h3, _, hguard0⟩
        · exact Or.inr ⟨old, h3.symm.trans hold, hlt⟩
        · have ho : cw.2 + du = old := by
            have h4 := h3.symm.trans hold
            injection h4
          rcases hguard0 with hnone | ⟨old0, hold0, hlt0⟩
          · exact Or.inl hnone
          · exact Or.inr ⟨old0, hold0, lt_trans hlt (ho ▸ hlt0)⟩

end RelaxLemmas

/-!
The loop invariant.  `DictInv` collects the heap-independent facts about the
cost dictionary; `LoopInv` couples it with the heap.
-/

section InvariantDefs

variable {α : Type} [LinearOrderedField α]

/-- Heap-independent invariant of the cost dictionary during both search
loops:  every finite value is the cost of a valid path from the source; a
value is infinite exactly for wall cells; the source is pinned at `0`; and
every non-source key has a strictly cheaper key in its 3-by-3 box (its
"predecessor" for the reconstruction scan). -/
structure DictInv (s : α) (g : Grid α) (source : Cell)
    (dij : List (Cell × WithTop α)) : Prop where
  achieve : ∀ c v, alookup dij c = some v →
    v = ⊤ ∨ ∃ d : α, v = ((d : α) : WithTop α) ∧ ValidPath s g source c d
  topWall : ∀ c v, alookup dij c = some v → (v = ⊤ ↔ c ∈ g.walls)
  src0 : alookup dij source = some 0
  pred : ∀ c v, alookup dij c = some v → c ≠ source →
    ∃ u, u ∈ boxCells c ∧ ∃ vu, alookup dij u = some vu ∧ vu < v

/-- Invariant of the `while qheap:` loops: the dictionary facts, plus: every
queued cell is a dictionary key, and every dictionary key is queued or has
all its outgoing edges relaxed. -/
structure LoopInv (s : α) (g : Grid α) (source : Cell)
    (dij : List (Cell × WithTop α)) (qheap : List (Entry α))
    extends DictInv s g source dij : Prop where
  keyHeap : ∀ e ∈ qheap, (alookup dij e.1).isSome
  qOrRelaxed : ∀ c, (alookup dij c).isSome →
    (∃ v, (c, v) ∈ qheap) ∨ Relaxed s g dij c

theorem coe_lt_add_of_pos {dd : α} {w : WithTop α} (hw : (0 : WithTop α) < w) :
    ((dd : α) : WithTop α) < w + ((dd : α) : WithTop α) := by
  induction w using WithTop.recTopCoe with
  | top =>
    rw [WithTop.top_add]
    exact WithTop.coe_lt_top dd
  | coe wf =>
    rw [← WithTop.coe_add, WithTop.coe_lt_coe]
    rw [← WithTop.coe_zero, WithTop.coe_lt_coe] at hw
    linarith

/-- Popping a wall cell and skipping it preserves the invariant. -/
theorem wall_skip_inv {s : α} {g : Grid α} {source : Cell}
    {dij : List (Cell × WithTop α)} {qheap rest : List (Entry α)}
    {u : Cell} {cu : WithTop α}
    (inv : LoopInv s g source dij qheap)
    (hpop : popMin qheap = some ((u, cu), rest)) (hw : u ∈ g.walls) :
    LoopInv s g source dij rest := by
  refine ⟨inv.toDictInv, ?_, ?_⟩
  · intro e he
    exact inv.keyHeap e (popMin_rest_subset hpop e he)
  · intro c hc
    rcases inv.qOrRelaxed c hc with ⟨v, hv⟩ | hrel
    · rcases popMin_cover hpop (c, v) hv with heq | hin
      · -- the popped entry is a wall cell: it is trivially relaxed
        have hcu : c = u := congrArg Prod.fst heq
        subst hcu
        right
        intro l hl e he
        obtain ⟨vu, hvu⟩ := Option.isSome_iff_exists.mp hc
        have htop : vu = ⊤ := (inv.topWall c vu hvu).mpr hw
        rw [dLook_eq hvu, htop, WithTop.add_top]
        exact le_top
      · exact Or.inl ⟨v, hin⟩
    · exact Or.inr hrel

/-- With an empty heap every cell is relaxed. -/
theorem empty_heap_relaxed {s : α} {g : Grid α} {source : Cell}
    {dij : List (Cell × WithTop α)}
    (inv : LoopInv s g source dij []) : ∀ c, Relaxed s g dij c := by
  intro c
  rcases hks : alookup dij c with _ | v
  · intro l hl e he
    rw [dLook_none hks, WithTop.add_top]
    exact le_top
  · rcases inv.qOrRelaxed c (by rw [hks]; rfl) with ⟨v2, hv2⟩ | hrel
    · simp at hv2
    · exact hrel

/-- Expanding a non-wall popped cell preserves the invariant. -/
theorem relax_step_inv {s : α} {g : Grid α} {source : Cell}
    (hs : 0 < s) (hpos : ∀ p ∈ g.spaces, 0 < Prod.snd p)
    (hdisj : ∀ c ∈ g.walls, alookup g.spaces c = none)
    {dij : List (Cell × WithTop α)} {qheap rest : List (Entry α)}
    {u : Cell} {cu du : WithTop α} {costs : List (Entry α)}
    (inv : LoopInv s g source dij qheap)
    (hpop : popMin qheap = some ((u, cu), rest)) (hnw : u ∉ g.walls)
    (hdu : alookup dij u = some du)
    (hcosts : navigation_edges s g u = some costs) :
    LoopInv s g source (relaxAll du dij rest costs).1 (relaxAll du dij rest costs).2 := by
  have hnoself : ∀ e ∈ costs, e.1 ≠ u := nav_no_self hcosts
  have huntouched : alookup (relaxAll du dij rest costs).1 u = some du := by
    rw [relaxAll_untouched du dij rest costs u hnoself]
    exact hdu
  have hduf : du ≠ ⊤ := fun h => hnw ((inv.topWall u du hdu).mp h)
  obtain ⟨dd, hdd⟩ := WithTop.ne_top_iff_exists.mp hduf
  have hdd0 : (0 : WithTop α) ≤ du := by
    rcases inv.achieve u du hdu with h | ⟨d2, hd2, hvp⟩
    · exact absurd h hduf
    · rw [hd2, ← WithTop.coe_zero, WithTop.coe_le_coe]
      exact vp_nonneg hs hpos hvp
  refine ⟨⟨?_, ?_, ?_, ?_⟩, ?_, ?_⟩
  · -- achieve
    intro c v hcv
    rcases relaxAll_lookup_shape du dij rest costs c v hcv with h | ⟨e, he, hec, hev, _, _⟩
    · exact inv.achieve c v h
    · rcases eq_or_ne e.2 (⊤ : WithTop α) with het | het
      · left
        rw [hev, het, WithTop.top_add]
      · right
        obtain ⟨w, hw⟩ := WithTop.ne_top_iff_exists.mp het
        rcases inv.achieve u du hdu with h | ⟨d2, hd2, hvp⟩
        · exact absurd h hduf
        · have hd2d : ((d2 : α) : WithTop α) = ((dd : α) : WithTop α) := by
            rw [← hd2, ← hdd]
          have hd2dd : d2 = dd := by exact_mod_cast hd2d
          subst hd2dd
          have hmem : (e.1, ((w : α) : WithTop α)) ∈ costs := by
            have hpair : e = (e.1, ((w : α) : WithTop α)) := Prod.ext rfl hw.symm
            rw [← hpair]
            exact he
          have hstep := ValidPath.step source u e.1 d2 w hvp costs hcosts hmem
          rw [hec] at hstep
          refine ⟨d2 + w, ?_, hstep⟩
          rw [hev, ← hw, ← hdd, ← WithTop.coe_add, add_comm w d2]
  · -- topWall
    intro c v hcv
    rcases relaxAll_lookup_shape du dij rest costs c v hcv with h | ⟨e, he, hec, hev, _, _⟩
    · exact inv.topWall c v h
    · constructor
      · intro hv
        rw [hev] at hv
        rcases (WithTop.add_eq_top).mp hv with h | h
        · rw [← hec]
          exact nav_top_wall hcosts e he h
        · rw [← hdd] at h
          exact absurd h (WithTop.coe_ne_top)
      · intro hcw
        have hew : e.2 = ⊤ := nav_wall_top hdisj hcosts e he (hec.symm ▸ hcw)
        rw [hev, hew, WithTop.top_add]
  · -- src0
    have hS : (alookup (relaxAll du dij rest costs).1 source).isSome :=
      relaxAll_isSome du dij rest costs source (by rw [inv.src0]; rfl)
    obtain ⟨v, hv⟩ := Option.isSome_iff_exists.mp hS
    rcases relaxAll_lookup_shape du dij rest costs source v hv with h | ⟨e, he, hec, hev, _, hguard⟩
    · rw [hv]
      rw [h.symm.trans inv.src0]
    · exfalso
      have hv0 : (0 : WithTop α) ≤ v := by
        rw [hev]
        exact add_nonneg (le_of_lt (nav_pos hs hpos hcosts e he)) hdd0
      rcases hguard with hnone | ⟨old, hold, hlt⟩
      · rw [inv.src0] at hnone
        exact absurd hnone (by simp)
      · have h0 : old = 0 := by
          have := hold.symm.trans inv.src0
          injection this
        rw [h0] at hlt
        exact absurd (lt_of_le_of_lt hv0 hlt) (lt_irrefl 0)
  · -- pred
    intro c v hcv hcs
    rcases relaxAll_lookup_shape du dij rest costs c v hcv with h | ⟨e, he, hec, hev, _, _⟩
    · obtain ⟨u0, hbox, vu0, hvu0, hlt⟩ := inv.pred c v h hcs
      have hS : (alookup (relaxAll du dij rest costs).1 u0).isSome :=
        relaxAll_isSome du dij rest costs u0 (by rw [hvu0]; rfl)
      obtain ⟨vu0n, hvu0n⟩ := Option.isSome_iff_exists.mp hS
      refine ⟨u0, hbox, vu0n, hvu0n, ?_⟩
      have hle : vu0n ≤ vu0 := by
        have := relaxAll_dLook_le du dij rest costs u0
        rw [dLook_eq hvu0n, dLook_eq hvu0] at this
        exact this
      exact lt_of_le_of_lt hle hlt
    · refine ⟨u, ?_, du, huntouched, ?_⟩
      · rw [← hec]
        exact mem_boxCells_of_nearCells (nav_sound hcosts e he).1
      · rw [hev, ← hdd]
        exact coe_lt_add_of_pos (nav_pos hs hpos hcosts e he)
  · -- keyHeap
    intro e he
    rcases relaxAll_snd_keys du dij rest costs e he with h | h
    · exact relaxAll_isSome du dij rest costs e.1
        (inv.keyHeap e (popMin_rest_subset hpop e h))
    · exact h
  · -- qOrRelaxed
    intro c hc
    by_cases hch : alookup (relaxAll du dij rest costs).1 c = alookup dij c
    · have hkd : (alookup dij c).isSome := by rw [← hch]; exact hc
      rcases inv.qOrRelaxed c hkd with ⟨vq, hq⟩ | hrel
      · rcases popMin_cover hpop (c, vq) hq with heq | hin
        · have hcu : c = u := congrArg Prod.fst heq
          subst hcu
          right
          intro l hl e he
          have hlc : costs = l := by
            have := hcosts.symm.trans hl
            injection this
          subst hlc
          have h1 := relaxAll_relaxes du dij rest costs e he
          rw [dLook_eq huntouched]
          exact h1
        · exact Or.inl ⟨vq, relaxAll_snd_mono du dij rest costs _ hin⟩
      · right
        intro l hl e he
        refine le_trans (relaxAll_dLook_le du dij rest costs e.1) ?_
        refine le_trans (hrel l hl e he) ?_
        have hdL : dLook (relaxAll du dij rest costs).1 c = dLook dij c := by
          rw [dLook, dLook, hch]
        rw [hdL]
    · obtain ⟨v, hv⟩ := Option.isSome_iff_exists.mp hc
      rcases relaxAll_lookup_shape du dij rest costs c v hv with h | ⟨e, he, hec, hev, hheap, _⟩
      · exact absurd (hv.trans h.symm) hch
      · exact Or.inl ⟨v, hheap⟩

end InvariantDefs

/-!
The seeding phase establishes the invariant.
-/

section SeedLemmas

variable {α : Type} [LinearOrderedField α]

theorem seed_fold_lookup_shape (l : List (Entry α)) (init : List (Cell × WithTop α))
    (c : Cell) (v : WithTop α)
    (h : alookup (l.foldl (fun d e => upsert d e.1 e.2) init) c = some v) :
    alookup init c = some v ∨ (c, v) ∈ l := by
  induction l generalizing init with
  | nil => exact Or.inl h
  | cons f t ih =>
    rw [List.foldl_cons] at h
    rcases ih _ h with h2 | h2
    · by_cases hc : f.1 = c
      · rw [← hc, alookup_upsert_self] at h2
        have hv : f.2 = v := by injection h2
        right
        rw [← hc, ← hv]
        exact List.mem_cons_self f t
      · rw [alookup_upsert_ne _ _ _ _ hc] at h2
        exact Or.inl h2
    · exact Or.inr (List.mem_cons_of_mem f h2)

theorem seed_fold_untouched (l : List (Entry α)) (init : List (Cell × WithTop α))
    (c : Cell) (h : ∀ e ∈ l, e.1 ≠ c) :
    alookup (l.foldl (fun d e => upsert d e.1 e.2) init) c = alookup init c := by
  induction l generalizing init with
  | nil => rfl
  | cons f t ih =>
    rw [List.foldl_cons]
    rw [ih _ fun e he => h e (List.mem_cons_of_mem f he)]
    exact alookup_upsert_ne _ _ _ _ (h f (List.mem_cons_self f t))

theorem seed_fold_isSome_mono (l : List (Entry α)) (init : List (Cell × WithTop α))
    (c : Cell) (h : (alookup init c).isSome) :
    (alookup (l.foldl (fun d e => upsert d e.1 e.2) init) c).isSome := by
  induction l generalizing init with
  | nil => exact h
  | cons f t ih =>
    rw [List.foldl_cons]
    exact ih _ (alookup_isSome_upsert _ _ _ _ h)

theorem seed_fold_isSome (l : List (Entry α)) (init : List (Cell × WithTop α)) :
    ∀ e ∈ l, (alookup (l.foldl (fun d e => upsert d e.1 e.2) init) e.1).isSome := by
  induction l generalizing init with
  | nil => intro e he; simp at he
  | cons f t ih =>
    intro e he
    rw [List.foldl_cons]
    rcases List.mem_cons.mp he with he2 | he2
    · subst he2
      refine seed_fold_isSome_mono t _ e.1 ?_
      rw [alookup_upsert_self]
      rfl
    · exact ih _ e he2

theorem seed_fold_lookup_nodup (l : List (Entry α)) (init : List (Cell × WithTop α))
    (hnd : (l.map Prod.fst).Nodup) :
    ∀ e ∈ l, alookup (l.foldl (fun d e => upsert d e.1 e.2) init) e.1 = some e.2 := by
  induction l generalizing init with
  | nil => intro e he; simp at he
  | cons f t ih =>
    intro e he
    rw [List.map_cons, List.nodup_cons] at hnd
    rw [List.foldl_cons]
    rcases List.mem_cons.mp he with he2 | he2
    · subst he2
      have hnotin : ∀ x ∈ t, x.1 ≠ e.1 := by
        intro x hx hxe
        exact hnd.1 (hxe ▸ List.mem_map_of_mem Prod.fst hx)
      rw [seed_fold_untouched t _ e.1 hnotin]
      exact alookup_upsert_self _ _ _
    · exact ih _ hnd.2 e he2

/-- The dictionary and heap produced by the seeding loop satisfy the
invariant. -/
theorem seed_inv {s : α} {g : Grid α} {source : Cell} {a0 : α}
    (hs : 0 < s) (hpos : ∀ p ∈ g.spaces, 0 < Prod.snd p)
    (hdisj : ∀ c ∈ g.walls, alookup g.spaces c = none)
    (hsrc : alookup g.spaces source = some a0)
    {adject : List (Entry α)}
    (hnav : navigation_edges s g source = some adject) :
    LoopInv s g source (seedDict source adject) adject := by
  have hnosrc : ∀ e ∈ adject, e.1 ≠ source := nav_no_self hnav
  have hsrc0 : alookup (seedDict source adject) source = some 0 := by
    rw [seedDict, seed_fold_untouched adject _ source hnosrc, alookup_cons, if_pos rfl]
  have hshape : ∀ c v, alookup (seedDict source adject) c = some v →
      (c = source ∧ v = 0) ∨ (c, v) ∈ adject := by
    intro c v h
    rcases seed_fold_lookup_shape adject _ c v h with h2 | h2
    · rw [alookup_cons] at h2
      by_cases hc : source = c
      · rw [if_pos hc] at h2
        left
        exact ⟨hc.symm, by injection h2.symm⟩
      · rw [if_neg hc, alookup] at h2
        exact absurd h2 (by simp)
    · exact Or.inr h2
  have hsrcwall : source ∉ g.walls := by
    intro hw
    rw [hdisj source hw] at hsrc
    exact absurd hsrc (by simp)
  refine ⟨⟨?_, ?_, hsrc0, ?_⟩, ?_, ?_⟩
  · -- achieve
    intro c v h
    rcases hshape c v h with ⟨hc, hv⟩ | hmem
    · right
      refine ⟨0, by rw [hv, WithTop.coe_zero], ?_⟩
      rw [hc]
      exact ValidPath.refl source a0 hsrc
    · rcases (nav_sound hnav (c, v) hmem).2 with ⟨a, ha, b, hb, hcost⟩ | ⟨_, _, htop⟩
      · right
        rcases hcost with ⟨_, hcost⟩ | ⟨_, hcost⟩
        · refine ⟨a * s + b * s, hcost, ?_⟩
          have hstep := ValidPath.step source source c 0
            (a * s + b * s) (ValidPath.refl source a0 hsrc) adject hnav
            (by rw [← hcost]; exact hmem)
          rw [zero_add] at hstep
          exact hstep
        · refine ⟨a * (1 / 2) + b * (1 / 2), hcost, ?_⟩
          have hstep := ValidPath.step source source c 0
            (a * (1 / 2) + b * (1 / 2)) (ValidPath.refl source a0 hsrc) adject hnav
            (by rw [← hcost]; exact hmem)
          rw [zero_add] at hstep
          exact hstep
      · exact Or.inl htop
  · -- topWall
    intro c v h
    rcases hshape c v h with ⟨hc, hv⟩ | hmem
    · subst hc
      constructor
      · intro hvt
        rw [hvt] at hv
        exact absurd hv.symm (by simp)
      · intro hw
        exact absurd hw hsrcwall
    · constructor
      · intro hvt
        exact nav_top_wall hnav (c, v) hmem hvt
      · intro hw
        exact nav_wall_top hdisj hnav (c, v) hmem hw
  · -- pred
    intro c v h hc
    rcases hshape c v h with ⟨hc2, _⟩ | hmem
    · exact absurd hc2 hc
    · refine ⟨source, ?_, 0, hsrc0, ?_⟩
      · exact mem_boxCells_of_nearCells (nav_sound hnav (c, v) hmem).1
      · exact nav_pos hs hpos hnav (c, v) hmem
  · -- keyHeap
    intro e he
    rw [seedDict]
    exact seed_fold_isSome adject _ e he
  · -- qOrRelaxed
    intro c hc
    obtain ⟨v, hv⟩ := Option.isSome_iff_exists.mp hc
    rcases hshape c v hv with ⟨hc2, hv0⟩ | hmem
    · subst hc2
      right
      intro l hl e he
      have hla : adject = l := by
        have := hnav.symm.trans hl
        injection this
      subst hla
      have he2 : alookup (seedDict c adject) e.1 = some e.2 :=
        seed_fold_lookup_nodup adject _ (nav_keys_nodup hnav) e he
      rw [dLook_eq he2, dLook_eq hsrc0, add_zero]
    · exact Or.inl ⟨v, hmem⟩

end SeedLemmas

/-!
Running the loops preserves the invariant; optimality and the wall-key
property of the final map follow.
-/

section RunLemmas

variable {α : Type} [LinearOrderedField α]

theorem toAllLoop_succ_pop (adj : Grid α → Cell → Option (List (Entry α)))
    (g : Grid α) (n : ℕ) (dij : List (Cell × WithTop α)) (qheap : List (Entry α))
    (u : Cell) (cu : WithTop α) (rest : List (Entry α))
    (hpop : popMin qheap = some ((u, cu), rest)) :
    toAllLoop adj g (n + 1) dij qheap =
      if u ∈ g.walls then toAllLoop adj g n dij rest
      else
        match alookup dij u, adj g u with
        | some du, some costs =>
          toAllLoop adj g n (relaxAll du dij rest costs).1 (relaxAll du dij rest costs).2
        | _, _ => Res.err := by
  rw [toAllLoop, hpop]

theorem toAllLoop_succ_empty (adj : Grid α → Cell → Option (List (Entry α)))
    (g : Grid α) (n : ℕ) (dij : List (Cell × WithTop α)) (qheap : List (Entry α))
    (hpop : popMin qheap = none) :
    toAllLoop adj g (n + 1) dij qheap = Res.ok dij := by
  rw [toAllLoop, hpop]

theorem spLoop_succ_pop (adj : Grid α → Cell → Option (List (Entry α)))
    (g : Grid α) (dest : Cell) (n : ℕ) (dij : List (Cell × WithTop α))
    (qheap : List (Entry α)) (u : Cell) (cu : WithTop α) (rest : List (Entry α))
    (hpop : popMin qheap = some ((u, cu), rest)) :
    spLoop adj g dest (n + 1) dij qheap =
      if u = dest then Res.ok dij
      else if u ∈ g.walls then spLoop adj g dest n dij rest
      else
        match alookup dij u, adj g u with
        | some du, some costs =>
          spLoop adj g dest n (relaxAll du dij rest costs).1 (relaxAll du dij rest costs).2
        | _, _ => Res.err := by
  rw [spLoop, hpop]

theorem spLoop_succ_empty (adj : Grid α → Cell → Option (List (Entry α)))
    (g : Grid α) (dest : Cell) (n : ℕ) (dij : List (Cell × WithTop α))
    (qheap : List (Entry α)) (hpop : popMin qheap = none) :
    spLoop adj g dest (n + 1) dij qheap = Res.ok dij := by
  rw [spLoop, hpop]

theorem toAllLoop_ok_inv {s : α} {g : Grid α} {source : Cell}
    (hs : 0 < s) (hpos : ∀ p ∈ g.spaces, 0 < Prod.snd p)
    (hdisj : ∀ c ∈ g.walls, alookup g.spaces c = none) :
    ∀ (fuel : ℕ) (dij : List (Cell × WithTop α)) (qheap : List (Entry α))
      (m : List (Cell × WithTop α)),
      LoopInv s g source dij qheap →
      toAllLoop (navigation_edges s) g fuel dij qheap = Res.ok m →
      DictInv s g source m ∧ ∀ c, Relaxed s g m c := by
  intro fuel
  induction fuel with
  | zero =>
    intro dij qheap m _ hrun
    exact absurd hrun (by rw [toAllLoop]; simp)
  | succ n ih =>
    intro dij qheap m inv hrun
    rcases hpop : popMin qheap with _ | ⟨⟨u, cu⟩, rest⟩
    · rw [toAllLoop_succ_empty _ _ _ _ _ hpop] at hrun
      have hm : dij = m := by injection hrun
      subst hm
      rw [popMin_none_iff] at hpop
      subst hpop
      exact ⟨inv.toDictInv, empty_heap_relaxed inv⟩
    · rw [toAllLoop_succ_pop _ _ _ _ _ _ _ _ hpop] at hrun
      by_cases hw : u ∈ g.walls
      · rw [if_pos hw] at hrun
        exact ih _ _ m (wall_skip_inv inv hpop hw) hrun
      · rw [if_neg hw] at hrun
        rcases hdu : alookup dij u with _ | du
        · rw [hdu] at hrun
          have hcon : (Res.err : Res (List (Cell × WithTop α))) = Res.ok m := hrun
          exact absurd hcon (by simp)
        · rw [hdu] at hrun
          rcases hadj : navigation_edges s g u with _ | costs
          · rw [hadj] at hrun
            have hcon : (Res.err : Res (List (Cell × WithTop α))) = Res.ok m := hrun
            exact absurd hcon (by simp)
          · rw [hadj] at hrun
            exact ih _ _ m (relax_step_inv hs hpos hdisj inv hpop hw hdu hadj) hrun

theorem spLoop_ok_inv {s : α} {g : Grid α} {source dest : Cell}
    (hs : 0 < s) (hpos : ∀ p ∈ g.spaces, 0 < Prod.snd p)
    (hdisj : ∀ c ∈ g.walls, alookup g.spaces c = none) :
    ∀ (fuel : ℕ) (dij : List (Cell × WithTop α)) (qheap : List (Entry α))
      (m : List (Cell × WithTop α)),
      LoopInv s g source dij qheap →
      spLoop (navigation_edges s) g dest fuel dij qheap = Res.ok m →
      DictInv s g source m := by
  intro fuel
  induction fuel with
  | zero =>
    intro dij qheap m _ hrun
    exact absurd hrun (by rw [spLoop]; simp)
  | succ n ih =>
    intro dij qheap m inv hrun
    rcases hpop : popMin qheap with _ | ⟨⟨u, cu⟩, rest⟩
    · rw [spLoop_succ_empty _ _ _ _ _ _ hpop] at hrun
      have hm : dij = m := by injection hrun
      subst hm
      exact inv.toDictInv
    · rw [spLoop_succ_pop _ _ _ _ _ _ _ _ _ hpop] at hrun
      by_cases hd : u = dest
      · rw [if_pos hd] at hrun
        have hm : dij = m := by injection hrun
        subst hm
        exact inv.toDictInv
      · rw [if_neg hd] at hrun
        by_cases hw : u ∈ g.walls
        · rw [if_pos hw] at hrun
          exact ih _ _ m (wall_skip_inv inv hpop hw) hrun
        · rw [if_neg hw] at hrun
          rcases hdu : alookup dij u with _ | du
          · rw [hdu] at hrun
            have hcon : (Res.err : Res (List (Cell × WithTop α))) = Res.ok m := hrun
            exact absurd hcon (by simp)
          · rw [hdu] at hrun
            rcases hadj : navigation_edges s g u with _ | costs
            · rw [hadj] at hrun
              have hcon : (Res.err : Res (List (Cell × WithTop α))) = Res.ok m := hrun
              exact absurd hcon (by simp)
            · rw [hadj] at hrun
              exact ih _ _ m (relax_step_inv hs hpos hdisj inv hpop hw hdu hadj) hrun

/-- A completed all-destinations run yields an invariant dictionary in which
every cell is relaxed. -/
theorem toAll_run_inv {s : α} {g : Grid α} {source : Cell} {a0 : α}
    (hs : 0 < s) (hpos : ∀ p ∈ g.spaces, 0 < Prod.snd p)
    (hdisj : ∀ c ∈ g.walls, alookup g.spaces c = none)
    (hsrc : alookup g.spaces source = some a0)
    {fuel : ℕ} {m : List (Cell × WithTop α)}
    (hrun : dijkstras_shortest_path_to_all fuel (navigation_edges s) source g = Res.ok m) :
    DictInv s g source m ∧ ∀ c, Relaxed s g m c := by
  obtain ⟨adject, hnav⟩ := nav_some_of_space (s := s) hsrc
  rw [dijkstras_shortest_path_to_all, hnav] at hrun
  exact toAllLoop_ok_inv hs hpos hdisj fuel _ _ m
    (seed_inv hs hpos hdisj hsrc hnav) hrun

/-- In a fully relaxed dictionary, the recorded cost of the endpoint of any
valid path is bounded by the recorded cost of its start plus the path cost. -/
theorem relaxed_upper {s : α} {g : Grid α} (m : List (Cell × WithTop α))
    (hr : ∀ c, Relaxed s g m c) :
    ∀ {src c : Cell} {x : α}, ValidPath s g src c x →
      dLook m c ≤ dLook m src + ((x : α) : WithTop α) := by
  intro src c x h
  induction h with
  | refl a ha =>
    rw [WithTop.coe_zero, add_zero]
  | step mid nxt x w hp l hnav hmem ih =>
    have h1 := hr mid l hnav (nxt, ((w : α) : WithTop α)) hmem
    refine le_trans h1 ?_
    refine le_trans (add_le_add_left ih _) ?_
    rw [WithTop.coe_add, add_comm ((x : α) : WithTop α) ((w : α) : WithTop α),
      ← add_assoc, add_comm ((w : α) : WithTop α) (dLook m src), add_assoc]

/-- C1: for a grid satisfying the data-model invariant and a source in
`spaces`, every reachable cell is mapped by the completed
`dijkstras_shortest_path_to_all` run to the exact minimum, over all paths from
the source through space cells, of the sum of the adjacency edge costs. -/
theorem C1_optimality {α : Type} [LinearOrderedField α] (s : α) (hs : 0 < s)
    (g : Grid α) (hpos : ∀ p ∈ g.spaces, 0 < Prod.snd p)
    (hdisj : ∀ c ∈ g.walls, alookup g.spaces c = none)
    (source : Cell) (a0 : α) (hsrc : alookup g.spaces source = some a0)
    (fuel : ℕ) (m : List (Cell × WithTop α))
    (hrun : dijkstras_shortest_path_to_all fuel (navigation_edges s) source g = Res.ok m)
    (c : Cell) (x0 : α) (hreach : ValidPath s g source c x0) :
    ∃ d : α, alookup m c = some ((d : α) : WithTop α) ∧ ValidPath s g source c d ∧
      ∀ y : α, ValidPath s g source c y → d ≤ y := by
  obtain ⟨dinv, hrel⟩ := toAll_run_inv hs hpos hdisj hsrc hrun
  have hub : ∀ y : α, ValidPath s g source c y → dLook m c ≤ ((y : α) : WithTop α) := by
    intro y hy
    have h1 := relaxed_upper m hrel hy
    rw [dLook_eq dinv.src0, zero_add] at h1
    exact h1
  have hc := hub x0 hreach
  rcases hlk : alookup m c with _ | v
  · rw [dLook_none hlk, top_le_iff] at hc
    exact absurd hc WithTop.coe_ne_top
  · rw [dLook_eq hlk] at hc
    have hvf : v ≠ ⊤ := by
      intro h
      rw [h, top_le_iff] at hc
      exact WithTop.coe_ne_top hc
    obtain ⟨d, hd⟩ := WithTop.ne_top_iff_exists.mp hvf
    rcases dinv.achieve c v hlk with h | ⟨d2, hd2, hvp⟩
    · exact absurd h hvf
    · refine ⟨d2, congrArg some hd2, hvp, ?_⟩
      intro y hy
      have h2 := hub y hy
      rw [dLook_eq hlk, hd2, WithTop.coe_le_coe] at h2
      exact h2

/-- Witness for `C1_optimality` on the two-cell corridor. -/
theorem C1_optimality_witness :
    ∃ d : ℚ,
      alookup [((0,0), (0 : WithTop ℚ)), ((1,0), ((1:ℚ) : WithTop ℚ))] (1,0) =
        some ((d : ℚ) : WithTop ℚ) ∧
      ValidPath ((1:ℚ)/2) gridPair (0,0) (1,0) d ∧
      ∀ y : ℚ, ValidPath ((1:ℚ)/2) gridPair (0,0) (1,0) y → d ≤ y := by
  have h0 : ValidPath ((1:ℚ)/2) gridPair (0,0) (0,0) 0 :=
    ValidPath.refl (0,0) 1 (by with_unfolding_all rfl)
  have hnav : navigation_edges ((1:ℚ)/2) gridPair (0,0) =
      some [((1,0), ((1:ℚ) : WithTop ℚ))] := by with_unfolding_all rfl
  have h1 := ValidPath.step (0,0) (0,0) (1,0) 0 1 h0
    [((1,0), ((1:ℚ) : WithTop ℚ))] hnav (by simp)
  rw [zero_add] at h1
  exact C1_optimality ((1:ℚ)/2) (by norm_num) gridPair
    (by with_unfolding_all decide) (by simp [gridPair]) (0,0) 1 (by with_unfolding_all rfl)
    100 [((0,0), (0 : WithTop ℚ)), ((1,0), ((1:ℚ) : WithTop ℚ))]
    (by with_unfolding_all rfl) (1,0) 1 h1

end RunLemmas

/-- C9: in the map returned by a completed `dijkstras_shortest_path_to_all`
run on a grid satisfying the data-model invariant, every wall key carries the
value `inf` and every space key carries a finite value. -/
theorem C9_wall_keys_infinite {α : Type} [LinearOrderedField α] (s : α) (hs : 0 < s)
    (g : Grid α) (hpos : ∀ p ∈ g.spaces, 0 < Prod.snd p)
    (hdisj : ∀ c ∈ g.walls, alookup g.spaces c = none)
    (source : Cell) (a0 : α) (hsrc : alookup g.spaces source = some a0)
    (fuel : ℕ) (m : List (Cell × WithTop α))
    (hrun : dijkstras_shortest_path_to_all fuel (navigation_edges s) source g = Res.ok m) :
    ∀ c v, alookup m c = some v →
      (c ∈ g.walls → v = (⊤ : WithTop α)) ∧
      ((alookup g.spaces c).isSome → ∃ d : α, v = ((d : α) : WithTop α)) := by
  obtain ⟨dinv, _⟩ := toAll_run_inv hs hpos hdisj hsrc hrun
  intro c v hcv
  constructor
  · exact fun hw => (dinv.topWall c v hcv).mpr hw
  · intro hcs
    have hnw : c ∉ g.walls := by
      intro hw
      rw [hdisj c hw] at hcs
      exact absurd hcs (by simp)
    have hvf : v ≠ ⊤ := fun h => hnw ((dinv.topWall c v hcv).mp h)
    obtain ⟨d, hd⟩ := WithTop.ne_top_iff_exists.mp hvf
    exact ⟨d, hd.symm⟩

/-- Witness for `C9_wall_keys_infinite`: the single-space level with one wall
neighbour; the wall enters the returned map with value `inf`. -/
theorem C9_wall_keys_infinite_witness :
    ((0,1) ∈ gridWallNb.walls → (⊤ : WithTop ℚ) = ⊤) ∧
    ((alookup gridWallNb.spaces (0,1)).isSome →
      ∃ d : ℚ, (⊤ : WithTop ℚ) = ((d : ℚ) : WithTop ℚ)) := by
  exact C9_wall_keys_infinite ((1:ℚ)/2) (by norm_num) gridWallNb
    (by with_unfolding_all decide) (by with_unfolding_all decide)
    (0,0) 1 (by with_unfolding_all rfl) 100
    [((0,0), (0 : WithTop ℚ)), ((0,1), (⊤ : WithTop ℚ))]
    (by with_unfolding_all rfl) (0,1) ⊤ (by with_unfolding_all rfl)

/-!
Analysis of the path-reconstruction loop.
-/

section ReconLemmas

variable {α : Type} [LinearOrderedField α]

theorem reconLoop_succ_done (dij : List (Cell × WithTop α)) (initial : Cell)
    (n : ℕ) (curr : Cell) (path : List Cell) (h : curr = initial) :
    reconLoop dij initial (n + 1) curr path = Res.ok (initial :: path) := by
  rw [reconLoop, if_pos h]

theorem reconLoop_succ_go (dij : List (Cell × WithTop α)) (initial : Cell)
    (n : ℕ) (curr : Cell) (path : List Cell) (h : ¬ curr = initial) :
    reconLoop dij initial (n + 1) curr path =
      reconLoop dij initial n (scanBox dij curr curr) (scanBox dij curr curr :: path) := by
  rw [reconLoop, if_neg h]

theorem boxCond_true {dij : List (Cell × WithTop α)} {check curr found : Cell}
    (h : boxCond dij check curr found = true) :
    ∃ a b, alookup dij check = some a ∧ alookup dij curr = some b ∧ a < b := by
  rw [boxCond] at h
  rcases hc : alookup dij check with _ | a <;> rw [hc] at h
  · simp at h
  · rcases hb : alookup dij curr with _ | b <;> rw [hb] at h
    · simp at h
    · rcases hf : alookup dij found with _ | f <;> rw [hf] at h
      · simp at h
      · rw [Bool.and_eq_true, decide_eq_true_iff, decide_eq_true_iff] at h
        exact ⟨a, b, rfl, rfl, h.1⟩

theorem scanBox_shape (dij : List (Cell × WithTop α)) (curr : Cell) :
    ∀ (cs : List Cell) (found0 : Cell),
      cs.foldl (fun found check => if boxCond dij check curr found then check else found)
          found0 = found0 ∨
      ∃ a b, alookup dij
          (cs.foldl (fun found check => if boxCond dij check curr found then check else found)
            found0) = some a ∧ alookup dij curr = some b ∧ a < b := by
  intro cs
  induction cs with
  | nil => exact fun found0 => Or.inl rfl
  | cons c t ih =>
    intro found0
    rw [List.foldl_cons]
    by_cases hcond : boxCond dij c curr found0 = true
    · rw [if_pos hcond]
      right
      rcases ih c with h | h
      · rw [h]
        exact boxCond_true hcond
      · exact h
    · rw [if_neg hcond]
      exact ih found0

theorem scanBox_result (dij : List (Cell × WithTop α)) (curr found0 : Cell) :
    scanBox dij curr found0 = found0 ∨
      ∃ a b, alookup dij (scanBox dij curr found0) = some a ∧
        alookup dij curr = some b ∧ a < b :=
  scanBox_shape dij curr (boxCells curr) found0

theorem reconLoop_stuck (dij : List (Cell × WithTop α)) (initial curr : Cell)
    (h : ¬ curr = initial) (hscan : scanBox dij curr curr = curr) :
    ∀ (fuel : ℕ) (path : List Cell),
      reconLoop dij initial fuel curr path = Res.timeout := by
  intro fuel
  induction fuel with
  | zero => intro path; rfl
  | succ n ih =>
    intro path
    rw [reconLoop_succ_go dij initial n curr path h, hscan]
    exact ih (curr :: path)

theorem reconLoop_ok_shape (dij : List (Cell × WithTop α)) (initial : Cell) :
    ∀ (fuel : ℕ) (curr : Cell) (path p : List Cell),
      reconLoop dij initial fuel curr path = Res.ok p →
      ∃ pre : List Cell, p = initial :: (pre ++ path) ∧
        ∀ f ∈ pre, ∃ a, alookup dij f = some a ∧ a < (⊤ : WithTop α) := by
  intro fuel
  induction fuel with
  | zero =>
    intro curr path p h
    exact absurd h (by rw [reconLoop]; simp)
  | succ n ih =>
    intro curr path p h
    by_cases hcur : curr = initial
    · rw [reconLoop_succ_done dij initial n curr path hcur] at h
      have hp : initial :: path = p := by injection h
      exact ⟨[], hp.symm, by simp⟩
    · rw [reconLoop_succ_go dij initial n curr path hcur] at h
      by_cases hfc : scanBox dij curr curr = curr
      · rw [hfc, reconLoop_stuck dij initial curr hcur hfc n (curr :: path)] at h
        exact absurd h (by simp)
      · obtain ⟨pre, hp, hgood⟩ := ih (scanBox dij curr curr)
          (scanBox dij curr curr :: path) p h
        refine ⟨pre ++ [scanBox dij curr curr], ?_, ?_⟩
        · rw [hp, List.append_cons pre (scanBox dij curr curr) path]
        · intro f hf
          rcases List.mem_append.mp hf with hf | hf
          · exact hgood f hf
          · simp only [List.mem_singleton] at hf
            subst hf
            rcases scanBox_result dij curr curr with hres | ⟨a, b, ha, _, hab⟩
            · exact absurd hres hfc
            · exact ⟨a, ha, lt_of_lt_of_le hab le_top⟩

end ReconLemmas

/-- C2 (amended): `navigation_edges` does return wall neighbours, but only
with cost `inf`; wall keys of the cost map only ever carry `inf`; and in a
returned path only the final element (the destination) can be a wall. -/
theorem C2_wall_behaviour {α : Type} [LinearOrderedField α] (s : α) (hs : 0 < s)
    (g : Grid α) (hpos : ∀ p ∈ g.spaces, 0 < Prod.snd p)
    (hdisj : ∀ c ∈ g.walls, alookup g.spaces c = none)
    (source : Cell) (a0 : α) (hsrc : alookup g.spaces source = some a0) :
    (∀ cell l, navigation_edges s g cell = some l →
      ∀ e ∈ l, Prod.fst e ∈ g.walls → Prod.snd e = (⊤ : WithTop α)) ∧
    (∀ fuel m, dijkstras_shortest_path_to_all fuel (navigation_edges s) source g =
        Res.ok m →
      ∀ c v, alookup m c = some v → c ∈ g.walls → v = (⊤ : WithTop α)) ∧
    (∀ fuel dest p, dijkstras_shortest_path fuel (navigation_edges s) source dest g =
        Res.ok (some p) →
      ∀ c ∈ p.dropLast, c ∉ g.walls) := by
  have hsrcwall : source ∉ g.walls := by
    intro hw
    rw [hdisj source hw] at hsrc
    exact absurd hsrc (by simp)
  refine ⟨?_, ?_, ?_⟩
  · intro cell l hl e he hw
    exact nav_wall_top hdisj hl e he hw
  · intro fuel m hrun c v hv hw
    obtain ⟨dinv, _⟩ := toAll_run_inv hs hpos hdisj hsrc hrun
    exact (dinv.topWall c v hv).mpr hw
  · intro fuel dest p hrun
    obtain ⟨adject, hnav⟩ := nav_some_of_space (s := s) hsrc
    rw [dijkstras_shortest_path, hnav] at hrun
    have hrun2 :
        (match spLoop (navigation_edges s) g dest fuel (seedDict source adject) adject with
          | Res.timeout => Res.timeout
          | Res.err => Res.err
          | Res.ok dij =>
            if (alookup dij dest).isNone then Res.ok none
            else
              match reconLoop dij source fuel dest [dest] with
              | Res.timeout => Res.timeout
              | Res.err => Res.err
              | Res.ok path => Res.ok (some path)) = Res.ok (some p) := hrun
    clear hrun
    rcases hsp : spLoop (navigation_edges s) g dest fuel (seedDict source adject) adject
      with _ | _ | dij
    · rw [hsp] at hrun2
      have hcon : (Res.timeout : Res (Option (List Cell))) = Res.ok (some p) := hrun2
      exact absurd hcon (by simp)
    · rw [hsp] at hrun2
      have hcon : (Res.err : Res (Option (List Cell))) = Res.ok (some p) := hrun2
      exact absurd hcon (by simp)
    · rw [hsp] at hrun2
      have dinv : DictInv s g source dij :=
        spLoop_ok_inv hs hpos hdisj fuel _ _ dij (seed_inv hs hpos hdisj hsrc hnav) hsp
      have hrun3 :
          (if (alookup dij dest).isNone then Res.ok none
           else
             match reconLoop dij source fuel dest [dest] with
             | Res.timeout => Res.timeout
             | Res.err => Res.err
             | Res.ok path => Res.ok (some path)) = Res.ok (some p) := hrun2
      clear hrun2
      by_cases hdn : (alookup dij dest).isNone
      · rw [if_pos hdn] at hrun3
        have hcon : some p = none := by
          have h3 : (Res.ok none : Res (Option (List Cell))) = Res.ok (some p) := hrun3
          injection h3 with h2
          exact h2.symm
        exact absurd hcon (by simp)
      · rw [if_neg hdn] at hrun3
        rcases hrec : reconLoop dij source fuel dest [dest] with _ | _ | path2
        · rw [hrec] at hrun3
          have hcon : (Res.timeout : Res (Option (List Cell))) = Res.ok (some p) := hrun3
          exact absurd hcon (by simp)
        · rw [hrec] at hrun3
          have hcon : (Res.err : Res (Option (List Cell))) = Res.ok (some p) := hrun3
          exact absurd hcon (by simp)
        · rw [hrec] at hrun3
          have hp2 : path2 = p := by
            have h3 : (Res.ok (some path2) : Res (Option (List Cell))) = Res.ok (some p) := hrun3
            injection h3 with h2
            injection h2
          subst hp2
          obtain ⟨pre, hp, hgood⟩ := reconLoop_ok_shape dij source fuel dest [dest] path2 hrec
          subst hp
          intro c hc
          have hdl : (source :: (pre ++ [dest])).dropLast = source :: pre := by
            rw [show source :: (pre ++ [dest]) = (source :: pre) ++ [dest] from rfl]
            exact List.dropLast_concat
          rw [hdl] at hc
          rcases List.mem_cons.mp hc with hc2 | hc2
          · subst hc2
            exact hsrcwall
          · obtain ⟨a, ha, hat⟩ := hgood c hc2
            intro hw
            have : a = ⊤ := (dinv.topWall c a ha).mpr hw
            rw [this] at hat
            exact lt_irrefl _ hat

/-- Witness for `C2_wall_behaviour` on the 3-by-3 level with wall `(1,0)`. -/
theorem C2_wall_behaviour_witness :
    (∀ cell l, navigation_edges Q2.shalf grid3w cell = some l →
      ∀ e ∈ l, Prod.fst e ∈ grid3w.walls → Prod.snd e = (⊤ : WithTop Q2)) ∧
    (∀ fuel m, dijkstras_shortest_path_to_all fuel (navigation_edges Q2.shalf) (1,1) grid3w =
        Res.ok m →
      ∀ c v, alookup m c = some v → c ∈ grid3w.walls → v = (⊤ : WithTop Q2)) ∧
    (∀ fuel dest p, dijkstras_shortest_path fuel (navigation_edges Q2.shalf) (1,1) dest grid3w =
        Res.ok (some p) →
      ∀ c ∈ p.dropLast, c ∉ grid3w.walls) := by
  exact C2_wall_behaviour Q2.shalf (by with_unfolding_all decide) grid3w
    (by with_unfolding_all decide) (by with_unfolding_all decide)
    (1,1) 1 (by with_unfolding_all rfl)

/-- C3 (amended): the engine initialises the cost map to `{source: 0}` and
then seeds it with the adjacency entries of the source; the queue is seeded
with those `(neighbour, edge cost)` entries, not with `(0, source)`; and each
iteration pops an entry minimal in the lexicographic order on `(cell, cost)`
(cell first), not an entry of minimal cost. -/
theorem C3_algorithm_steps {α : Type} [LinearOrderedField α] (s : α) (g : Grid α)
    (source : Cell) (adject : List (Entry α))
    (hnav : navigation_edges s g source = some adject) :
    alookup (seedDict source adject) source = some 0 ∧
    (∀ fuel : ℕ, dijkstras_shortest_path_to_all fuel (navigation_edges s) source g =
      toAllLoop (navigation_edges s) g fuel (seedDict source adject) adject) ∧
    (∀ e ∈ adject, Prod.fst e ≠ source) ∧
    (∀ (qheap : List (Entry α)) (m : Entry α) (rest : List (Entry α)),
      popMin qheap = some (m, rest) → m ∈ qheap ∧ ∀ e ∈ qheap, ¬ entryLt e m) := by
  refine ⟨?_, ?_, ?_, ?_⟩
  · rw [seedDict, seed_fold_untouched adject _ source (nav_no_self hnav),
      alookup_cons, if_pos rfl]
  · intro fuel
    rw [dijkstras_shortest_path_to_all, hnav]
  · exact nav_no_self hnav
  · intro qheap m rest hpop
    exact ⟨popMin_mem hpop, popMin_min hpop⟩

/-- Witness for `C3_algorithm_steps` on the two-cell corridor. -/
theorem C3_algorithm_steps_witness :
    alookup (seedDict (0,0) [((1,0), ((1:ℚ) : WithTop ℚ))]) (0,0) = some 0 ∧
    (∀ fuel : ℕ, dijkstras_shortest_path_to_all fuel (navigation_edges ((1:ℚ)/2)) (0,0) gridPair =
      toAllLoop (navigation_edges ((1:ℚ)/2)) gridPair fuel
        (seedDict (0,0) [((1,0), ((1:ℚ) : WithTop ℚ))]) [((1,0), ((1:ℚ) : WithTop ℚ))]) ∧
    (∀ e ∈ [((1,0), ((1:ℚ) : WithTop ℚ))], Prod.fst e ≠ ((0,0) : Cell)) ∧
    (∀ (qheap : List (Entry ℚ)) (m : Entry ℚ) (rest : List (Entry ℚ)),
      popMin qheap = some (m, rest) → m ∈ qheap ∧ ∀ e ∈ qheap, ¬ entryLt e m) := by
  exact C3_algorithm_steps ((1:ℚ)/2) gridPair (0,0) [((1,0), ((1:ℚ) : WithTop ℚ))]
    (by with_unfolding_all rfl)

/-!
Termination of `dijkstras_shortest_path`.  The relaxation loop admits a
natural-number measure: the heap length plus, for every space key, the number
of still-possible smaller dictionary values (drawn from the finite set of
bounded-length walk costs), plus the number of wall cells not yet inserted.
Every iteration strictly decreases the measure, so a large enough fuel never
times out.  The reconstruction loop decreases the number of dictionary entries
cheaper than the current cell, using the `pred` field of the invariant.
-/

section TerminationLemmas

variable {α : Type} [LinearOrderedField α]

theorem popMin_length {l r : List (Entry α)} {m : Entry α}
    (h : popMin l = some (m, r)) : l.length = r.length + 1 := by
  induction l generalizing m r with
  | nil => simp [popMin] at h
  | cons e t ih =>
    rcases ht : popMin t with _ | ⟨mt, rt⟩
    · rw [popMin_cons_nil e t ht] at h
      simp only [Option.some.injEq, Prod.mk.injEq] at h
      rw [popMin_none_iff] at ht
      subst ht
      rw [← h.2]
      rfl
    · by_cases hlt : entryLt mt e
      · rw [popMin_cons_lt e t mt rt ht hlt] at h
        simp only [Option.some.injEq, Prod.mk.injEq] at h
        rw [← h.2]
        have h3 := ih ht
        simp only [List.length_cons]
        omega
      · rw [popMin_cons_ge e t mt rt ht hlt] at h
        simp only [Option.some.injEq, Prod.mk.injEq] at h
        rw [← h.2]
        rfl

theorem mem_keys_isSome {β : Type} {d : List (Cell × β)} {c : Cell}
    (h : c ∈ d.map Prod.fst) : (alookup d c).isSome := by
  induction d with
  | nil => simp at h
  | cons kv t ih =>
    rw [List.map_cons, List.mem_cons] at h
    rw [alookup_cons]
    by_cases hk : kv.1 = c
    · rw [if_pos hk]; rfl
    · rw [if_neg hk]
      rcases h with h | h
      · exact absurd h.symm hk
      · exact ih h

theorem upsert_length_of_some {β : Type} {d : List (Cell × β)} {c : Cell} {v0 : β}
    (h : alookup d c = some v0) (v : β) : (upsert d c v).length = d.length := by
  induction d with
  | nil => simp [alookup] at h
  | cons kv t ih =>
    rw [alookup_cons] at h
    rw [upsert_cons]
    by_cases hk : kv.1 = c
    · rw [if_pos hk, List.length_cons, List.length_cons]
    · rw [if_neg hk] at h ⊢
      rw [List.length_cons, List.length_cons, ih h]

theorem upsert_length_of_none {β : Type} {d : List (Cell × β)} {c : Cell}
    (h : alookup d c = none) (v : β) : (upsert d c v).length = d.length + 1 := by
  induction d with
  | nil => rfl
  | cons kv t ih =>
    rw [alookup_cons] at h
    rw [upsert_cons]
    by_cases hk : kv.1 = c
    · rw [if_pos hk] at h
      exact absurd h (by simp)
    · rw [if_neg hk] at h ⊢
      rw [List.length_cons, List.length_cons, ih h]

theorem upsert_length_ge {β : Type} (d : List (Cell × β)) (c : Cell) (v : β) :
    d.length ≤ (upsert d c v).length := by
  rcases h : alookup d c with _ | v0
  · rw [upsert_length_of_none h v]
    exact Nat.le_succ _
  · rw [upsert_length_of_some h v]

theorem upsert_keys_cases {β : Type} {d : List (Cell × β)} {c x : Cell} {v : β}
    (h : x ∈ (upsert d c v).map Prod.fst) : x = c ∨ x ∈ d.map Prod.fst := by
  induction d with
  | nil =>
    simp only [upsert, List.map_cons, List.map_nil, List.mem_singleton] at h
    exact Or.inl h
  | cons kv t ih =>
    rw [upsert_cons] at h
    by_cases hk : kv.1 = c
    · rw [if_pos hk, List.map_cons, List.mem_cons] at h
      rcases h with h | h
      · exact Or.inl h
      · exact Or.inr (by rw [List.map_cons]; exact List.mem_cons_of_mem _ h)
    · rw [if_neg hk, List.map_cons, List.mem_cons] at h
      rcases h with h | h
      · exact Or.inr (by rw [List.map_cons, h]; exact List.mem_cons_self _ _)
      · rcases ih h with h2 | h2
        · exact Or.inl h2
        · exact Or.inr (by rw [List.map_cons]; exact List.mem_cons_of_mem _ h2)

theorem upsert_keys_nodup {β : Type} {d : List (Cell × β)} (c : Cell) (v : β)
    (h : (d.map Prod.fst).Nodup) : ((upsert d c v).map Prod.fst).Nodup := by
  induction d with
  | nil => simp [upsert]
  | cons kv t ih =>
    rw [List.map_cons, List.nodup_cons] at h
    rw [upsert_cons]
    by_cases hk : kv.1 = c
    · rw [if_pos hk, List.map_cons, List.nodup_cons]
      exact ⟨by rw [← hk]; exact h.1, h.2⟩
    · rw [if_neg hk, List.map_cons, List.nodup_cons]
      refine ⟨?_, ih h.2⟩
      intro hmem
      rcases upsert_keys_cases hmem with h2 | h2
      · exact hk h2
      · exact h.1 h2

theorem sum_map_le_pointwise {γ : Type} (U : List γ) (f f2 : γ → ℕ)
    (h : ∀ k ∈ U, f2 k ≤ f k) : (U.map f2).sum ≤ (U.map f).sum := by
  induction U with
  | nil => simp
  | cons x t ih =>
    rw [List.map_cons, List.map_cons, List.sum_cons, List.sum_cons]
    exact Nat.add_le_add (h x (List.mem_cons_self x t))
      (ih fun k hk => h k (List.mem_cons_of_mem x hk))

theorem sum_map_succ_le {γ : Type} (f f2 : γ → ℕ) (c : γ)
    (hlt : f2 c + 1 ≤ f c) :
    ∀ U : List γ, c ∈ U → (∀ k ∈ U, f2 k ≤ f k) →
      (U.map f2).sum + 1 ≤ (U.map f).sum := by
  intro U
  induction U with
  | nil =>
    intro hc
    simp at hc
  | cons x t ih =>
    intro hc h
    rw [List.map_cons, List.map_cons, List.sum_cons, List.sum_cons]
    by_cases hx : x = c
    · have h2 := sum_map_le_pointwise t f f2 (fun k hk => h k (List.mem_cons_of_mem x hk))
      have h3 : f2 x + 1 ≤ f x := by rw [hx]; exact hlt
      omega
    · rcases List.mem_cons.mp hc with h2 | h2
      · exact absurd h2.symm hx
      · have h3 := ih h2 (fun k hk => h k (List.mem_cons_of_mem x hk))
        have h4 := h x (List.mem_cons_self x t)
        omega

theorem filter_length_le_mono {γ : Type} (p q : γ → Bool) :
    ∀ L : List γ, (∀ x ∈ L, q x = true → p x = true) →
      (L.filter q).length ≤ (L.filter p).length := by
  intro L
  induction L with
  | nil =>
    intro _
    simp
  | cons x t ih =>
    intro h
    have h2 := ih fun y hy => h y (List.mem_cons_of_mem x hy)
    by_cases hq : q x = true
    · have hp := h x (List.mem_cons_self x t) hq
      simp only [List.filter_cons, hq, hp, if_true, List.length_cons]
      omega
    · rw [Bool.not_eq_true] at hq
      by_cases hp : p x = true
      · simp only [List.filter_cons, hq, hp, if_true, List.length_cons,
          Bool.false_eq_true, if_false]
        omega
      · rw [Bool.not_eq_true] at hp
        simp only [List.filter_cons, hq, hp, Bool.false_eq_true, if_false]
        exact h2

theorem filter_length_succ_le {γ : Type} (p q : γ → Bool) (c : γ)
    (hpc : p c = true) (hqc : q c = false) :
    ∀ L : List γ, c ∈ L → (∀ x ∈ L, q x = true → p x = true) →
      (L.filter q).length + 1 ≤ (L.filter p).length := by
  intro L
  induction L with
  | nil =>
    intro hc
    simp at hc
  | cons x t ih =>
    intro hc h
    by_cases hx : x = c
    · subst hx
      have h2 := filter_length_le_mono p q t (fun y hy => h y (List.mem_cons_of_mem x hy))
      simp only [List.filter_cons, hpc, hqc, if_true, Bool.false_eq_true, if_false,
        List.length_cons]
      omega
    · rcases List.mem_cons.mp hc with h2 | h2
      · exact absurd h2.symm hx
      · have h3 := ih h2 (fun y hy => h y (List.mem_cons_of_mem x hy))
        by_cases hq : q x = true
        · have hp := h x (List.mem_cons_self x t) hq
          simp only [List.filter_cons, hq, hp, if_true, List.length_cons]
          omega
        · rw [Bool.not_eq_true] at hq
          by_cases hp : p x = true
          · simp only [List.filter_cons, hq, hp, if_true, Bool.false_eq_true, if_false,
              List.length_cons]
            omega
          · rw [Bool.not_eq_true] at hp
            simp only [List.filter_cons, hq, hp, Bool.false_eq_true, if_false]
            exact h3

/-- The finite costs appearing in an adjacency list. -/
def finPart (l : List (Entry α)) : List α :=
  l.filterMap fun e => e.2.recTopCoe none some

theorem finPart_mem {l : List (Entry α)} {c : Cell} {w : α}
    (h : ((c, ((w : α) : WithTop α)) : Entry α) ∈ l) : w ∈ finPart l := by
  rw [finPart, List.mem_filterMap]
  exact ⟨(c, ((w : α) : WithTop α)), h, by simp⟩

theorem finPart_shape {l : List (Entry α)} {w : α} (h : w ∈ finPart l) :
    ∃ e ∈ l, Prod.snd e = ((w : α) : WithTop α) := by
  rw [finPart, List.mem_filterMap] at h
  obtain ⟨e, he, hfe⟩ := h
  rcases eq_or_ne e.2 (⊤ : WithTop α) with ht | ht
  · rw [ht] at hfe
    simp at hfe
  · obtain ⟨a, ha⟩ := WithTop.ne_top_iff_exists.mp ht
    rw [← ha] at hfe
    simp only [WithTop.recTopCoe_coe, Option.some.injEq] at hfe
    exact ⟨e, he, by rw [← ha, hfe]⟩

/-- Every finite edge weight of the level: the finite costs of the adjacency
lists of all space cells. -/
def gridWeights (s : α) (g : Grid α) : List α :=
  (g.spaces.map Prod.fst).flatMap fun c =>
    match navigation_edges s g c with
    | some l => finPart l
    | none => []

theorem gridWeights_mem {s : α} {g : Grid α} {cell : Cell} {l : List (Entry α)}
    {c : Cell} {w : α} (hcell : cell ∈ g.spaces.map Prod.fst)
    (hnav : navigation_edges s g cell = some l)
    (hmem : ((c, ((w : α) : WithTop α)) : Entry α) ∈ l) : w ∈ gridWeights s g := by
  rw [gridWeights, List.mem_flatMap]
  refine ⟨cell, hcell, ?_⟩
  rw [hnav]
  exact finPart_mem hmem

theorem gridWeights_pos {s : α} {g : Grid α} (hs : 0 < s)
    (hpos : ∀ p ∈ g.spaces, 0 < Prod.snd p) :
    ∀ w ∈ gridWeights s g, 0 < w := by
  intro w hw
  rw [gridWeights, List.mem_flatMap] at hw
  obtain ⟨c, _, hw⟩ := hw
  rcases hnavc : navigation_edges s g c with _ | l
  · rw [hnavc] at hw
    simp at hw
  · rw [hnavc] at hw
    obtain ⟨e, he, he2⟩ := finPart_shape hw
    have h3 := nav_pos hs hpos hnavc e he
    rw [he2, ← WithTop.coe_zero, WithTop.coe_lt_coe] at h3
    exact h3

/-- All sums of at most `n` elements drawn (with repetition) from `W`. -/
def sumsLe (W : List α) : ℕ → List α
  | 0 => [0]
  | n + 1 => sumsLe W n ++ W.flatMap fun w => (sumsLe W n).map fun x => w + x

theorem zero_mem_sumsLe (W : List α) : ∀ n, (0 : α) ∈ sumsLe W n := by
  intro n
  induction n with
  | zero => simp [sumsLe]
  | succ k ih =>
    rw [sumsLe]
    exact List.mem_append_left _ ih

theorem sum_mem_sumsLe (W : List α) :
    ∀ (n : ℕ) (l : List α), l.length ≤ n → (∀ w ∈ l, w ∈ W) →
      l.sum ∈ sumsLe W n := by
  intro n
  induction n with
  | zero =>
    intro l hl _
    rw [Nat.le_zero, List.length_eq_zero] at hl
    subst hl
    simp [sumsLe]
  | succ k ih =>
    intro l hl hW
    rcases l with _ | ⟨w, t⟩
    · rw [List.sum_nil, sumsLe]
      exact List.mem_append_left _ (zero_mem_sumsLe W k)
    · rw [sumsLe]
      refine List.mem_append_right _ ?_
      rw [List.mem_flatMap]
      refine ⟨w, hW w (List.mem_cons_self w t), ?_⟩
      rw [List.mem_map]
      refine ⟨t.sum, ih t ?_ (fun x hx => hW x (List.mem_cons_of_mem w hx)), ?_⟩
      · simp only [List.length_cons] at hl
        omega
      · rw [List.sum_cons]

theorem list_ub (W : List α) : ∃ b : α, 0 ≤ b ∧ ∀ w ∈ W, w ≤ b := by
  induction W with
  | nil => exact ⟨0, le_refl 0, by simp⟩
  | cons w t ih =>
    obtain ⟨b, hb0, hb⟩ := ih
    refine ⟨max w b, le_trans hb0 (le_max_right w b), ?_⟩
    intro x hx
    rcases List.mem_cons.mp hx with hx | hx
    · rw [hx]
      exact le_max_left w b
    · exact le_trans (hb x hx) (le_max_right w b)

theorem list_lb_pos (W : List α) (h : ∀ w ∈ W, 0 < w) :
    ∃ d : α, 0 < d ∧ ∀ w ∈ W, d ≤ w := by
  induction W with
  | nil => exact ⟨1, one_pos, by simp⟩
  | cons w t ih =>
    obtain ⟨d, hd0, hd⟩ := ih (fun x hx => h x (List.mem_cons_of_mem w hx))
    refine ⟨min w d, lt_min (h w (List.mem_cons_self w t)) hd0, ?_⟩
    intro x hx
    rcases List.mem_cons.mp hx with hx | hx
    · rw [hx]
      exact min_le_left w d
    · exact le_trans (min_le_right w d) (hd x hx)

theorem len_mul_le_sum {l : List α} {d : α} (hd : 0 ≤ d) (h : ∀ w ∈ l, d ≤ w) :
    (l.length : α) * d ≤ l.sum := by
  induction l with
  | nil => simp
  | cons w t ih =>
    rw [List.length_cons, List.sum_cons]
    push_cast
    rw [add_mul, one_mul]
    have h1 := ih (fun x hx => h x (List.mem_cons_of_mem w hx))
    have h2 := h w (List.mem_cons_self w t)
    linarith

/-- The cost of a valid path is a sum of level edge weights. -/
theorem vp_weights {s : α} {g : Grid α} {src c : Cell} {x : α}
    (h : ValidPath s g src c x) :
    ∃ lw : List α, (∀ w ∈ lw, w ∈ gridWeights s g) ∧ x = lw.sum := by
  induction h with
  | refl a ha => exact ⟨[], by simp, by simp⟩
  | step mid nxt x w hp l hnav hmem ih =>
    obtain ⟨lw, hlw, hsum⟩ := ih
    have hmid : ∃ a, alookup g.spaces mid = some a := by
      rcases (nav_sound hnav (nxt, ((w : α) : WithTop α)) hmem).2 with
        ⟨a, ha, _⟩ | ⟨_, _, htop⟩
      · exact ⟨a, ha⟩
      · exact absurd htop (by simp)
    obtain ⟨a, ha⟩ := hmid
    have hkey : mid ∈ g.spaces.map Prod.fst :=
      List.mem_map_of_mem Prod.fst (alookup_mem ha)
    refine ⟨w :: lw, ?_, ?_⟩
    · intro y hy
      rcases List.mem_cons.mp hy with hy | hy
      · rw [hy]
        exact gridWeights_mem hkey hnav hmem
      · exact hlw y hy
    · rw [List.sum_cons, ← hsum]
      exact add_comm x w

end TerminationLemmas

/-!
A bookkeeping invariant for the termination argument: the dictionary keys are
distinct and drawn from the level, every finite value is bounded by the
dictionary size times the largest edge weight, and only wall cells carry `inf`.
-/

section TerminationInvariant

variable {α : Type} [LinearOrderedField α]

/-- Size bookkeeping for the cost dictionary. -/
structure SizeInv (g : Grid α) (source : Cell) (wmax : α)
    (dij : List (Cell × WithTop α)) : Prop where
  nd : (dij.map Prod.fst).Nodup
  sub : ∀ c, (alookup dij c).isSome → c ∈ source :: (g.spaces.map Prod.fst ++ g.walls)
  bound : ∀ (c : Cell) (v : α), alookup dij c = some ((v : α) : WithTop α) →
    v ≤ (dij.length : α) * wmax
  twv : ∀ c, alookup dij c = some (⊤ : WithTop α) → c ∈ g.walls

theorem SizeInv.len_le {g : Grid α} {source : Cell} {wmax : α}
    {dij : List (Cell × WithTop α)} (inv : SizeInv g source wmax dij) :
    dij.length ≤ 1 + g.spaces.length + g.walls.length := by
  have h1 : dij.length = (dij.map Prod.fst).length := by simp
  have h2 : (dij.map Prod.fst).toFinset.card = (dij.map Prod.fst).length :=
    List.toFinset_card_of_nodup inv.nd
  have h3 : (dij.map Prod.fst).toFinset ⊆
      (source :: (g.spaces.map Prod.fst ++ g.walls)).toFinset := by
    intro x hx
    rw [List.mem_toFinset] at hx ⊢
    exact inv.sub x (mem_keys_isSome hx)
  have h4 := Finset.card_le_card h3
  have h5 := List.toFinset_card_le (source :: (g.spaces.map Prod.fst ++ g.walls))
  have h6 : (source :: (g.spaces.map Prod.fst ++ g.walls)).length =
      1 + g.spaces.length + g.walls.length := by
    simp only [List.length_cons, List.length_append, List.length_map]
    omega
  omega

theorem relaxOne_SizeInv {g : Grid α} {source : Cell} {wmax : α} {dd : α}
    (hwmax : 0 ≤ wmax)
    (st : List (Cell × WithTop α) × List (Entry α)) (cw : Entry α)
    (hdd : dd ≤ (st.1.length : α) * wmax)
    (hfin : ∀ w : α, cw.2 = ((w : α) : WithTop α) →
      w ≤ wmax ∧ cw.1 ∈ g.spaces.map Prod.fst ∧ cw.1 ∉ g.walls)
    (htop : cw.2 = (⊤ : WithTop α) → cw.1 ∈ g.walls)
    (inv : SizeInv g source wmax st.1) :
    SizeInv g source wmax (relaxOne ((dd : α) : WithTop α) st cw).1 ∧
      st.1.length ≤ (relaxOne ((dd : α) : WithTop α) st cw).1.length := by
  rcases hl : alookup st.1 cw.1 with _ | old
  · -- a fresh key is inserted
    have heq1 : (relaxOne ((dd : α) : WithTop α) st cw).1 =
        upsert st.1 cw.1 (cw.2 + ((dd : α) : WithTop α)) := by
      rw [relaxOne_eq_insert ((dd : α) : WithTop α) st cw hl]
    rw [heq1]
    have hlen : (upsert st.1 cw.1 (cw.2 + ((dd : α) : WithTop α))).length =
        st.1.length + 1 := upsert_length_of_none hl _
    refine ⟨⟨?_, ?_, ?_, ?_⟩, ?_⟩
    · exact upsert_keys_nodup cw.1 _ inv.nd
    · intro c hc
      by_cases hcc : c = cw.1
      · subst hcc
        rcases eq_or_ne cw.2 (⊤ : WithTop α) with ht | ht
        · exact List.mem_cons_of_mem _ (List.mem_append_right _ (htop ht))
        · obtain ⟨w, hw⟩ := WithTop.ne_top_iff_exists.mp ht
          exact List.mem_cons_of_mem _
            (List.mem_append_left _ ((hfin w hw.symm).2.1))
      · rw [alookup_upsert_ne _ _ _ _ (fun h2 => hcc h2.symm)] at hc
        exact inv.sub c hc
    · intro c v hv
      by_cases hcc : c = cw.1
      · subst hcc
        rw [alookup_upsert_self] at hv
        have hv2 := Option.some.inj hv
        rcases eq_or_ne cw.2 (⊤ : WithTop α) with ht | ht
        · rw [ht, WithTop.top_add] at hv2
          exact absurd hv2.symm WithTop.coe_ne_top
        · obtain ⟨w, hw⟩ := WithTop.ne_top_iff_exists.mp ht
          rw [← hw, ← WithTop.coe_add, WithTop.coe_inj] at hv2
          have h1 := (hfin w hw.symm).1
          rw [hlen, ← hv2]
          push_cast
          rw [add_mul, one_mul]
          linarith
      · rw [alookup_upsert_ne _ _ _ _ (fun h2 => hcc h2.symm)] at hv
        have h2 := inv.bound c v hv
        rw [hlen]
        push_cast
        rw [add_mul, one_mul]
        linarith
    · intro c hv
      by_cases hcc : c = cw.1
      · subst hcc
        rw [alookup_upsert_self] at hv
        have hv2 := Option.some.inj hv
        rcases WithTop.add_eq_top.mp hv2 with h2 | h2
        · exact htop h2
        · exact absurd h2 WithTop.coe_ne_top
      · rw [alookup_upsert_ne _ _ _ _ (fun h2 => hcc h2.symm)] at hv
        exact inv.twv c hv
    · rw [hlen]
      exact Nat.le_succ _
  · by_cases hgt : old > cw.2 + ((dd : α) : WithTop α)
    · -- an existing key is improved
      have heq1 : (relaxOne ((dd : α) : WithTop α) st cw).1 =
          upsert st.1 cw.1 (cw.2 + ((dd : α) : WithTop α)) := by
        rw [relaxOne_eq_update ((dd : α) : WithTop α) st cw old hl hgt]
      rw [heq1]
      have hlen : (upsert st.1 cw.1 (cw.2 + ((dd : α) : WithTop α))).length =
          st.1.length := upsert_length_of_some hl _
      refine ⟨⟨?_, ?_, ?_, ?_⟩, ?_⟩
      · exact upsert_keys_nodup cw.1 _ inv.nd
      · intro c hc
        by_cases hcc : c = cw.1
        · subst hcc
          exact inv.sub _ (by rw [hl]; rfl)
        · rw [alookup_upsert_ne _ _ _ _ (fun h2 => hcc h2.symm)] at hc
          exact inv.sub c hc
      · intro c v hv
        by_cases hcc : c = cw.1
        · subst hcc
          rw [alookup_upsert_self] at hv
          have hv2 := Option.some.inj hv
          rcases eq_or_ne cw.2 (⊤ : WithTop α) with ht | ht
          · rw [ht, WithTop.top_add] at hv2
            exact absurd hv2.symm WithTop.coe_ne_top
          · obtain ⟨w, hw⟩ := WithTop.ne_top_iff_exists.mp ht
            rcases eq_or_ne old (⊤ : WithTop α) with hot | hot
            · have hwall := inv.twv cw.1 (by rw [hl, hot])
              exact absurd hwall (hfin w hw.symm).2.2
            · obtain ⟨od, hod⟩ := WithTop.ne_top_iff_exists.mp hot
              have h1 := inv.bound cw.1 od (by rw [hl, ← hod])
              have h2 : ((v : α) : WithTop α) < ((od : α) : WithTop α) := by
                rw [← hv2, hod]
                exact hgt
              rw [WithTop.coe_lt_coe] at h2
              rw [hlen]
              linarith
        · rw [alookup_upsert_ne _ _ _ _ (fun h2 => hcc h2.symm)] at hv
          have h2 := inv.bound c v hv
          rw [hlen]
          exact h2
      · intro c hv
        by_cases hcc : c = cw.1
        · subst hcc
          rw [alookup_upsert_self] at hv
          have hv2 := Option.some.inj hv
          rcases WithTop.add_eq_top.mp hv2 with h2 | h2
          · exact htop h2
          · exact absurd h2 WithTop.coe_ne_top
        · rw [alookup_upsert_ne _ _ _ _ (fun h2 => hcc h2.symm)] at hv
          exact inv.twv c hv
      · rw [hlen]
    · rw [relaxOne_eq_keep ((dd : α) : WithTop α) st cw old hl hgt]
      exact ⟨inv, le_refl _⟩

theorem relaxAll_SizeInv {g : Grid α} {source : Cell} {wmax : α} {dd : α}
    (hwmax : 0 ≤ wmax) :
    ∀ (costs : List (Entry α)) (dij : List (Cell × WithTop α)) (qheap : List (Entry α)),
      (∀ cw ∈ costs, (∀ w : α, cw.2 = ((w : α) : WithTop α) →
          w ≤ wmax ∧ cw.1 ∈ g.spaces.map Prod.fst ∧ cw.1 ∉ g.walls) ∧
        (cw.2 = (⊤ : WithTop α) → cw.1 ∈ g.walls)) →
      dd ≤ (dij.length : α) * wmax →
      SizeInv g source wmax dij →
      SizeInv g source wmax (relaxAll ((dd : α) : WithTop α) dij qheap costs).1 ∧
        dij.length ≤ (relaxAll ((dd : α) : WithTop α) dij qheap costs).1.length := by
  intro costs
  induction costs with
  | nil => exact fun dij qheap _ _ inv => ⟨inv, le_refl _⟩
  | cons cw t ih =>
    intro dij qheap h hdd inv
    obtain ⟨inv2, hlen2⟩ := relaxOne_SizeInv hwmax (dij, qheap) cw hdd
      (fun w hw => (h cw (List.mem_cons_self cw t)).1 w hw)
      ((h cw (List.mem_cons_self cw t)).2) inv
    have hdd2 : dd ≤ ((relaxOne ((dd : α) : WithTop α) (dij, qheap) cw).1.length : α)
        * wmax :=
      le_trans hdd (mul_le_mul_of_nonneg_right (by exact_mod_cast hlen2) hwmax)
    obtain ⟨inv3, hlen3⟩ := ih (relaxOne ((dd : α) : WithTop α) (dij, qheap) cw).1
      (relaxOne ((dd : α) : WithTop α) (dij, qheap) cw).2
      (fun x hx => h x (List.mem_cons_of_mem cw hx)) hdd2 inv2
    exact ⟨inv3, le_trans hlen2 hlen3⟩

theorem seedDict_shape {source : Cell} {adject : List (Entry α)} (c : Cell)
    (v : WithTop α) (h : alookup (seedDict source adject) c = some v) :
    (c = source ∧ v = 0) ∨ (c, v) ∈ adject := by
  rcases seed_fold_lookup_shape adject _ c v h with h2 | h2
  · rw [alookup_cons] at h2
    by_cases hc : source = c
    · rw [if_pos hc] at h2
      left
      exact ⟨hc.symm, by injection h2.symm⟩
    · rw [if_neg hc, alookup] at h2
      exact absurd h2 (by simp)
  · exact Or.inr h2

theorem seedDict_src {source : Cell} {adject : List (Entry α)}
    (hns : ∀ e ∈ adject, Prod.fst e ≠ source) :
    alookup (seedDict source adject) source = some 0 := by
  rw [seedDict, seed_fold_untouched adject _ source hns, alookup_cons, if_pos rfl]

theorem seed_fold_keys_nodup (l : List (Entry α)) :
    ∀ init : List (Cell × WithTop α), (init.map Prod.fst).Nodup →
      ((l.foldl (fun d e => upsert d e.1 e.2) init).map Prod.fst).Nodup := by
  induction l with
  | nil => exact fun init h => h
  | cons f t ih =>
    intro init h
    rw [List.foldl_cons]
    exact ih _ (upsert_keys_nodup f.1 f.2 h)

theorem seed_SizeInv {s : α} {g : Grid α} {source : Cell} {a0 wmax : α}
    (hwmax : 0 ≤ wmax) (hW : ∀ w ∈ gridWeights s g, w ≤ wmax)
    (hsrc : alookup g.spaces source = some a0)
    {adject : List (Entry α)} (hnav : navigation_edges s g source = some adject) :
    SizeInv g source wmax (seedDict source adject) := by
  have hsrc0 : alookup (seedDict source adject) source = some 0 :=
    seedDict_src (nav_no_self hnav)
  have hlen1 : 1 ≤ (seedDict source adject).length := by
    rcases hd : seedDict source adject with _ | ⟨kv, t⟩
    · rw [hd] at hsrc0
      exact absurd hsrc0 (by simp [alookup])
    · simp
  have hkey : source ∈ g.spaces.map Prod.fst :=
    List.mem_map_of_mem Prod.fst (alookup_mem hsrc)
  refine ⟨?_, ?_, ?_, ?_⟩
  · rw [seedDict]
    refine seed_fold_keys_nodup adject _ ?_
    simp
  · intro c hc
    obtain ⟨v, hv⟩ := Option.isSome_iff_exists.mp hc
    rcases seedDict_shape c v hv with ⟨hc2, _⟩ | hmem
    · rw [hc2]
      exact List.mem_cons_self _ _
    · rcases (nav_sound hnav (c, v) hmem).2 with ⟨a, _, b, hb, _⟩ | ⟨_, hw, _⟩
      · exact List.mem_cons_of_mem _ (List.mem_append_left _
          (List.mem_map_of_mem Prod.fst (alookup_mem hb)))
      · exact List.mem_cons_of_mem _ (List.mem_append_right _ hw)
  · intro c v hv
    rcases seedDict_shape c ((v : α) : WithTop α) hv with ⟨_, hv0⟩ | hmem
    · have hv00 : v = 0 := by exact_mod_cast hv0
      rw [hv00]
      exact mul_nonneg (Nat.cast_nonneg _) hwmax
    · have hww : v ∈ gridWeights s g := gridWeights_mem hkey hnav hmem
      have h1 := hW v hww
      calc v ≤ wmax := h1
        _ = 1 * wmax := (one_mul wmax).symm
        _ ≤ ((seedDict source adject).length : α) * wmax := by
            exact mul_le_mul_of_nonneg_right (by exact_mod_cast hlen1) hwmax
  · intro c hv
    rcases seedDict_shape c (⊤ : WithTop α) hv with ⟨_, hv0⟩ | hmem
    · have hcon : ((0 : α) : WithTop α) = ⊤ := hv0.symm
      exact absurd hcon WithTop.coe_ne_top
    · exact nav_top_wall hnav (c, ⊤) hmem rfl

/-- The per-key potential: how many candidate values (from the finite set `V`)
lie strictly below the key's current dictionary value. -/
def potFn (V : Finset α) (dij : List (Cell × WithTop α)) (k : Cell) : ℕ :=
  (V.filter fun v => ((v : α) : WithTop α) < dLook dij k).card

/-- The loop measure: heap length plus twice the total key potential plus
twice the number of wall cells not yet in the dictionary. -/
def measureFn (V : Finset α) (U wallsL : List Cell)
    (dij : List (Cell × WithTop α)) (qheap : List (Entry α)) : ℕ :=
  qheap.length + 2 * (U.map (potFn V dij)).sum +
    2 * (wallsL.filter fun k => (alookup dij k).isNone).length

theorem potFn_congr {V : Finset α} {dij dij2 : List (Cell × WithTop α)} {k : Cell}
    (h : dLook dij2 k = dLook dij k) : potFn V dij2 k = potFn V dij k := by
  simp only [potFn, h]

theorem potFn_lt {V : Finset α} {dij dij2 : List (Cell × WithTop α)} {k : Cell} {nv : α}
    (hnew : dLook dij2 k = ((nv : α) : WithTop α)) (hmem : nv ∈ V)
    (hlt : ((nv : α) : WithTop α) < dLook dij k) :
    potFn V dij2 k + 1 ≤ potFn V dij k := by
  have hsub : (V.filter fun v => ((v : α) : WithTop α) < dLook dij2 k) ⊆
      V.filter fun v => ((v : α) : WithTop α) < dLook dij k := by
    intro v hv
    rw [Finset.mem_filter] at hv ⊢
    refine ⟨hv.1, ?_⟩
    rw [hnew] at hv
    exact lt_trans hv.2 hlt
  have hssub : (V.filter fun v => ((v : α) : WithTop α) < dLook dij2 k) ⊂
      V.filter fun v => ((v : α) : WithTop α) < dLook dij k := by
    rw [Finset.ssubset_iff_of_subset hsub]
    refine ⟨nv, ?_, ?_⟩
    · rw [Finset.mem_filter]
      exact ⟨hmem, hlt⟩
    · rw [Finset.mem_filter, hnew]
      rintro ⟨_, h2⟩
      exact absurd h2 (lt_irrefl _)
  have h3 := Finset.card_lt_card hssub
  rw [potFn, potFn]
  omega

theorem relaxOne_measure (V : Finset α) (U wallsL : List Cell) {dd : α}
    (st : List (Cell × WithTop α) × List (Entry α)) (cw : Entry α)
    (hcase : (∃ w : α, cw.2 = ((w : α) : WithTop α) ∧ (w + dd) ∈ V ∧ cw.1 ∈ U ∧
        cw.1 ∉ wallsL) ∨
      (cw.2 = (⊤ : WithTop α) ∧ cw.1 ∈ wallsL)) :
    measureFn V U wallsL (relaxOne ((dd : α) : WithTop α) st cw).1
        (relaxOne ((dd : α) : WithTop α) st cw).2 ≤
      measureFn V U wallsL st.1 st.2 := by
  rcases hcase with ⟨w, hw, hwV, hwU, hwW⟩ | ⟨htt, hwW⟩
  · have hnv : cw.2 + ((dd : α) : WithTop α) = (((w + dd : α)) : WithTop α) := by
      rw [hw, ← WithTop.coe_add]
    rcases hl : alookup st.1 cw.1 with _ | old
    · -- insert a finite value
      have heq1 : (relaxOne ((dd : α) : WithTop α) st cw).1 =
          upsert st.1 cw.1 (((w + dd : α)) : WithTop α) := by
        rw [relaxOne_eq_insert ((dd : α) : WithTop α) st cw hl, hnv]
      have heq2 : (relaxOne ((dd : α) : WithTop α) st cw).2 =
          st.2 ++ [(cw.1, (((w + dd : α)) : WithTop α))] := by
        rw [relaxOne_eq_insert ((dd : α) : WithTop α) st cw hl, hnv]
      rw [heq1, heq2]
      have hlen : (st.2 ++ [(cw.1, (((w + dd : α)) : WithTop α))]).length =
          st.2.length + 1 := by simp
      have hpot : potFn V (upsert st.1 cw.1 (((w + dd : α)) : WithTop α)) cw.1 + 1 ≤
          potFn V st.1 cw.1 := by
        refine potFn_lt ?_ hwV ?_
        · rw [dLook, alookup_upsert_self, Option.getD_some]
        · rw [dLook_none hl]
          exact WithTop.coe_lt_top _
      have hpots : ∀ k ∈ U, potFn V (upsert st.1 cw.1 (((w + dd : α)) : WithTop α)) k ≤
          potFn V st.1 k := by
        intro k hk
        by_cases hkc : k = cw.1
        · subst hkc
          omega
        · refine le_of_eq (potFn_congr ?_)
          rw [dLook, dLook, alookup_upsert_ne _ _ _ _ (fun h2 => hkc h2.symm)]
      have hsum := sum_map_succ_le (potFn V st.1)
        (potFn V (upsert st.1 cw.1 (((w + dd : α)) : WithTop α))) cw.1 hpot U hwU hpots
      have hwalls : (wallsL.filter fun k =>
            (alookup (upsert st.1 cw.1 (((w + dd : α)) : WithTop α)) k).isNone).length =
          (wallsL.filter fun k => (alookup st.1 k).isNone).length := by
        refine congrArg List.length (List.filter_congr ?_)
        intro k hk
        have hkc : cw.1 ≠ k := fun h2 => hwW (h2 ▸ hk)
        rw [alookup_upsert_ne _ _ _ _ hkc]
      rw [measureFn, measureFn]
      omega
    · by_cases hgt : old > cw.2 + ((dd : α) : WithTop α)
      · -- improve an existing value
        have heq1 : (relaxOne ((dd : α) : WithTop α) st cw).1 =
            upsert st.1 cw.1 (((w + dd : α)) : WithTop α) := by
          rw [relaxOne_eq_update ((dd : α) : WithTop α) st cw old hl hgt, hnv]
        have heq2 : (relaxOne ((dd : α) : WithTop α) st cw).2 =
            st.2 ++ [(cw.1, (((w + dd : α)) : WithTop α))] := by
          rw [relaxOne_eq_update ((dd : α) : WithTop α) st cw old hl hgt, hnv]
        rw [heq1, heq2]
        have hlen : (st.2 ++ [(cw.1, (((w + dd : α)) : WithTop α))]).length =
            st.2.length + 1 := by simp
        have hpot : potFn V (upsert st.1 cw.1 (((w + dd : α)) : WithTop α)) cw.1 + 1 ≤
            potFn V st.1 cw.1 := by
          refine potFn_lt ?_ hwV ?_
          · rw [dLook, alookup_upsert_self, Option.getD_some]
          · rw [dLook_eq hl, ← hnv]
            exact hgt
        have hpots : ∀ k ∈ U, potFn V (upsert st.1 cw.1 (((w + dd : α)) : WithTop α)) k ≤
            potFn V st.1 k := by
          intro k hk
          by_cases hkc : k = cw.1
          · subst hkc
            omega
          · refine le_of_eq (potFn_congr ?_)
            rw [dLook, dLook, alookup_upsert_ne _ _ _ _ (fun h2 => hkc h2.symm)]
        have hsum := sum_map_succ_le (potFn V st.1)
          (potFn V (upsert st.1 cw.1 (((w + dd : α)) : WithTop α))) cw.1 hpot U hwU hpots
        have hwalls : (wallsL.filter fun k =>
              (alookup (upsert st.1 cw.1 (((w + dd : α)) : WithTop α)) k).isNone).length =
            (wallsL.filter fun k => (alookup st.1 k).isNone).length := by
          refine congrArg List.length (List.filter_congr ?_)
          intro k hk
          have hkc : cw.1 ≠ k := fun h2 => hwW (h2 ▸ hk)
          rw [alookup_upsert_ne _ _ _ _ hkc]
        rw [measureFn, measureFn]
        omega
      · rw [relaxOne_eq_keep ((dd : α) : WithTop α) st cw old hl hgt]
  · have hnvt : cw.2 + ((dd : α) : WithTop α) = (⊤ : WithTop α) := by
      rw [htt, WithTop.top_add]
    rcases hl : alookup st.1 cw.1 with _ | old
    · -- insert a wall cell with value `inf`
      have heq1 : (relaxOne ((dd : α) : WithTop α) st cw).1 =
          upsert st.1 cw.1 (⊤ : WithTop α) := by
        rw [relaxOne_eq_insert ((dd : α) : WithTop α) st cw hl, hnvt]
      have heq2 : (relaxOne ((dd : α) : WithTop α) st cw).2 =
          st.2 ++ [(cw.1, (⊤ : WithTop α))] := by
        rw [relaxOne_eq_insert ((dd : α) : WithTop α) st cw hl, hnvt]
      rw [heq1, heq2]
      have hlen : (st.2 ++ [(cw.1, (⊤ : WithTop α))]).length = st.2.length + 1 := by
        simp
      have hpots : ∀ k ∈ U, potFn V (upsert st.1 cw.1 (⊤ : WithTop α)) k ≤
          potFn V st.1 k := by
        intro k hk
        refine le_of_eq (potFn_congr ?_)
        by_cases hkc : k = cw.1
        · subst hkc
          rw [dLook, alookup_upsert_self, Option.getD_some, dLook_none hl]
        · rw [dLook, dLook, alookup_upsert_ne _ _ _ _ (fun h2 => hkc h2.symm)]
      have hsum := sum_map_le_pointwise U (potFn V st.1)
        (potFn V (upsert st.1 cw.1 (⊤ : WithTop α))) hpots
      have hwn : (wallsL.filter fun k =>
            (alookup (upsert st.1 cw.1 (⊤ : WithTop α)) k).isNone).length + 1 ≤
          (wallsL.filter fun k => (alookup st.1 k).isNone).length := by
        refine filter_length_succ_le _ _ cw.1 ?_ ?_ wallsL hwW ?_
        · rw [hl]
          rfl
        · rw [alookup_upsert_self]
          rfl
        · intro x hx hqx
          by_cases hxc : x = cw.1
          · subst hxc
            rw [alookup_upsert_self] at hqx
            exact absurd hqx (by simp)
          · rw [alookup_upsert_ne _ _ _ _ (fun h2 => hxc h2.symm)] at hqx
            exact hqx
      rw [measureFn, measureFn]
      omega
    · have hgt : ¬ old > cw.2 + ((dd : α) : WithTop α) := by
        rw [hnvt]
        exact not_top_lt
      rw [relaxOne_eq_keep ((dd : α) : WithTop α) st cw old hl hgt]

theorem relaxAll_measure (V : Finset α) (U wallsL : List Cell) {dd : α} :
    ∀ (costs : List (Entry α)) (dij : List (Cell × WithTop α)) (qheap : List (Entry α)),
      (∀ cw ∈ costs, (∃ w : α, cw.2 = ((w : α) : WithTop α) ∧ (w + dd) ∈ V ∧
          cw.1 ∈ U ∧ cw.1 ∉ wallsL) ∨
        (cw.2 = (⊤ : WithTop α) ∧ cw.1 ∈ wallsL)) →
      measureFn V U wallsL (relaxAll ((dd : α) : WithTop α) dij qheap costs).1
          (relaxAll ((dd : α) : WithTop α) dij qheap costs).2 ≤
        measureFn V U wallsL dij qheap := by
  intro costs
  induction costs with
  | nil => exact fun dij qheap _ => le_refl _
  | cons cw t ih =>
    intro dij qheap h
    have hstep := relaxOne_measure V U wallsL (dij, qheap) cw
      (h cw (List.mem_cons_self cw t))
    have hrest := ih (relaxOne ((dd : α) : WithTop α) (dij, qheap) cw).1
      (relaxOne ((dd : α) : WithTop α) (dij, qheap) cw).2
      (fun x hx => h x (List.mem_cons_of_mem cw hx))
    exact le_trans hrest hstep

end TerminationInvariant

/-!
The relaxation loop of `dijkstras_shortest_path` terminates: each iteration
strictly decreases the measure, so fuel exceeding the initial measure never
times out.
-/

section LoopTermination

variable {α : Type} [LinearOrderedField α]

theorem spLoop_no_timeout {s : α} {g : Grid α} {source : Cell} (dest : Cell)
    (hs : 0 < s) (hpos : ∀ p ∈ g.spaces, 0 < Prod.snd p)
    (hdisj : ∀ c ∈ g.walls, alookup g.spaces c = none)
    (dl wmax : α) (N : ℕ) (hdl : 0 < dl) (hwmax : 0 ≤ wmax)
    (hWlb : ∀ w ∈ gridWeights s g, dl ≤ w)
    (hWub : ∀ w ∈ gridWeights s g, w ≤ wmax)
    (hBN : ((1 + g.spaces.length + g.walls.length : ℕ) : α) * wmax < (N : α) * dl) :
    ∀ (n : ℕ) (dij : List (Cell × WithTop α)) (qheap : List (Entry α)),
      LoopInv s g source dij qheap → SizeInv g source wmax dij →
      measureFn ((sumsLe (gridWeights s g) N).toFinset)
        ((g.spaces.map Prod.fst).dedup) (g.walls.dedup) dij qheap < n →
      spLoop (navigation_edges s) g dest n dij qheap ≠ Res.timeout := by
  intro n
  induction n with
  | zero =>
    intro dij qheap _ _ hm
    exact absurd hm (Nat.not_lt_zero _)
  | succ k ih =>
    intro dij qheap inv sinv hm
    rcases hpop : popMin qheap with _ | ⟨⟨u, cu⟩, rest⟩
    · rw [spLoop_succ_empty _ _ _ _ _ _ hpop]
      exact fun hcon => Res.noConfusion hcon
    · rw [spLoop_succ_pop _ _ _ _ _ _ _ _ _ hpop]
      have hql : qheap.length = rest.length + 1 := popMin_length hpop
      by_cases hd : u = dest
      · rw [if_pos hd]
        exact fun hcon => Res.noConfusion hcon
      · rw [if_neg hd]
        by_cases hw : u ∈ g.walls
        · rw [if_pos hw]
          refine ih dij rest (wall_skip_inv inv hpop hw) sinv ?_
          rw [measureFn] at hm ⊢
          omega
        · rw [if_neg hw]
          rcases hdu : alookup dij u with _ | du
          · rcases hadj : navigation_edges s g u with _ | costs
            · intro hcon
              have hcon2 : (Res.err : Res (List (Cell × WithTop α))) = Res.timeout := hcon
              exact Res.noConfusion hcon2
            · intro hcon
              have hcon2 : (Res.err : Res (List (Cell × WithTop α))) = Res.timeout := hcon
              exact Res.noConfusion hcon2
          · rcases hadj : navigation_edges s g u with _ | costs
            · intro hcon
              have hcon2 : (Res.err : Res (List (Cell × WithTop α))) = Res.timeout := hcon
              exact Res.noConfusion hcon2
            · -- the popped cell is not a wall, so its value is finite
              have hduf : du ≠ (⊤ : WithTop α) :=
                fun h2 => hw ((inv.topWall u du hdu).mp h2)
              obtain ⟨dd, hdd⟩ := WithTop.ne_top_iff_exists.mp hduf
              subst hdd
              -- its value is a path cost, hence a bounded sum of edge weights
              have hvp : ValidPath s g source u dd := by
                rcases inv.achieve u ((dd : α) : WithTop α) hdu with h2 | ⟨d2, hd2, hvp2⟩
                · exact absurd h2 WithTop.coe_ne_top
                · have h3 : dd = d2 := WithTop.coe_inj.mp hd2
                  rw [h3]
                  exact hvp2
              obtain ⟨lw, hlw, hlwsum⟩ := vp_weights hvp
              have hbd : dd ≤ (dij.length : α) * wmax := sinv.bound u dd hdu
              have hK : (dij.length : α) ≤
                  ((1 + g.spaces.length + g.walls.length : ℕ) : α) := by
                exact_mod_cast sinv.len_le
              have hbd2 : dd < (N : α) * dl :=
                lt_of_le_of_lt (le_trans hbd (mul_le_mul_of_nonneg_right hK hwmax)) hBN
              have hlwlen : lw.length < N := by
                have h1 : (lw.length : α) * dl ≤ dd := by
                  rw [hlwsum]
                  exact len_mul_le_sum (le_of_lt hdl) (fun x hx => hWlb x (hlw x hx))
                have h2 : (lw.length : α) * dl < (N : α) * dl := lt_of_le_of_lt h1 hbd2
                have h3 := (mul_lt_mul_right hdl).mp h2
                exact_mod_cast h3
              have hVmem : ∀ w2 : α, w2 ∈ gridWeights s g →
                  (w2 + dd) ∈ (sumsLe (gridWeights s g) N).toFinset := by
                intro w2 hw2
                rw [List.mem_toFinset]
                have hs2 : (w2 :: lw).sum = w2 + dd := by
                  rw [List.sum_cons, ← hlwsum]
                rw [← hs2]
                refine sum_mem_sumsLe _ N (w2 :: lw) ?_ ?_
                · rw [List.length_cons]
                  omega
                · intro x hx
                  rcases List.mem_cons.mp hx with hx | hx
                  · rw [hx]
                    exact hw2
                  · exact hlw x hx
              have hcase : ∀ cw ∈ costs,
                  (∃ w2 : α, cw.2 = ((w2 : α) : WithTop α) ∧
                    (w2 + dd) ∈ (sumsLe (gridWeights s g) N).toFinset ∧
                    cw.1 ∈ (g.spaces.map Prod.fst).dedup ∧ cw.1 ∉ g.walls.dedup) ∨
                  (cw.2 = (⊤ : WithTop α) ∧ cw.1 ∈ g.walls.dedup) := by
                intro cw hcw
                rcases (nav_sound hadj cw hcw).2 with
                  ⟨a, ha, b, hb, hcost⟩ | ⟨_, hwl, httop⟩
                · left
                  have hukey : u ∈ g.spaces.map Prod.fst :=
                    List.mem_map_of_mem Prod.fst (alookup_mem ha)
                  have hckey : cw.1 ∈ (g.spaces.map Prod.fst).dedup :=
                    List.mem_dedup.mpr (List.mem_map_of_mem Prod.fst (alookup_mem hb))
                  have hcnw : cw.1 ∉ g.walls.dedup := by
                    intro h2
                    rw [hdisj cw.1 (List.mem_dedup.mp h2)] at hb
                    exact absurd hb (by simp)
                  rcases hcost with ⟨_, hcost⟩ | ⟨_, hcost⟩
                  · have hpair : cw =
                        ((cw.1, (((a * s + b * s : α)) : WithTop α)) : Entry α) :=
                      Prod.ext rfl hcost
                    refine ⟨a * s + b * s, hcost, hVmem _ ?_, hckey, hcnw⟩
                    refine gridWeights_mem (c := cw.1) hukey hadj ?_
                    rw [← hpair]
                    exact hcw
                  · have hpair : cw =
                        ((cw.1, (((a * (1 / 2) + b * (1 / 2) : α)) : WithTop α)) : Entry α) :=
                      Prod.ext rfl hcost
                    refine ⟨a * (1 / 2) + b * (1 / 2), hcost, hVmem _ ?_, hckey, hcnw⟩
                    refine gridWeights_mem (c := cw.1) hukey hadj ?_
                    rw [← hpair]
                    exact hcw
                · right
                  exact ⟨httop, List.mem_dedup.mpr hwl⟩
              have hsz : ∀ cw ∈ costs, (∀ w2 : α, cw.2 = ((w2 : α) : WithTop α) →
                  w2 ≤ wmax ∧ cw.1 ∈ g.spaces.map Prod.fst ∧ cw.1 ∉ g.walls) ∧
                  (cw.2 = (⊤ : WithTop α) → cw.1 ∈ g.walls) := by
                intro cw hcw
                constructor
                · intro w2 hw2
                  rcases (nav_sound hadj cw hcw).2 with
                    ⟨a, ha, b, hb, _⟩ | ⟨_, _, httop⟩
                  · refine ⟨?_, List.mem_map_of_mem Prod.fst (alookup_mem hb), ?_⟩
                    · have hukey : u ∈ g.spaces.map Prod.fst :=
                        List.mem_map_of_mem Prod.fst (alookup_mem ha)
                      have hpair : cw = ((cw.1, ((w2 : α) : WithTop α)) : Entry α) :=
                        Prod.ext rfl hw2
                      refine hWub w2 (gridWeights_mem (c := cw.1) hukey hadj ?_)
                      rw [← hpair]
                      exact hcw
                    · intro h2
                      rw [hdisj cw.1 h2] at hb
                      exact absurd hb (by simp)
                  · rw [httop] at hw2
                    exact absurd hw2.symm WithTop.coe_ne_top
                · intro h2
                  exact nav_top_wall hadj cw hcw h2
              obtain ⟨sinv2, _⟩ := relaxAll_SizeInv hwmax costs dij rest hsz hbd sinv
              have hmeas := relaxAll_measure ((sumsLe (gridWeights s g) N).toFinset)
                ((g.spaces.map Prod.fst).dedup) (g.walls.dedup) costs dij rest hcase
              have hM2 : measureFn ((sumsLe (gridWeights s g) N).toFinset)
                  ((g.spaces.map Prod.fst).dedup) (g.walls.dedup) dij rest + 1 =
                  measureFn ((sumsLe (gridWeights s g) N).toFinset)
                    ((g.spaces.map Prod.fst).dedup) (g.walls.dedup) dij qheap := by
                rw [measureFn, measureFn]
                omega
              show spLoop (navigation_edges s) g dest k
                  (relaxAll ((dd : α) : WithTop α) dij rest costs).1
                  (relaxAll ((dd : α) : WithTop α) dij rest costs).2 ≠ Res.timeout
              refine ih _ _ (relax_step_inv hs hpos hdisj inv hpop hw hdu hadj) sinv2 ?_
              omega

theorem spLoop_fuel_mono (adj : Grid α → Cell → Option (List (Entry α)))
    (g : Grid α) (dest : Cell) :
    ∀ (n k : ℕ) (dij : List (Cell × WithTop α)) (qheap : List (Entry α)),
      spLoop adj g dest n dij qheap ≠ Res.timeout →
      spLoop adj g dest (n + k) dij qheap = spLoop adj g dest n dij qheap := by
  intro n
  induction n with
  | zero =>
    intro k dij qheap h
    exact absurd rfl h
  | succ m ih =>
    intro k dij qheap h
    rw [show m + 1 + k = (m + k) + 1 from by omega]
    rcases hpop : popMin qheap with _ | ⟨⟨u, cu⟩, rest⟩
    · rw [spLoop_succ_empty _ _ _ _ _ _ hpop, spLoop_succ_empty _ _ _ _ _ _ hpop]
    · rw [spLoop_succ_pop _ _ _ _ _ _ _ _ _ hpop, spLoop_succ_pop _ _ _ _ _ _ _ _ _ hpop]
      rw [spLoop_succ_pop _ _ _ _ _ _ _ _ _ hpop] at h
      by_cases hd : u = dest
      · rw [if_pos hd, if_pos hd]
      · rw [if_neg hd, if_neg hd]
        rw [if_neg hd] at h
        by_cases hw : u ∈ g.walls
        · rw [if_pos hw, if_pos hw]
          rw [if_pos hw] at h
          exact ih k dij rest h
        · rw [if_neg hw, if_neg hw]
          rw [if_neg hw] at h
          rcases hdu : alookup dij u with _ | du
          · rcases hadj : adj g u with _ | costs
            · rfl
            · rfl
          · rcases hadj : adj g u with _ | costs
            · rfl
            · rw [hdu, hadj] at h
              have h2 : spLoop adj g dest m (relaxAll du dij rest costs).1
                  (relaxAll du dij rest costs).2 ≠ Res.timeout := h
              show spLoop adj g dest (m + k) (relaxAll du dij rest costs).1
                  (relaxAll du dij rest costs).2 =
                spLoop adj g dest m (relaxAll du dij rest costs).1
                  (relaxAll du dij rest costs).2
              exact ih k _ _ h2

theorem spLoop_walls_only (adj : Grid α → Cell → Option (List (Entry α)))
    (g : Grid α) (dest : Cell) (dij : List (Cell × WithTop α)) :
    ∀ (n : ℕ) (qheap : List (Entry α)), (∀ e ∈ qheap, Prod.fst e ∈ g.walls) →
      qheap.length < n → spLoop adj g dest n dij qheap = Res.ok dij := by
  intro n
  induction n with
  | zero =>
    intro qheap _ hlen
    exact absurd hlen (Nat.not_lt_zero _)
  | succ k ih =>
    intro qheap hq hlen
    rcases hpop : popMin qheap with _ | ⟨⟨u, cu⟩, rest⟩
    · exact spLoop_succ_empty _ _ _ _ _ _ hpop
    · rw [spLoop_succ_pop _ _ _ _ _ _ _ _ _ hpop]
      by_cases hd : u = dest
      · rw [if_pos hd]
      · rw [if_neg hd]
        have hwu : u ∈ g.walls := hq (u, cu) (popMin_mem hpop)
        rw [if_pos hwu]
        refine ih rest (fun e he => hq e (popMin_rest_subset hpop e he)) ?_
        have h2 := popMin_length hpop
        omega

end LoopTermination

/-!
The reconstruction loop terminates: whenever the current cell differs from the
source, the `pred` field of the dictionary invariant supplies a strictly
cheaper cell in the scanned 3-by-3 box, so the number of dictionary entries
cheaper than the current cell strictly decreases.
-/

section ReconTermination

variable {α : Type} [LinearOrderedField α]

/-- The reconstruction measure: how many dictionary entries are strictly
cheaper than the current cell. -/
def rmeasure (dij : List (Cell × WithTop α)) (curr : Cell) : ℕ :=
  (dij.filter fun kv => decide (Prod.snd kv < dLook dij curr)).length

theorem rmeasure_lt {dij : List (Cell × WithTop α)} {curr nxt : Cell}
    {a b : WithTop α} (hb : alookup dij curr = some b) (ha : alookup dij nxt = some a)
    (hab : a < b) : rmeasure dij nxt + 1 ≤ rmeasure dij curr := by
  rw [rmeasure, rmeasure]
  simp only [dLook_eq hb, dLook_eq ha]
  refine filter_length_succ_le _ _ ((nxt, a) : Cell × WithTop α) ?_ ?_ dij
    (alookup_mem ha) ?_
  · simp only [decide_eq_true_eq]
    exact hab
  · simp only [decide_eq_false_iff_not]
    exact lt_irrefl a
  · intro x _ hx
    simp only [decide_eq_true_eq] at hx ⊢
    exact lt_trans hx hab

theorem boxCond_of_lookups {dij : List (Cell × WithTop α)} {u curr : Cell}
    {vu v : WithTop α} (hu : alookup dij u = some vu) (hc : alookup dij curr = some v)
    (hlt : vu < v) : boxCond dij u curr curr = true := by
  rw [boxCond, hu, hc]
  simp [hlt]

theorem scanBox_progress_aux (dij : List (Cell × WithTop α)) (curr : Cell) :
    ∀ (cs : List Cell) (found0 : Cell),
      (∃ u, u ∈ cs ∧ boxCond dij u curr found0 = true) →
      ∃ a b, alookup dij (cs.foldl (fun found check =>
          if boxCond dij check curr found then check else found) found0) = some a ∧
        alookup dij curr = some b ∧ a < b := by
  intro cs
  induction cs with
  | nil =>
    intro found0 h
    obtain ⟨u, hu, _⟩ := h
    simp at hu
  | cons c t ih =>
    intro found0 h
    rw [List.foldl_cons]
    by_cases hcond : boxCond dij c curr found0 = true
    · rw [if_pos hcond]
      rcases scanBox_shape dij curr t c with h2 | h2
      · rw [h2]
        exact boxCond_true hcond
      · exact h2
    · rw [if_neg hcond]
      obtain ⟨u, hu, hcu⟩ := h
      rcases List.mem_cons.mp hu with hu2 | hu2
      · exact absurd (hu2 ▸ hcu) hcond
      · exact ih found0 ⟨u, hu2, hcu⟩

theorem scanBox_progress (dij : List (Cell × WithTop α)) (curr found0 : Cell)
    (h : ∃ u, u ∈ boxCells curr ∧ boxCond dij u curr found0 = true) :
    ∃ a b, alookup dij (scanBox dij curr found0) = some a ∧
      alookup dij curr = some b ∧ a < b :=
  scanBox_progress_aux dij curr (boxCells curr) found0 h

theorem reconLoop_no_timeout (dij : List (Cell × WithTop α)) (source : Cell)
    (hpred : ∀ c v, alookup dij c = some v → c ≠ source →
      ∃ u, u ∈ boxCells c ∧ ∃ vu, alookup dij u = some vu ∧ vu < v) :
    ∀ (n : ℕ) (curr : Cell) (path : List Cell), (alookup dij curr).isSome →
      rmeasure dij curr < n →
      reconLoop dij source n curr path ≠ Res.timeout := by
  intro n
  induction n with
  | zero =>
    intro curr path _ hm
    exact absurd hm (Nat.not_lt_zero _)
  | succ k ih =>
    intro curr path hc hm
    by_cases hcs : curr = source
    · rw [reconLoop_succ_done _ _ _ _ _ hcs]
      exact fun hcon => Res.noConfusion hcon
    · rw [reconLoop_succ_go _ _ _ _ _ hcs]
      obtain ⟨b, hb⟩ := Option.isSome_iff_exists.mp hc
      obtain ⟨u, hub, vu, hvu, hlt⟩ := hpred curr b hb hcs
      have hcond : boxCond dij u curr curr = true := boxCond_of_lookups hvu hb hlt
      obtain ⟨a, b2, hsb, hb2, hab⟩ :=
        scanBox_progress dij curr curr ⟨u, hub, hcond⟩
      have hbb : b2 = b := by
        have h3 := hb2.symm.trans hb
        injection h3
      subst hbb
      refine ih (scanBox dij curr curr) (scanBox dij curr curr :: path) ?_ ?_
      · rw [hsb]
        rfl
      · have h4 := rmeasure_lt hb hsb hab
        omega

end ReconTermination

/-- C10: on a level satisfying the data-model invariant (positive space costs,
spaces and walls disjoint), for every choice of source and destination cells
the single-destination query terminates: some fuel makes
`dijkstras_shortest_path` return — a path, the no-path answer, or the
`KeyError` raised when the source is outside `spaces` but borders a space —
and never time out.  In particular both the relaxation loop and the backward
reconstruction loop finish. -/
theorem C10_termination {α : Type} [LinearOrderedField α] [Archimedean α]
    (s : α) (hs : 0 < s) (g : Grid α)
    (hpos : ∀ p ∈ g.spaces, 0 < Prod.snd p)
    (hdisj : ∀ c ∈ g.walls, alookup g.spaces c = none)
    (source destination : Cell) :
    ∃ fuel : ℕ,
      dijkstras_shortest_path fuel (navigation_edges s) source destination g ≠
        Res.timeout := by
  rcases hnav : navigation_edges s g source with _ | adject
  · -- the adjacency call raises a KeyError
    refine ⟨1, ?_⟩
    intro hcon
    rw [dijkstras_shortest_path, hnav] at hcon
    exact Res.noConfusion hcon
  · rcases hsrcq : alookup g.spaces source with _ | a0
    · -- the source is not a space: the adjacency list holds only wall entries
      have hallw : ∀ e ∈ adject, Prod.fst e ∈ g.walls ∧
          Prod.snd e = (⊤ : WithTop α) ∧ Prod.fst e ∈ nearCells source := by
        intro e he
        obtain ⟨hnear, hcase⟩ := nav_sound hnav e he
        rcases hcase with ⟨a, ha, _⟩ | ⟨_, hw, ht⟩
        · rw [hsrcq] at ha
          exact absurd ha (by simp)
        · exact ⟨hw, ht, hnear⟩
      have hsrc0 : alookup (seedDict source adject) source = some 0 :=
        seedDict_src (nav_no_self hnav)
      have hpred : ∀ c v, alookup (seedDict source adject) c = some v → c ≠ source →
          ∃ u, u ∈ boxCells c ∧ ∃ vu,
            alookup (seedDict source adject) u = some vu ∧ vu < v := by
        intro c v hcv hcs
        rcases seedDict_shape c v hcv with ⟨hc2, _⟩ | hmem
        · exact absurd hc2 hcs
        · obtain ⟨_, ht, hnear⟩ := hallw (c, v) hmem
          refine ⟨source, mem_boxCells_of_nearCells hnear, 0, hsrc0, ?_⟩
          have hv : v = ⊤ := ht
          rw [hv]
          exact WithTop.coe_lt_top 0
      rcases hmd : alookup (seedDict source adject) destination with _ | v
      · -- unreachable destination: the query answers "no path"
        refine ⟨adject.length + 1, ?_⟩
        have hsp : spLoop (navigation_edges s) g destination (adject.length + 1)
            (seedDict source adject) adject = Res.ok (seedDict source adject) :=
          spLoop_walls_only (navigation_edges s) g destination (seedDict source adject)
            (adject.length + 1) adject (fun e he => (hallw e he).1) (by omega)
        intro hcon
        rw [dijkstras_shortest_path, hnav] at hcon
        have hcon2 : (match spLoop (navigation_edges s) g destination (adject.length + 1)
              (seedDict source adject) adject with
            | Res.timeout => Res.timeout
            | Res.err => Res.err
            | Res.ok dij =>
              if (alookup dij destination).isNone then Res.ok none
              else
                match reconLoop dij source (adject.length + 1) destination
                    [destination] with
                | Res.timeout => Res.timeout
                | Res.err => Res.err
                | Res.ok path => Res.ok (some path)) = Res.timeout := hcon
        rw [hsp] at hcon2
        have hcon3 : (if (alookup (seedDict source adject) destination).isNone then
              (Res.ok none : Res (Option (List Cell)))
            else
              match reconLoop (seedDict source adject) source (adject.length + 1)
                  destination [destination] with
              | Res.timeout => Res.timeout
              | Res.err => Res.err
              | Res.ok path => Res.ok (some path)) = Res.timeout := hcon2
        rw [hmd] at hcon3
        have hcon4 : (Res.ok none : Res (Option (List Cell))) = Res.timeout := hcon3
        exact Res.noConfusion hcon4
      · -- the destination was seeded; reconstruction runs and terminates
        refine ⟨adject.length +
          (rmeasure (seedDict source adject) destination + 1) + 1, ?_⟩
        have hsp : spLoop (navigation_edges s) g destination
            (adject.length + (rmeasure (seedDict source adject) destination + 1) + 1)
            (seedDict source adject) adject = Res.ok (seedDict source adject) :=
          spLoop_walls_only (navigation_edges s) g destination (seedDict source adject)
            (adject.length + (rmeasure (seedDict source adject) destination + 1) + 1)
            adject (fun e he => (hallw e he).1) (by omega)
        have hrec := reconLoop_no_timeout (seedDict source adject) source hpred
          (adject.length + (rmeasure (seedDict source adject) destination + 1) + 1)
          destination [destination] (by rw [hmd]; rfl) (by omega)
        intro hcon
        rw [dijkstras_shortest_path, hnav] at hcon
        have hcon2 : (match spLoop (navigation_edges s) g destination
              (adject.length + (rmeasure (seedDict source adject) destination + 1) + 1)
              (seedDict source adject) adject with
            | Res.timeout => Res.timeout
            | Res.err => Res.err
            | Res.ok dij =>
              if (alookup dij destination).isNone then Res.ok none
              else
                match reconLoop dij source
                    (adject.length +
                      (rmeasure (seedDict source adject) destination + 1) + 1)
                    destination [destination] with
                | Res.timeout => Res.timeout
                | Res.err => Res.err
                | Res.ok path => Res.ok (some path)) = Res.timeout := hcon
        rw [hsp] at hcon2
        have hcon3 : (if (alookup (seedDict source adject) destination).isNone then
              (Res.ok none : Res (Option (List Cell)))
            else
              match reconLoop (seedDict source adject) source
                  (adject.length +
                    (rmeasure (seedDict source adject) destination + 1) + 1)
                  destination [destination] with
              | Res.timeout => Res.timeout
              | Res.err => Res.err
              | Res.ok path => Res.ok (some path)) = Res.timeout := hcon2
        rw [hmd] at hcon3
        have hcon4 : (match reconLoop (seedDict source adject) source
              (adject.length + (rmeasure (seedDict source adject) destination + 1) + 1)
              destination [destination] with
            | Res.timeout => Res.timeout
            | Res.err => Res.err
            | Res.ok path => Res.ok (some path)) = Res.timeout := hcon3
        rcases hrc : reconLoop (seedDict source adject) source
            (adject.length + (rmeasure (seedDict source adject) destination + 1) + 1)
            destination [destination] with _ | _ | p
        · exact absurd hrc hrec
        · rw [hrc] at hcon4
          have hcon5 : (Res.err : Res (Option (List Cell))) = Res.timeout := hcon4
          exact Res.noConfusion hcon5
        · rw [hrc] at hcon4
          have hcon5 : (Res.ok (some p) : Res (Option (List Cell))) = Res.timeout := hcon4
          exact Res.noConfusion hcon5
    · -- the source is a space: run the full invariant argument
      have hWpos : ∀ w ∈ gridWeights s g, 0 < w := gridWeights_pos hs hpos
      obtain ⟨dl, hdl, hWlb⟩ := list_lb_pos (gridWeights s g) hWpos
      obtain ⟨wmax, hwmax, hWub⟩ := list_ub (gridWeights s g)
      obtain ⟨N0, hN0⟩ := Archimedean.arch
        (((1 + g.spaces.length + g.walls.length : ℕ) : α) * wmax) hdl
      have hBN : ((1 + g.spaces.length + g.walls.length : ℕ) : α) * wmax <
          ((N0 + 1 : ℕ) : α) * dl := by
        rw [nsmul_eq_mul] at hN0
        have h2 : ((N0 + 1 : ℕ) : α) * dl = (N0 : α) * dl + dl := by
          push_cast
          ring
        rw [h2]
        linarith
      have hlinv := seed_inv hs hpos hdisj hsrcq hnav
      have hsinv := seed_SizeInv hwmax hWub hsrcq hnav
      set M0 := measureFn ((sumsLe (gridWeights s g) (N0 + 1)).toFinset)
        ((g.spaces.map Prod.fst).dedup) (g.walls.dedup) (seedDict source adject) adject
        with hM0def
      have hsp1 := spLoop_no_timeout destination hs hpos hdisj dl wmax (N0 + 1) hdl
        hwmax hWlb hWub hBN (M0 + 1) (seedDict source adject) adject hlinv hsinv
        (by omega)
      rcases hr : spLoop (navigation_edges s) g destination (M0 + 1)
          (seedDict source adject) adject with _ | _ | m
      · exact absurd hr hsp1
      · -- the loop raised a KeyError
        refine ⟨M0 + 1, ?_⟩
        intro hcon
        rw [dijkstras_shortest_path, hnav] at hcon
        have hcon2 : (match spLoop (navigation_edges s) g destination (M0 + 1)
              (seedDict source adject) adject with
            | Res.timeout => Res.timeout
            | Res.err => Res.err
            | Res.ok dij =>
              if (alookup dij destination).isNone then Res.ok none
              else
                match reconLoop dij source (M0 + 1) destination [destination] with
                | Res.timeout => Res.timeout
                | Res.err => Res.err
                | Res.ok path => Res.ok (some path)) = Res.timeout := hcon
        rw [hr] at hcon2
        have hcon3 : (Res.err : Res (Option (List Cell))) = Res.timeout := hcon2
        exact Res.noConfusion hcon3
      · -- the loop completed with dictionary `m`
        have dinv : DictInv s g source m :=
          spLoop_ok_inv hs hpos hdisj (M0 + 1) _ _ m hlinv hr
        rcases hmd : alookup m destination with _ | v
        · -- no path is reported
          refine ⟨M0 + 1, ?_⟩
          intro hcon
          rw [dijkstras_shortest_path, hnav] at hcon
          have hcon2 : (match spLoop (navigation_edges s) g destination (M0 + 1)
                (seedDict source adject) adject with
              | Res.timeout => Res.timeout
              | Res.err => Res.err
              | Res.ok dij =>
                if (alookup dij destination).isNone then Res.ok none
                else
                  match reconLoop dij source (M0 + 1) destination [destination] with
                  | Res.timeout => Res.timeout
                  | Res.err => Res.err
                  | Res.ok path => Res.ok (some path)) = Res.timeout := hcon
          rw [hr] at hcon2
          have hcon3 : (if (alookup m destination).isNone then
                (Res.ok none : Res (Option (List Cell)))
              else
                match reconLoop m source (M0 + 1) destination [destination] with
                | Res.timeout => Res.timeout
                | Res.err => Res.err
                | Res.ok path => Res.ok (some path)) = Res.timeout := hcon2
          rw [hmd] at hcon3
          have hcon4 : (Res.ok none : Res (Option (List Cell))) = Res.timeout := hcon3
          exact Res.noConfusion hcon4
        · -- reconstruction runs and terminates by the `pred` invariant
          refine ⟨M0 + 1 + (rmeasure m destination + 1), ?_⟩
          have hr2 : spLoop (navigation_edges s) g destination
              (M0 + 1 + (rmeasure m destination + 1)) (seedDict source adject) adject =
              Res.ok m := by
            rw [spLoop_fuel_mono (navigation_edges s) g destination (M0 + 1)
              (rmeasure m destination + 1) (seedDict source adject) adject
              (by rw [hr]; exact fun hcon => Res.noConfusion hcon)]
            exact hr
          have hrec := reconLoop_no_timeout m source dinv.pred
            (M0 + 1 + (rmeasure m destination + 1)) destination [destination]
            (by rw [hmd]; rfl) (by omega)
          intro hcon
          rw [dijkstras_shortest_path, hnav] at hcon
          have hcon2 : (match spLoop (navigation_edges s) g destination
                (M0 + 1 + (rmeasure m destination + 1)) (seedDict source adject)
                adject with
              | Res.timeout => Res.timeout
              | Res.err => Res.err
              | Res.ok dij =>
                if (alookup dij destination).isNone then Res.ok none
                else
                  match reconLoop dij source (M0 + 1 + (rmeasure m destination + 1))
                      destination [destination] with
                  | Res.timeout => Res.timeout
                  | Res.err => Res.err
                  | Res.ok path => Res.ok (some path)) = Res.timeout := hcon
          rw [hr2] at hcon2
          have hcon3 : (if (alookup m destination).isNone then
                (Res.ok none : Res (Option (List Cell)))
              else
                match reconLoop m source (M0 + 1 + (rmeasure m destination + 1))
                    destination [destination] with
                | Res.timeout => Res.timeout
                | Res.err => Res.err
                | Res.ok path => Res.ok (some path)) = Res.timeout := hcon2
          rw [hmd] at hcon3
          have hcon4 : (match reconLoop m source
                (M0 + 1 + (rmeasure m destination + 1)) destination [destination] with
              | Res.timeout => Res.timeout
              | Res.err => Res.err
              | Res.ok path => Res.ok (some path)) = Res.timeout := hcon3
          rcases hrc : reconLoop m source (M0 + 1 + (rmeasure m destination + 1))
              destination [destination] with _ | _ | p
          · exact absurd hrc hrec
          · rw [hrc] at hcon4
            have hcon5 : (Res.err : Res (Option (List Cell))) = Res.timeout := hcon4
            exact Res.noConfusion hcon5
          · rw [hrc] at hcon4
            have hcon5 : (Res.ok (some p) : Res (Option (List Cell))) = Res.timeout :=
              hcon4
            exact Res.noConfusion hcon5

/-- Witness for `C10_termination` on the two-cell corridor. -/
theorem C10_termination_witness :
    ∃ fuel : ℕ,
      dijkstras_shortest_path fuel (navigation_edges ((1:ℚ)/2)) (0,0) (1,0) gridPair ≠
        Res.timeout :=
  C10_termination ((1:ℚ)/2) (by norm_num) gridPair
    (by with_unfolding_all decide) (by simp [gridPair]) (0,0) (1,0)
